import Mathlib

/-!
Shallow embedding of the openml-python flow subsystem
(`openml/flows/flow.py` and `openml/extensions/sklearn/extension.py`),
together with proofs about the claims of the specification.

Modelling conventions:
* Machine floats are excluded from the value universe (no claim depends on
  floating point); integers stand in for the numeric JSON leaves.
* A Python string is represented by its JSON-parse status: `jstrRaw s` is a
  string whose text is not a valid JSON document (json.loads raises), while
  `jstrParsed j` is a string whose text parses to the JSON value `j`.  The
  source code stores `json.dumps` text in flow parameters and opportunistically
  re-parses strings during deserialization; representing a string by its parse
  tree captures exactly the behaviour that depends on the string.
* Dictionary keys of serialized JSON objects are represented as plain strings
  that are not themselves JSON documents (all keys appearing in the engine are
  identifiers such as "key", "step_name" or "oml-python:serialized_object").
* Importing a module member by its qualified path is modelled as succeeding
  and returning the object designated by that path; for model classes that
  lookup additionally consults an explicit class table carrying the
  constructor signature information that `inspect.getfullargspec` provides.
-/

namespace OpenML

/-- Error taxonomy: one constructor per distinct raise site that the claims
observe. -/
inductive Err where
  | typeError (msg : String)
  | valueError (msg : String)
  | keyError (k : String)
  | duplicateComponent (name : String)
  | shadowsParameter (id : String)
  | tupleLength
  | badSubComponent
  | cannotDeserialize (tag : String)
  | notSklearnFlow
  | nonStringForSerialization
  | keySetMismatch
  | njobsOptimization
  | searchSubclassNoDistributions
  | missingY
  | missingXTest
  | importFailure (path : String)
  | structureTooShort
  | missingComponent (flowName : String) (identifier : String)
  | badKeyItem
  | assertionFailure
  | indexError
  | unsupported (msg : String)
  | outOfFuel
deriving DecidableEq

/-- A parsed JSON document (the result of `json.loads`), with Python strings
represented by their own parse status (see module comment). -/
inductive JVal where
  | jnull
  | jbool (b : Bool)
  | jint (n : Int)
  | jstrRaw (s : String)
  | jstrParsed (j : JVal)
  | jarr (xs : List JVal)
  | jobj (es : List (String × JVal))

/-- Non-string, non-`None` Python values that can sit in a flow's parameter
`OrderedDict` (the flow constructor does not inspect them; `_to_dict`
rejects them). -/
inductive OVal where
  | oint (n : Int)
  | obool (b : Bool)
deriving DecidableEq

/-- A value stored in `OpenMLFlow.parameters` (the parameter default value):
`None`, a string (raw or JSON text), or a non-string value. -/
inductive FVal where
  | fnone
  | fstrRaw (s : String)
  | fstrParsed (j : JVal)
  | fother (v : OVal)

/-- A key of the parameter `OrderedDict`s: a string, or a non-string
hashable value (the constructor does not force string keys). -/
inductive PName where
  | strN (s : String)
  | otherN (v : OVal)
deriving DecidableEq

/-- The per-parameter metadata record; the source requires the keys
`description` and `data_type` to be present. -/
structure MetaInfo where
  description : FVal
  dataType : FVal

/-- The flow entity of `openml/flows/flow.py` (`OpenMLFlow`).  The live
`model` back-reference and the binary-artifact fields are not modelled (no
claim consults them). -/
inductive Flow where
  | mk (name : String) (classPath : Option String) (flowId : Option Int)
       (uploader : Option String) (version : Option String)
       (uploadDate : Option String) (externalVersion : String)
       (description : String) (language : Option String)
       (dependencies : Option String)
       (components : List (String × Flow))
       (parameters : List (PName × FVal))
       (parametersMetaInfo : List (PName × MetaInfo))
       (tags : List String)

namespace Flow

def name : Flow → String
  | .mk n _ _ _ _ _ _ _ _ _ _ _ _ _ => n

def classPath : Flow → Option String
  | .mk _ c _ _ _ _ _ _ _ _ _ _ _ _ => c

def flowId : Flow → Option Int
  | .mk _ _ i _ _ _ _ _ _ _ _ _ _ _ => i

def uploader : Flow → Option String
  | .mk _ _ _ u _ _ _ _ _ _ _ _ _ _ => u

def version : Flow → Option String
  | .mk _ _ _ _ v _ _ _ _ _ _ _ _ _ => v

def uploadDate : Flow → Option String
  | .mk _ _ _ _ _ d _ _ _ _ _ _ _ _ => d

def externalVersion : Flow → String
  | .mk _ _ _ _ _ _ e _ _ _ _ _ _ _ => e

def description : Flow → String
  | .mk _ _ _ _ _ _ _ d _ _ _ _ _ _ => d

def language : Flow → Option String
  | .mk _ _ _ _ _ _ _ _ l _ _ _ _ _ => l

def dependencies : Flow → Option String
  | .mk _ _ _ _ _ _ _ _ _ d _ _ _ _ => d

def components : Flow → List (String × Flow)
  | .mk _ _ _ _ _ _ _ _ _ _ c _ _ _ => c

def parameters : Flow → List (PName × FVal)
  | .mk _ _ _ _ _ _ _ _ _ _ _ p _ _ => p

def parametersMetaInfo : Flow → List (PName × MetaInfo)
  | .mk _ _ _ _ _ _ _ _ _ _ _ _ m _ => m

def tags : Flow → List String
  | .mk _ _ _ _ _ _ _ _ _ _ _ _ _ t => t

end Flow

/-- Association-list lookup (Python `dict.__getitem__` / `in` test; first
match — the dictionaries of the engine have unique keys). -/
def alookup {α β : Type} [DecidableEq α] (l : List (α × β)) (k : α) : Option β :=
  match l with
  | [] => none
  | (k', v) :: rest => if k' = k then some v else alookup rest k

/-- The key list of an association list. -/
def akeys {α β : Type} (l : List (α × β)) : List α := l.map Prod.fst

/-- Python `del d[k]` on an association list (removes every binding of `k`;
the dictionaries of the engine bind each key once). -/
def aerase {α β : Type} [DecidableEq α] : List (α × β) → α → List (α × β)
  | [], _ => []
  | p :: rest, k => if p.1 = k then aerase rest k else p :: aerase rest k

/-- `OpenMLFlow.__init__`: the container-type test on the three ordered
dictionaries is enforced by typing here; the key-set comparison between
`parameters` and `parameters_meta_info` is the checked invariant.  Raises
`ValueError` on a set difference in either direction. -/
def flowInit (name : String) (description : String)
    (components : List (String × Flow))
    (parameters : List (PName × FVal))
    (parametersMetaInfo : List (PName × MetaInfo))
    (externalVersion : String) (tags : List String)
    (language : Option String) (dependencies : Option String)
    (classPath : Option String := none)
    (uploader : Option String := none) (uploadDate : Option String := none)
    (flowId : Option Int := none) (version : Option String := none) :
    Except Err Flow :=
  if (akeys parameters).any (fun k => ¬ k ∈ akeys parametersMetaInfo) then
    .error .keySetMismatch
  else if (akeys parametersMetaInfo).any (fun k => ¬ k ∈ akeys parameters) then
    .error .keySetMismatch
  else
    .ok (.mk name classPath flowId uploader version uploadDate externalVersion
      description language dependencies components parameters
      parametersMetaInfo tags)

/-- `_copy_server_fields`: after a publish round trip the server-assigned
fields of `source` are copied onto `target`; everything else (in particular
the parameter dictionaries) is left alone.  The recursive copy into
components is keyed by identifier. -/
def copyServerFields : Flow → Flow → Flow
  | source, .mk n cp _ _ _ _ ev de la dp comps params meta tags =>
      .mk n cp source.flowId source.uploader source.version source.uploadDate
        ev de la dp
        (comps.attach.map (fun q =>
          match alookup source.components q.1.1 with
          | some sc => (q.1.1, copyServerFields sc q.1.2)
          | none => q.1))
        params meta tags
termination_by _ t => sizeOf t
decreasing_by
  simp_wf
  have h1 := List.sizeOf_lt_of_mem q.2
  obtain ⟨⟨a, b⟩, hq⟩ := q
  simp at h1 ⊢
  omega

/-- Is this Python value a string? (`isinstance(value, str)`). -/
def FVal.isStr : FVal → Bool
  | .fstrRaw _ => true
  | .fstrParsed _ => true
  | _ => false

/-- Is this Python value `None` or a string?  `_to_dict` accepts exactly
these as parameter-record entries. -/
def FVal.isStrOrNone : FVal → Bool
  | .fnone => true
  | v => v.isStr

/-- Is this Python value `None`? -/
def FVal.isNone : FVal → Bool
  | .fnone => true
  | _ => false

/-- The string check `_to_dict` performs on each entry of one parameter's
record.  The record holds, in this order: the parameter name (stored under
`oml:name`), the meta-info `data_type` (only when non-`None`), the stored
default value (always), and the meta-info `description` (only when
non-`None`).  The loop's key test can never fire — the record keys are the
four literal tag strings — so the value test is what remains. -/
def paramRecordCheck (name : PName) (value : FVal) (meta : MetaInfo) :
    Except Err Unit :=
  let nameVal : FVal := match name with
    | .strN s => .fstrRaw s
    | .otherN v => .fother v
  let entries : List FVal :=
    [nameVal]
      ++ (if meta.dataType.isNone then [] else [meta.dataType])
      ++ [value]
      ++ (if meta.description.isNone then [] else [meta.description])
  if entries.all FVal.isStrOrNone then .ok () else
    .error .nonStringForSerialization

/-- The parameter loop of `OpenMLFlow._to_dict` (the serialization boundary
of a flow to the structured document): looks up each parameter's meta info
(`KeyError` when absent) and runs the per-record string check.  The
component section's own identifier check cannot fire (component
identifiers are strings by typing); the per-flow string policy lives in
this loop, which `_to_dict` re-runs inside every component through its
recursion. -/
def toDictParams : List (PName × FVal) → List (PName × MetaInfo) →
    Except Err Unit
  | [], _ => .ok ()
  | (k, v) :: rest, meta =>
      match alookup meta k with
      | none => .error (.keyError "parameters_meta_info")
      | some mi => do
          paramRecordCheck k v mi
          toDictParams rest meta

mutual

/-- `OpenMLFlow._to_dict`, restricted to the checks it performs: the
required-attribute test and the record assembly are infallible here
(`name` and `external_version` are plain strings in this model), leaving
the parameter-record string checks of this flow followed by the recursive
serialization of every component, in order. -/
def Flow.toDict (f : Flow) : Except Err Unit := do
  toDictParams f.parameters f.parametersMetaInfo
  toDictComponents f.components
termination_by sizeOf f
decreasing_by
  cases f with
  | mk n cp fid up ver ud ev de la dp comps params meta tags =>
      simp [Flow.components]
      omega

/-- The component loop of `_to_dict`: each sub-flow is serialized
recursively, in order; its own key check cannot fire. -/
def toDictComponents : List (String × Flow) → Except Err Unit
  | [] => .ok ()
  | (_, c) :: rest => do
      Flow.toDict c
      toDictComponents rest
termination_by l => sizeOf l
decreasing_by
  all_goals
    simp
    try omega

end

/-! ### `get_structure` -/

/-- The attribute used to identify flows in `get_structure` (after the
`key_item` string has been validated). -/
inductive KeyItem where
  | byFlowId
  | byName
deriving DecidableEq

/-- A key of the structure dictionary: `getattr(self, key_item)` is a string
for `name` and an optional integer for `flow_id`. -/
inductive FlowKey where
  | kname (s : String)
  | kid (i : Option Int)
deriving DecidableEq

def flowKeyOf (k : KeyItem) (f : Flow) : FlowKey :=
  match k with
  | .byName => .kname f.name
  | .byFlowId => .kid f.flowId

/-- Python dictionary assignment `d[k] = v` on an association list.  (The
source keeps an overwritten key at its original position; only the
key-to-value mapping of the structure dictionary is consumed, so the
overwrite is modelled as remove-then-append.) -/
def dinsert {α β : Type} [DecidableEq α] (l : List (α × β)) (k : α) (v : β) :
    List (α × β) :=
  aerase l k ++ [(k, v)]

mutual

/-- The component loop of `OpenMLFlow.get_structure`: for every component,
every entry of the sub-flow's structure is re-rooted by prefixing the
component identifier. -/
def getStructureGo (k : KeyItem) (comps : List (String × Flow))
    (acc : List (FlowKey × List String)) : List (FlowKey × List String) :=
  match comps with
  | [] => acc
  | (key, sub) :: rest =>
      let subStructure := getStructureCore k sub
      getStructureGo k rest
        (subStructure.foldl (fun a p => dinsert a p.1 (key :: p.2)) acc)
termination_by sizeOf comps

/-- `OpenMLFlow.get_structure` after `key_item` validation: structure of all
sub-components, then the flow's own key mapped to the empty path. -/
def getStructureCore (k : KeyItem) (f : Flow) : List (FlowKey × List String) :=
  match f with
  | .mk n _ fid _ _ _ _ _ _ _ comps _ _ _ =>
      dinsert (getStructureGo k comps [])
        (match k with | .byName => .kname n | .byFlowId => .kid fid) []
termination_by sizeOf f

end

/-- `OpenMLFlow.get_structure`: validates `key_item` (must be `flow_id` or
`name`, else `ValueError`), then builds the structure map.  The source
re-validates the string at every recursion level; a valid string stays
valid, so the validation is performed once here. -/
def Flow.get_structure (f : Flow) (keyItem : String) :
    Except Err (List (FlowKey × List String)) :=
  if keyItem = "flow_id" then .ok (getStructureCore .byFlowId f)
  else if keyItem = "name" then .ok (getStructureCore .byName f)
  else .error .badKeyItem

/-! ### `get_subflow`, with an explicit store for the caller's list

`get_subflow` receives a reference to the caller's path list, copies it
(`structure = list(structure)`), and mutates only the copy (`pop(0)`).
To make the frame claim about the caller's list expressible, lists are
held in a store of numbered cells and the function receives a cell
reference; allocation always picks a fresh cell number. -/

abbrev Store := List (Nat × List String)

def storeRead (st : Store) (r : Nat) : Option (List String) := alookup st r

def storeWrite (st : Store) (r : Nat) (l : List String) : Store :=
  st.map (fun p => if p.1 = r then (r, l) else p)

/-- Allocate a fresh cell holding `l`. -/
def storeAlloc (st : Store) (l : List String) : Nat × Store :=
  let fresh := (st.map Prod.fst).foldr max 0 + 1
  (fresh, st ++ [(fresh, l)])

/-- A successful association-list lookup returns a structurally smaller
value. -/
theorem alookup_sizeOf_lt {α β : Type} [DecidableEq α] [SizeOf α] [SizeOf β]
    {l : List (α × β)} {k : α} {v : β} (h : alookup l k = some v) :
    sizeOf v < sizeOf l := by
  induction l with
  | nil => simp [alookup] at h
  | cons p rest ih =>
      unfold alookup at h
      split at h
      · cases h
        cases p with
        | mk a b => simp; omega
      · have := ih h
        simp
        omega

/-- A component of a flow is structurally smaller than the flow. -/
theorem component_sizeOf_lt {f : Flow} {k : String} {c : Flow}
    (h : alookup f.components k = some c) : sizeOf c < sizeOf f := by
  have h1 := alookup_sizeOf_lt h
  cases f with
  | mk n cp fid up ver ud ev de la dp comps params meta tags =>
      simp [Flow.components] at h1
      simp
      omega

/-- `OpenMLFlow.get_subflow`.  The cell `r` holds the caller's list; the
first step copies it into a fresh cell and all further reads, the `pop(0)`
and the recursive call use the copy. -/
def getSubflowS (f : Flow) (r : Nat) (st : Store) : Except Err Flow × Store :=
  match storeRead st r with
  | none => (.error .assertionFailure, st)
  | some l =>
      let (c, st1) := storeAlloc st l
      if l.length < 1 then (.error .structureTooShort, st1)
      else
        match l with
        | [] => (.error .structureTooShort, st1)
        | subIdentifier :: restOfPath =>
            match hc : alookup f.components subIdentifier with
            | none => (.error (.missingComponent f.name subIdentifier), st1)
            | some sub =>
                if l.length = 1 then (.ok sub, st1)
                else
                  let st2 := storeWrite st1 c restOfPath
                  getSubflowS sub c st2
termination_by sizeOf f
decreasing_by
  exact component_sizeOf_lt hc

/-! ### Helper lemmas on association lists and stores -/

theorem akeys_cons {α β : Type} (a : α) (b : β) (l : List (α × β)) :
    akeys ((a, b) :: l) = a :: akeys l := rfl

theorem alookup_append_of_some {α β : Type} [DecidableEq α]
    {l1 : List (α × β)} (l2 : List (α × β)) {k : α} {v : β}
    (h : alookup l1 k = some v) : alookup (l1 ++ l2) k = some v := by
  induction l1 with
  | nil => simp [alookup] at h
  | cons p rest ih =>
      cases p with
      | mk a b =>
          unfold alookup at h
          by_cases he : a = k
          · subst he
            rw [if_pos rfl] at h
            simpa [alookup] using h
          · simp only [he, if_false] at h
            simp only [List.cons_append, alookup, he, if_false]
            exact ih h

theorem alookup_append_of_none {α β : Type} [DecidableEq α]
    {l1 : List (α × β)} (l2 : List (α × β)) {k : α}
    (h : alookup l1 k = none) : alookup (l1 ++ l2) k = alookup l2 k := by
  induction l1 with
  | nil => simp [alookup]
  | cons p rest ih =>
      cases p with
      | mk a b =>
          unfold alookup at h
          by_cases he : a = k
          · simp [he] at h
          · simp only [he, if_false] at h
            simp only [List.cons_append, alookup, he, if_false]
            exact ih h

theorem alookup_mem_akeys {α β : Type} [DecidableEq α] {l : List (α × β)}
    {k : α} {v : β} (h : alookup l k = some v) : k ∈ akeys l := by
  induction l with
  | nil => simp [alookup] at h
  | cons p rest ih =>
      cases p with
      | mk a b =>
          unfold alookup at h
          by_cases he : a = k
          · rw [akeys_cons]
            exact List.mem_cons.2 (Or.inl he.symm)
          · simp only [he, if_false] at h
            rw [akeys_cons]
            exact List.mem_cons.2 (Or.inr (ih h))

theorem alookup_isSome_of_mem_akeys {α β : Type} [DecidableEq α]
    {l : List (α × β)} {k : α} (h : k ∈ akeys l) :
    ∃ v, alookup l k = some v := by
  induction l with
  | nil => simp [akeys] at h
  | cons p rest ih =>
      cases p with
      | mk a b =>
          by_cases he : a = k
          · exact ⟨b, by simp [alookup, he]⟩
          · rw [akeys_cons] at h
            rcases List.mem_cons.1 h with h | h
            · exact absurd h.symm he
            · rcases ih h with ⟨v, hv⟩
              exact ⟨v, by simp [alookup, he, hv]⟩

theorem alookup_aerase_self {α β : Type} [DecidableEq α] (l : List (α × β))
    (k : α) : alookup (aerase l k) k = none := by
  induction l with
  | nil => simp [aerase, alookup]
  | cons p rest ih =>
      cases p with
      | mk a b =>
          by_cases he : a = k <;> simp [aerase, alookup, he, ih]

theorem alookup_aerase_ne {α β : Type} [DecidableEq α] (l : List (α × β))
    {k k' : α} (h : ¬ k = k') :
    alookup (aerase l k) k' = alookup l k' := by
  induction l with
  | nil => simp [aerase]
  | cons p rest ih =>
      cases p with
      | mk a b =>
          by_cases he : a = k
          · subst he
            simp [aerase, alookup, h, ih]
          · by_cases he2 : a = k'
            · subst he2
              have he3 : ¬ a = k := he
              simp [aerase, alookup, he3, ih]
            · simp [aerase, alookup, he, he2, ih]

theorem alookup_dinsert {α β : Type} [DecidableEq α] (l : List (α × β))
    (k : α) (v : β) (k' : α) :
    alookup (dinsert l k v) k' =
      if k = k' then some v else alookup l k' := by
  unfold dinsert
  by_cases h : k = k'
  · subst h
    rw [alookup_append_of_none _ (alookup_aerase_self l k)]
    simp [alookup]
  · rw [if_neg h]
    cases hl : alookup (aerase l k) k' with
    | some w =>
        rw [alookup_append_of_some _ hl]
        rw [← alookup_aerase_ne l h, hl]
    | none =>
        rw [alookup_append_of_none _ hl]
        rw [← alookup_aerase_ne l h, hl]
        simp [alookup, h]

/-- Erasing a key that is not bound is the identity. -/
theorem aerase_fresh {α β : Type} [DecidableEq α] {l : List (α × β)}
    {k : α} (h : ¬ k ∈ akeys l) : aerase l k = l := by
  induction l with
  | nil => rfl
  | cons p rest ih =>
      cases p with
      | mk a b =>
          simp [akeys] at h
          push_neg at h
          simp [aerase, Ne.symm h.1, ih (by simp [akeys]; exact h.2)]

/-- `dinsert` of a key that is not yet bound is a plain append. -/
theorem dinsert_fresh {α β : Type} [DecidableEq α] {l : List (α × β)}
    {k : α} (v : β) (h : ¬ k ∈ akeys l) :
    dinsert l k v = l ++ [(k, v)] := by
  unfold dinsert
  rw [aerase_fresh h]

/-! ### The component paths of a flow (specification for `get_structure`) -/

/-- A flow's `components` list is structurally smaller than the flow. -/
theorem components_sizeOf_lt (f : Flow) : sizeOf f.components < sizeOf f := by
  cases f with
  | mk n cp fid up ver ud ev de la dp comps params meta tags =>
      simp [Flow.components]
      omega

mutual

/-- All nodes of a flow's component tree, each paired with the ordered list
of component identifiers that reaches it from the root; the root itself
carries the empty path. -/
def subtreeEntries (f : Flow) : List (List String × Flow) :=
  ([], f) :: subtreeEntriesGo f.components
termination_by sizeOf f
decreasing_by
  exact components_sizeOf_lt f

/-- Component-list part of `subtreeEntries`. -/
def subtreeEntriesGo : List (String × Flow) → List (List String × Flow)
  | [] => []
  | (id, c) :: rest =>
      (subtreeEntries c).map (fun e => (id :: e.1, e.2))
        ++ subtreeEntriesGo rest
termination_by l => sizeOf l
decreasing_by
  all_goals simp
  all_goals omega

end

/-! ### Lookup characterization of `get_structure` -/

theorem alookup_eq_none_of_not_mem_akeys {α β : Type} [DecidableEq α]
    {l : List (α × β)} {k : α} (h : ¬ k ∈ akeys l) : alookup l k = none := by
  cases hl : alookup l k with
  | none => rfl
  | some v => exact absurd (alookup_mem_akeys hl) h

theorem akeys_aerase_sublist {α β : Type} [DecidableEq α]
    (l : List (α × β)) (k : α) :
    List.Sublist (akeys (aerase l k)) (akeys l) := by
  induction l with
  | nil => simp [aerase, akeys]
  | cons p rest ih =>
      cases p with
      | mk a b =>
          by_cases he : a = k
          · have hs : aerase ((a, b) :: rest) k = aerase rest k := by
              simp [aerase, he]
            rw [hs, akeys_cons]
            exact ih.trans (List.sublist_cons_self _ _)
          · have hs : aerase ((a, b) :: rest) k = (a, b) :: aerase rest k := by
              simp [aerase, he]
            rw [hs, akeys_cons, akeys_cons]
            exact ih.cons₂ a

theorem not_mem_akeys_aerase {α β : Type} [DecidableEq α]
    (l : List (α × β)) (k : α) : ¬ k ∈ akeys (aerase l k) := by
  intro h
  rcases alookup_isSome_of_mem_akeys h with ⟨v, hv⟩
  rw [alookup_aerase_self] at hv
  cases hv

theorem akeys_dinsert {α β : Type} [DecidableEq α] (l : List (α × β))
    (k : α) (v : β) : akeys (dinsert l k v) = akeys (aerase l k) ++ [k] := by
  unfold dinsert akeys
  rw [List.map_append]
  rfl

theorem dinsert_nodupKeys {α β : Type} [DecidableEq α]
    {l : List (α × β)} (hl : (akeys l).Nodup) (k : α) (v : β) :
    (akeys (dinsert l k v)).Nodup := by
  rw [akeys_dinsert]
  apply List.Nodup.append
  · exact hl.sublist (akeys_aerase_sublist l k)
  · simp
  · intro x hx hx2
    simp at hx2
    rw [hx2] at hx
    exact not_mem_akeys_aerase l k hx

theorem alookup_reverse_of_nodupKeys {α β : Type} [DecidableEq α]
    {l : List (α × β)} (hl : (akeys l).Nodup) (k : α) :
    alookup l.reverse k = alookup l k := by
  induction l with
  | nil => rfl
  | cons p rest ih =>
      cases p with
      | mk a b =>
          rw [akeys_cons, List.nodup_cons] at hl
          rw [List.reverse_cons]
          by_cases he : a = k
          · subst he
            have hnone : alookup rest a = none :=
              alookup_eq_none_of_not_mem_akeys hl.1
            rw [← ih hl.2] at hnone
            rw [alookup_append_of_none _ hnone]
            simp [alookup]
          · have := ih hl.2
            cases hr : alookup rest k with
            | some v =>
                rw [← this] at hr
                rw [alookup_append_of_some _ hr]
                rw [this] at hr
                simp [alookup, he, hr]
            | none =>
                rw [← this] at hr
                rw [alookup_append_of_none _ hr]
                rw [this] at hr
                simp [alookup, he, hr]

/-- Keys created by the fold of `dinsert`s stay duplicate-free. -/
theorem foldl_dinsert_nodupKeys {α β : Type} [DecidableEq α]
    (entries : List (α × β)) (g : α × β → β)
    {acc : List (α × β)} (hacc : (akeys acc).Nodup) :
    (akeys (entries.foldl (fun a p => dinsert a p.1 (g p)) acc)).Nodup := by
  induction entries generalizing acc with
  | nil => exact hacc
  | cons e rest ih => exact ih (dinsert_nodupKeys hacc e.1 (g e))

/-- The result of one fold step of `getStructureGo`, observed through
lookup: the last entry bound for a key wins, values get the component
identifier prefixed. -/
theorem foldl_dinsert_lookup {β : Type} [DecidableEq β] (id : String)
    (entries : List (β × List String)) (acc : List (β × List String))
    (key : β) :
    alookup (entries.foldl (fun a p => dinsert a p.1 (id :: p.2)) acc) key =
      (match alookup entries.reverse key with
        | some v => some (id :: v)
        | none => alookup acc key) := by
  induction entries generalizing acc with
  | nil => simp [alookup]
  | cons e rest ih =>
      simp only [List.foldl_cons, List.reverse_cons]
      rw [ih]
      cases hr : alookup rest.reverse key with
      | some v => rw [alookup_append_of_some _ hr]
      | none =>
          rw [alookup_append_of_none _ hr]
          rw [alookup_dinsert]
          cases e with
          | mk ek ev =>
              by_cases he : ek = key <;> simp [alookup, he]

/-- Keys of `getStructureGo`'s result are duplicate-free whenever the
accumulator's are (every insertion goes through `dinsert`). -/
theorem getStructureGo_nodupKeys (k : KeyItem) (comps : List (String × Flow))
    {acc : List (FlowKey × List String)} (hacc : (akeys acc).Nodup) :
    (akeys (getStructureGo k comps acc)).Nodup := by
  induction comps generalizing acc with
  | nil => simpa [getStructureGo] using hacc
  | cons p rest ih =>
      obtain ⟨id, c⟩ := p
      rw [getStructureGo]
      exact ih (foldl_dinsert_nodupKeys _ _ hacc)

theorem getStructureCore_nodupKeys (k : KeyItem) (f : Flow) :
    (akeys (getStructureCore k f)).Nodup := by
  cases f with
  | mk n cp fid up ver ud ev de la dp comps params meta tags =>
      simp only [getStructureCore.eq_def]
      exact dinsert_nodupKeys
        (getStructureGo_nodupKeys k comps (by simp [akeys])) _ _

/-- Lookup across the components processed by `getStructureGo`: a later
component overrides an earlier one (Python dict assignment order), and a
hit inside component `(id, c)` comes back with `id` prefixed. -/
def compsLookup (k : KeyItem) (comps : List (String × Flow)) (key : FlowKey) :
    Option (List String) :=
  match comps with
  | [] => none
  | (id, c) :: rest =>
      match compsLookup k rest key with
      | some p => some p
      | none => (alookup (getStructureCore k c) key).map (fun p => id :: p)

theorem getStructureGo_lookup (k : KeyItem) (comps : List (String × Flow))
    (acc : List (FlowKey × List String)) (key : FlowKey) :
    alookup (getStructureGo k comps acc) key =
      (match compsLookup k comps key with
        | some p => some p
        | none => alookup acc key) := by
  induction comps generalizing acc with
  | nil => simp [getStructureGo, compsLookup]
  | cons p rest ih =>
      obtain ⟨id, c⟩ := p
      rw [getStructureGo, ih, foldl_dinsert_lookup]
      rw [alookup_reverse_of_nodupKeys (getStructureCore_nodupKeys k c)]
      rw [compsLookup]
      cases hr : compsLookup k rest key with
      | some p => rfl
      | none => cases alookup (getStructureCore k c) key with
          | some v => rfl
          | none => rfl

/-- Total characterization of `get_structure`'s map through lookup: the
flow's own key maps to the empty path (overriding any component hit), and
otherwise the components are consulted, later ones overriding earlier
ones. -/
theorem getStructureCore_lookup (k : KeyItem) (f : Flow) (key : FlowKey) :
    alookup (getStructureCore k f) key =
      if flowKeyOf k f = key then some []
      else (match compsLookup k f.components key with
        | some p => some p
        | none => none) := by
  cases f with
  | mk n cp fid up ver ud ev de la dp comps params meta tags =>
      simp only [getStructureCore.eq_def, Flow.components]
      rw [alookup_dinsert, getStructureGo_lookup]
      have hsk : (match k with
          | KeyItem.byName => FlowKey.kname n
          | KeyItem.byFlowId => FlowKey.kid fid) =
          flowKeyOf k (Flow.mk n cp fid up ver ud ev de la dp comps params
            meta tags) := by
        cases k <;> rfl
      rw [hsk]
      by_cases h : flowKeyOf k (Flow.mk n cp fid up ver ud ev de la dp comps
          params meta tags) = key
      · rw [if_pos h, if_pos h]
      · rw [if_neg h, if_neg h]
        cases compsLookup k comps key with
        | some p => rfl
        | none => simp [alookup]

/-- The identity keys of all nodes of a flow's component tree (root
first). -/
def subKeys (k : KeyItem) (f : Flow) : List FlowKey :=
  (subtreeEntries f).map (fun e => flowKeyOf k e.2)

def subKeysGo (k : KeyItem) (comps : List (String × Flow)) : List FlowKey :=
  (subtreeEntriesGo comps).map (fun e => flowKeyOf k e.2)

theorem subKeys_eq (k : KeyItem) (f : Flow) :
    subKeys k f = flowKeyOf k f :: subKeysGo k f.components := by
  unfold subKeys subKeysGo
  rw [subtreeEntries]
  rfl

theorem subKeysGo_cons (k : KeyItem) (id : String) (c : Flow)
    (rest : List (String × Flow)) :
    subKeysGo k ((id, c) :: rest) = subKeys k c ++ subKeysGo k rest := by
  unfold subKeysGo subKeys
  rw [subtreeEntriesGo]
  rw [List.map_append, List.map_map]
  rfl

mutual

/-- A hit in `get_structure`'s map can only be the key of a node of the
component tree. -/
theorem getStructureCore_lookup_mem (k : KeyItem) (f : Flow) (key : FlowKey)
    (h : ¬ alookup (getStructureCore k f) key = none) : key ∈ subKeys k f := by
  rw [getStructureCore_lookup] at h
  rw [subKeys_eq]
  by_cases hk : flowKeyOf k f = key
  · exact List.mem_cons.2 (Or.inl hk.symm)
  · rw [if_neg hk] at h
    refine List.mem_cons.2 (Or.inr ?_)
    cases hc : compsLookup k f.components key with
    | none => rw [hc] at h; exact absurd rfl h
    | some p =>
        exact compsLookup_mem k f.components key (by rw [hc]; simp)
termination_by (sizeOf f, 0)
decreasing_by
  exact Prod.Lex.left _ _ (components_sizeOf_lt f)

theorem compsLookup_mem (k : KeyItem) (comps : List (String × Flow))
    (key : FlowKey) (h : ¬ compsLookup k comps key = none) :
    key ∈ subKeysGo k comps := by
  match comps with
  | [] => rw [compsLookup] at h; exact absurd rfl h
  | (id, c) :: rest =>
      rw [compsLookup] at h
      rw [subKeysGo_cons]
      cases hr : compsLookup k rest key with
      | some p =>
          exact List.mem_append.2 (Or.inr (compsLookup_mem k rest key
            (by rw [hr]; simp)))
      | none =>
          rw [hr] at h
          refine List.mem_append.2 (Or.inl ?_)
          apply getStructureCore_lookup_mem k c key
          intro hn
          rw [hn] at h
          exact h rfl
termination_by (sizeOf comps, 1)
decreasing_by
  all_goals exact Prod.Lex.left _ _ (by simp; try omega)

end

mutual

/-- Under pairwise-distinct identity keys, `get_structure`'s map sends the
root to the empty path and every nested node to the identifier path that
reaches it. -/
theorem getStructureCore_paths (k : KeyItem) (f : Flow)
    (hnd : (subKeys k f).Nodup) :
    ∀ p g, (p, g) ∈ subtreeEntries f →
      alookup (getStructureCore k f) (flowKeyOf k g) = some p := by
  intro p g hmem
  rw [subtreeEntries] at hmem
  rw [subKeys_eq, List.nodup_cons] at hnd
  rcases List.mem_cons.1 hmem with hm | hm
  · cases hm
    rw [getStructureCore_lookup, if_pos rfl]
  · have hkey : flowKeyOf k g ∈ subKeysGo k f.components :=
      List.mem_map_of_mem (fun e => flowKeyOf k e.2) hm
    have hne : ¬ flowKeyOf k f = flowKeyOf k g := fun he => hnd.1 (he ▸ hkey)
    rw [getStructureCore_lookup, if_neg hne]
    rw [compsLookup_paths k f.components hnd.2 p g hm]
termination_by (sizeOf f, 0)
decreasing_by
  exact Prod.Lex.left _ _ (components_sizeOf_lt f)

theorem compsLookup_paths (k : KeyItem) (comps : List (String × Flow))
    (hnd : (subKeysGo k comps).Nodup) :
    ∀ p g, (p, g) ∈ subtreeEntriesGo comps →
      compsLookup k comps (flowKeyOf k g) = some p := by
  intro p g hmem
  match comps with
  | [] =>
      rw [subtreeEntriesGo] at hmem
      cases hmem
  | (id, c) :: rest =>
      rw [subtreeEntriesGo] at hmem
      rw [subKeysGo_cons, List.nodup_append] at hnd
      obtain ⟨hnd1, hnd2, hdisj⟩ := hnd
      rw [compsLookup]
      rcases List.mem_append.1 hmem with hm | hm
      · rcases List.mem_map.1 hm with ⟨e, he, heq⟩
        obtain ⟨e1, e2⟩ := e
        cases heq
        have hkc : flowKeyOf k e2 ∈ subKeys k c :=
          List.mem_map_of_mem (fun e => flowKeyOf k e.2) he
        have hnotrest : ¬ flowKeyOf k e2 ∈ subKeysGo k rest :=
          fun hx => hdisj hkc hx
        have hrest : compsLookup k rest (flowKeyOf k e2) = none := by
          cases hcl : compsLookup k rest (flowKeyOf k e2) with
          | none => rfl
          | some q =>
              exact absurd (compsLookup_mem k rest _ (by rw [hcl]; simp))
                hnotrest
        rw [hrest, getStructureCore_paths k c hnd1 e1 e2 he]
        rfl
      · rw [compsLookup_paths k rest hnd2 p g hm]
termination_by (sizeOf comps, 1)
decreasing_by
  all_goals exact Prod.Lex.left _ _ (by simp; try omega)

end

def mkLeafFlow (n : String) : Flow :=
  .mk n none none none none none "sklearn==0.21.2" "" none none [] [] [] []

def c7B : Flow := mkLeafFlow "X"

def c7B2 : Flow := mkLeafFlow "X"

def c7A : Flow :=
  .mk "A" none none none none none "sklearn==0.21.2" "" none none
    [("b", c7B), ("c", c7B2)] [] [] []

/-- C7, counterexample.  In a flow with two components whose flows render
the same name, the later component's path overwrites the earlier one's in
the structure dictionary, so the component stored under identifier `b`
(whose flow's name is `X`) is not mapped to the path `["b"]` that reaches
it — the map sends `X` to `["c"]`.  This refutes the claim for flows with
duplicate identity keys. -/
theorem get_structure_duplicate_key_counterexample :
    (["b"], c7B) ∈ subtreeEntries c7A
    ∧ Flow.get_structure c7A "name"
        = .ok [(.kname "X", ["c"]), (.kname "A", [])]
    ∧ alookup [((FlowKey.kname "X"), ["c"]), (.kname "A", [])]
        (flowKeyOf .byName c7B) = some ["c"]
    ∧ ¬ (["c"] : List String) = ["b"] := by
  refine ⟨?_, ?_, ?_, ?_⟩
  · simp [subtreeEntries, subtreeEntriesGo, c7A, c7B, c7B2, mkLeafFlow,
      Flow.components]
  · show Flow.get_structure c7A "name" = _
    simp +decide [Flow.get_structure, getStructureCore, getStructureGo,
      dinsert, aerase, c7A, c7B, c7B2, mkLeafFlow, Flow.components,
      Flow.name, Flow.flowId]
  · rfl
  · simp

/-- C7, amended: for every flow whose component tree carries
pairwise-distinct identity keys (under the chosen key item), `get_structure`
maps the flow's own key to the empty path and every nested component's key
to the ordered identifier path that reaches it. -/
theorem get_structure_maps_paths (f : Flow) (keyItem : String) (k : KeyItem)
    (hk : (k = .byFlowId ∧ keyItem = "flow_id")
      ∨ (k = .byName ∧ keyItem = "name"))
    (hnd : (subKeys k f).Nodup) :
    ∃ m, Flow.get_structure f keyItem = .ok m
      ∧ alookup m (flowKeyOf k f) = some []
      ∧ ∀ p g, (p, g) ∈ subtreeEntries f →
          alookup m (flowKeyOf k g) = some p := by
  rcases hk with ⟨hk1, hk2⟩ | ⟨hk1, hk2⟩
  · subst hk1
    subst hk2
    refine ⟨getStructureCore .byFlowId f, ?_, ?_,
      getStructureCore_paths _ f hnd⟩
    · rw [Flow.get_structure, if_pos rfl]
    · rw [getStructureCore_lookup, if_pos rfl]
  · subst hk1
    subst hk2
    refine ⟨getStructureCore .byName f, ?_, ?_,
      getStructureCore_paths _ f hnd⟩
    · rw [Flow.get_structure, if_neg (by decide), if_pos rfl]
    · rw [getStructureCore_lookup, if_pos rfl]

def c7wC : Flow := mkLeafFlow "C"

def c7wB : Flow :=
  .mk "B" none none none none none "sklearn==0.21.2" "" none none
    [("c", c7wC)] [] [] []

def c7wA : Flow :=
  .mk "A" none none none none none "sklearn==0.21.2" "" none none
    [("b", c7wB)] [] [] []

/-- Witness for C7's amended theorem: the `A(b: B(c: C))` instance of the
specification, with `C`'s name mapped to `["b", "c"]` and `A`'s to `[]`. -/
theorem get_structure_maps_paths_witness :
    ∃ m, Flow.get_structure c7wA "name" = .ok m
      ∧ alookup m (.kname "A") = some []
      ∧ alookup m (.kname "C") = some ["b", "c"] := by
  have hsub : subtreeEntries c7wA = [([], c7wA), (["b"], c7wB),
      (["b", "c"], c7wC)] := by
    simp [subtreeEntries, subtreeEntriesGo, c7wA, c7wB, c7wC, mkLeafFlow,
      Flow.components]
  have hnd : (subKeys .byName c7wA).Nodup := by
    rw [subKeys, hsub]
    simp [flowKeyOf, c7wA, c7wB, c7wC, mkLeafFlow, Flow.name]
  obtain ⟨m, h1, h2, h3⟩ :=
    get_structure_maps_paths c7wA "name" .byName (Or.inr ⟨rfl, rfl⟩) hnd
  refine ⟨m, h1, ?_, ?_⟩
  · rw [show FlowKey.kname "A" = flowKeyOf .byName c7wA from rfl]
    exact h2
  · rw [show FlowKey.kname "C" = flowKeyOf .byName c7wC from rfl]
    exact h3 ["b", "c"] c7wC (by rw [hsub]; simp)

/-- Pointwise form of the string policy that `_to_dict` enforces on one
parameter record: the parameter name is a string and the stored value and
both meta-info entries are strings or `None`. -/
def paramEntryStrings (k : PName) (v : FVal) (mi : MetaInfo) : Bool :=
  (match k with | .strN _ => true | .otherN _ => false)
    && v.isStrOrNone && mi.dataType.isStrOrNone && mi.description.isStrOrNone

theorem paramRecordCheck_eq (k : PName) (v : FVal) (mi : MetaInfo) :
    paramRecordCheck k v mi =
      (if paramEntryStrings k v mi then .ok () else
        .error .nonStringForSerialization) := by
  obtain ⟨dt, de⟩ := mi
  cases k <;> cases v <;> cases dt <;> cases de <;> rfl

theorem flowInit_ok_elim {nm de : String} {comps : List (String × Flow)}
    {params : List (PName × FVal)} {meta : List (PName × MetaInfo)}
    {ev : String} {tags : List String} {lang deps : Option String} {f : Flow}
    (h : flowInit nm de comps params meta ev tags lang deps = .ok f) :
    f = .mk nm none none none none none ev de lang deps comps params meta
      tags := by
  unfold flowInit at h
  split at h
  · cases h
  · split at h
    · cases h
    · cases h
      rfl

theorem toDictParams_chr (l : List (PName × FVal))
    (meta : List (PName × MetaInfo))
    (hmem : ∀ p ∈ l, ∃ mi, alookup meta p.1 = some mi) :
    (toDictParams l meta = .ok () ↔
      ∀ p ∈ l, ∀ mi, alookup meta p.1 = some mi →
        paramEntryStrings p.1 p.2 mi = true)
    ∧ (toDictParams l meta = .error .nonStringForSerialization ↔
      ∃ p ∈ l, ∃ mi, alookup meta p.1 = some mi ∧
        paramEntryStrings p.1 p.2 mi = false) := by
  induction l with
  | nil => simp [toDictParams]
  | cons p rest ih =>
      obtain ⟨k, v⟩ := p
      obtain ⟨mi, hk⟩ := hmem (k, v) (List.mem_cons_self _ _)
      have ihr := ih (fun q hq => hmem q (List.mem_cons_of_mem _ hq))
      have hk' : alookup meta k = some mi := hk
      unfold toDictParams
      simp only [hk']
      rw [paramRecordCheck_eq]
      by_cases hs : paramEntryStrings k v mi = true
      · rw [if_pos hs]
        have hbind : (do
            (Except.ok () : Except Err Unit)
            toDictParams rest meta) = toDictParams rest meta := rfl
        rw [hbind]
        constructor
        · rw [ihr.1]
          constructor
          · intro h q hq mi' hmi'
            rcases List.mem_cons.1 hq with hq | hq
            · cases hq
              rw [hk] at hmi'
              cases hmi'
              exact hs
            · exact h q hq mi' hmi'
          · intro h q hq mi' hmi'
            exact h q (List.mem_cons_of_mem _ hq) mi' hmi'
        · rw [ihr.2]
          constructor
          · intro h
            rcases h with ⟨q, hq, mi', hmi', hbad⟩
            exact ⟨q, List.mem_cons_of_mem _ hq, mi', hmi', hbad⟩
          · intro h
            rcases h with ⟨q, hq, mi', hmi', hbad⟩
            rcases List.mem_cons.1 hq with hq | hq
            · cases hq
              rw [hk] at hmi'
              cases hmi'
              rw [hs] at hbad
              cases hbad
            · exact ⟨q, hq, mi', hmi', hbad⟩
      · rw [if_neg hs]
        have hb : paramEntryStrings k v mi = false :=
          Bool.eq_false_iff.2 hs
        constructor
        · constructor
          · intro h
            cases h
          · intro h
            have := h (k, v) (List.mem_cons_self _ _) mi hk
            rw [this] at hb
            cases hb
        · constructor
          · intro _
            exact ⟨(k, v), List.mem_cons_self _ _, mi, hk, hb⟩
          · intro _
            rfl

/-- C6.  Every successfully constructed flow has `parameters` and
`parameters_meta_info` with exactly equal key sets: the constructor returns
a flow iff neither set difference is inhabited, the constructed flow stores
the given dictionaries unchanged, and the only post-construction mutation
in the flow module (`_copy_server_fields`, invoked after a publish round
trip) leaves both key sets untouched. -/
theorem flow_parameter_key_set_invariant (nm de : String)
    (comps : List (String × Flow)) (params : List (PName × FVal))
    (meta : List (PName × MetaInfo)) (ev : String) (tags : List String)
    (lang deps : Option String) :
    ((∃ f, flowInit nm de comps params meta ev tags lang deps = .ok f) ↔
      (∀ k, k ∈ akeys params ↔ k ∈ akeys meta))
    ∧ (∀ f, flowInit nm de comps params meta ev tags lang deps = .ok f →
        f.parameters = params ∧ f.parametersMetaInfo = meta)
    ∧ (∀ src g, akeys (copyServerFields src g).parameters = akeys g.parameters
        ∧ akeys (copyServerFields src g).parametersMetaInfo
            = akeys g.parametersMetaInfo) := by
  refine ⟨?_, ?_, ?_⟩
  · constructor
    · rintro ⟨f, hf⟩
      unfold flowInit at hf
      split at hf
      · cases hf
      · split at hf
        · cases hf
        · rename_i h1 h2
          simp only [List.any_eq_true, decide_eq_true_eq, not_exists,
            not_and] at h1 h2
          push_neg at h1 h2
          intro k
          constructor
          · intro hk
            exact h1 k hk
          · intro hk
            exact h2 k hk
    · intro h
      have hc1 : ¬ ((akeys params).any
          (fun k => decide (¬ k ∈ akeys meta))) = true := by
        simp only [List.any_eq_true, decide_eq_true_eq]
        push_neg
        intro k hk
        exact (h k).1 hk
      have hc2 : ¬ ((akeys meta).any
          (fun k => decide (¬ k ∈ akeys params))) = true := by
        simp only [List.any_eq_true, decide_eq_true_eq]
        push_neg
        intro k hk
        exact (h k).2 hk
      exact ⟨Flow.mk nm none none none none none ev de lang deps comps params
        meta tags, by unfold flowInit; rw [if_neg hc1, if_neg hc2]⟩
  · intro f hf
    rw [flowInit_ok_elim hf]
    exact ⟨rfl, rfl⟩
  · intro src g
    cases g with
    | mk n cp fid up ver ud ev' de' la dp comps' params' meta' tags' =>
        rw [copyServerFields]
        exact ⟨rfl, rfl⟩

/-- Witness for C6 at a concrete flow. -/
theorem flow_parameter_key_set_invariant_witness :
    ∃ f, flowInit "n" "d" [] [(.strN "a", .fnone)]
        [(.strN "a", ⟨.fnone, .fnone⟩)] "sklearn==0.21.2" [] none none
      = .ok f :=
  (flow_parameter_key_set_invariant "n" "d" [] [(.strN "a", .fnone)]
      [(.strN "a", ⟨.fnone, .fnone⟩)] "sklearn==0.21.2" [] none
      none).1.2 (by intro k; simp [akeys])

theorem exbind_ok {α β : Type} (a : α) (f : α → Except Err β) :
    (Except.ok a >>= f) = f a := rfl

theorem exbind_error {α β : Type} (e : Err) (f : α → Except Err β) :
    ((Except.error e : Except Err α) >>= f) = .error e := rfl

/-- C9, counterexample.  A flow holding the integer `5` as a stored
parameter value is constructed without any error — the constructor checks
only the key sets — and the error is raised later, when `_to_dict`
serializes the flow.  This refutes the claim that the error is raised at
construction time, before serialization is attempted. -/
theorem toDict_nonstring_raised_at_serialization_counterexample :
    flowInit "f" "d" [] [(.strN "a", .fother (.oint 5))]
        [(.strN "a", ⟨.fnone, .fnone⟩)] "sklearn==0.21.2" [] none none
      = .ok (Flow.mk "f" none none none none none "sklearn==0.21.2" "d"
          none none [] [(.strN "a", .fother (.oint 5))]
          [(.strN "a", ⟨.fnone, .fnone⟩)] [])
    ∧ (Flow.mk "f" none none none none none "sklearn==0.21.2" "d"
          none none [] [(.strN "a", .fother (.oint 5))]
          [(.strN "a", ⟨.fnone, .fnone⟩)] []).toDict
        = .error .nonStringForSerialization := by
  refine ⟨rfl, ?_⟩
  rw [Flow.toDict]
  rfl

/-- Every parameter of the node has a meta-info record (true of every flow
the constructor built, by the key-set invariant). -/
def nodeMetaTotal (q : List String × Flow) : Prop :=
  ∀ p ∈ (q.2).parameters, ∃ mi,
    alookup (q.2).parametersMetaInfo p.1 = some mi

/-- The string policy holds of every parameter record of the node. -/
def nodeStringsOk (q : List String × Flow) : Prop :=
  ∀ p ∈ (q.2).parameters, ∀ mi,
    alookup (q.2).parametersMetaInfo p.1 = some mi →
      paramEntryStrings p.1 p.2 mi = true

theorem toDictParams_total (l : List (PName × FVal))
    (meta : List (PName × MetaInfo))
    (hmem : ∀ p ∈ l, ∃ mi, alookup meta p.1 = some mi) :
    toDictParams l meta = .ok () ∨
      toDictParams l meta = .error .nonStringForSerialization := by
  induction l with
  | nil => exact Or.inl rfl
  | cons p rest ih =>
      obtain ⟨k, v⟩ := p
      obtain ⟨mi, hk⟩ := hmem (k, v) (List.mem_cons_self _ _)
      have ihr := ih (fun q hq => hmem q (List.mem_cons_of_mem _ hq))
      unfold toDictParams
      simp only [hk]
      rw [paramRecordCheck_eq]
      by_cases hs : paramEntryStrings k v mi = true
      · rw [if_pos hs]
        have hbind : (do
            (Except.ok () : Except Err Unit)
            toDictParams rest meta) = toDictParams rest meta := rfl
        rw [hbind]
        exact ihr
      · rw [if_neg hs]
        exact Or.inr rfl

mutual

theorem toDict_chr_tree (f : Flow)
    (hsub : ∀ q ∈ subtreeEntries f, nodeMetaTotal q) :
    (Flow.toDict f = .ok () ↔
      ∀ q ∈ subtreeEntries f, nodeStringsOk q)
    ∧ (Flow.toDict f ≠ .ok () →
      Flow.toDict f = .error .nonStringForSerialization) := by
  have hse : subtreeEntries f =
      ([], f) :: subtreeEntriesGo f.components := by
    rw [subtreeEntries]
  have hroot : ∀ p ∈ f.parameters, ∃ mi,
      alookup f.parametersMetaInfo p.1 = some mi := by
    intro p hp
    exact hsub ([], f) (by rw [hse]; exact List.mem_cons_self _ _) p hp
  have hrest : ∀ q ∈ subtreeEntriesGo f.components, nodeMetaTotal q := by
    intro q hq
    exact hsub q (by rw [hse]; exact List.mem_cons_of_mem _ hq)
  have hps := toDictParams_chr f.parameters f.parametersMetaInfo hroot
  have hcs := toDictComponents_chr f.components hrest
  have htd : Flow.toDict f = (do
      toDictParams f.parameters f.parametersMetaInfo
      toDictComponents f.components) := by
    rw [Flow.toDict]
  rcases toDictParams_total f.parameters f.parametersMetaInfo hroot with
    hok1 | herr1
  · rw [htd, hok1, exbind_ok]
    constructor
    · rw [hcs.1, hse]
      simp only [List.mem_cons, forall_eq_or_imp]
      constructor
      · intro hr
        exact ⟨hps.1.mp hok1, hr⟩
      · exact fun hh => hh.2
    · intro hne
      exact hcs.2 hne
  · rw [htd, herr1, exbind_error]
    constructor
    · constructor
      · intro hf
        exact Except.noConfusion hf
      · intro hall
        have hrootOk : ∀ p ∈ f.parameters, ∀ mi,
            alookup f.parametersMetaInfo p.1 = some mi →
              paramEntryStrings p.1 p.2 mi = true :=
          hall ([], f) (by rw [hse]; exact List.mem_cons_self _ _)
        rw [hps.1.mpr hrootOk] at herr1
        exact Except.noConfusion herr1
    · intro _
      rfl
termination_by sizeOf f
decreasing_by
  cases f with
  | mk n cp fid up ver ud ev de la dp comps params meta tags =>
      simp [Flow.components]
      omega

theorem toDictComponents_chr (l : List (String × Flow))
    (hsub : ∀ q ∈ subtreeEntriesGo l, nodeMetaTotal q) :
    (toDictComponents l = .ok () ↔
      ∀ q ∈ subtreeEntriesGo l, nodeStringsOk q)
    ∧ (toDictComponents l ≠ .ok () →
      toDictComponents l = .error .nonStringForSerialization) := by
  match l with
  | [] =>
      have h0 : toDictComponents [] = .ok () := by rw [toDictComponents]
      constructor
      · constructor
        · intro _ q hq
          simp [subtreeEntriesGo] at hq
        · intro _
          exact h0
      · intro hne
        exact absurd h0 hne
  | (id, c) :: rest =>
      have hgo : subtreeEntriesGo ((id, c) :: rest) =
          (subtreeEntries c).map (fun e => (id :: e.1, e.2))
            ++ subtreeEntriesGo rest := by
        rw [subtreeEntriesGo]
      have hc : ∀ q ∈ subtreeEntries c, nodeMetaTotal q := by
        intro q hq
        refine hsub (id :: q.1, q.2) ?_
        rw [hgo]
        refine List.mem_append_left _ ?_
        exact List.mem_map_of_mem (fun e => (id :: e.1, e.2)) hq
      have hr : ∀ q ∈ subtreeEntriesGo rest, nodeMetaTotal q := by
        intro q hq
        exact hsub q (by rw [hgo]; exact List.mem_append_right _ hq)
      have h1 := toDict_chr_tree c hc
      have h2 := toDictComponents_chr rest hr
      have hsplit : (∀ q ∈ subtreeEntriesGo ((id, c) :: rest),
          nodeStringsOk q) ↔
          ((∀ q ∈ subtreeEntries c, nodeStringsOk q) ∧
            (∀ q ∈ subtreeEntriesGo rest, nodeStringsOk q)) := by
        rw [hgo]
        constructor
        · intro h
          refine ⟨fun q hq => ?_,
            fun q hq => h q (List.mem_append_right _ hq)⟩
          refine h (id :: q.1, q.2) ?_
          exact List.mem_append_left _
            (List.mem_map_of_mem (fun e => (id :: e.1, e.2)) hq)
        · rintro ⟨ha, hb⟩ q hq
          rcases List.mem_append.mp hq with hq1 | hq2
          · obtain ⟨e, he, rfl⟩ := List.mem_map.mp hq1
            exact ha e he
          · exact hb q hq2
      have hstep : toDictComponents ((id, c) :: rest) = (do
          Flow.toDict c
          toDictComponents rest) := by
        rw [toDictComponents]
      by_cases hok1 : Flow.toDict c = .ok ()
      · have hred : toDictComponents ((id, c) :: rest) =
            toDictComponents rest := by
          rw [hstep, hok1, exbind_ok]
        constructor
        · rw [hred, h2.1, hsplit]
          constructor
          · intro hr2
            exact ⟨h1.1.mp hok1, hr2⟩
          · exact fun hh => hh.2
        · intro hne
          rw [hred] at hne ⊢
          exact h2.2 hne
      · have herr1 := h1.2 hok1
        have hred : toDictComponents ((id, c) :: rest) =
            .error .nonStringForSerialization := by
          rw [hstep, herr1, exbind_error]
        constructor
        · rw [hred, hsplit]
          constructor
          · intro hf
            exact Except.noConfusion hf
          · intro hh
            exact absurd (h1.1.mpr hh.1) hok1
        · intro _
          exact hred
termination_by sizeOf l
decreasing_by
  all_goals
    simp
    try omega

end

/-- C9, amended: for every constructed flow, serialization to the
structured-document form (`_to_dict`) — not construction — raises the
non-string error, and it does so exactly when some parameter record in
the flow itself or in any of its (recursively serialized) components
holds a parameter name, stored default value, or meta-info entry that is
neither a string nor `None`; when every record of every node passes, the
walk raises no such error. -/
theorem toDict_nonstring_characterization (nm de : String)
    (comps : List (String × Flow)) (params : List (PName × FVal))
    (meta : List (PName × MetaInfo)) (ev : String) (tags : List String)
    (lang deps : Option String) (f : Flow)
    (hok : flowInit nm de comps params meta ev tags lang deps = .ok f)
    (hsub : ∀ q ∈ subtreeEntries f, nodeMetaTotal q) :
    (f.toDict = .ok () ↔ ∀ q ∈ subtreeEntries f, nodeStringsOk q)
    ∧ (f.toDict = .error .nonStringForSerialization ↔
      ∃ q ∈ subtreeEntries f, ∃ p ∈ (q.2).parameters, ∃ mi,
        alookup (q.2).parametersMetaInfo p.1 = some mi ∧
        paramEntryStrings p.1 p.2 mi = false) := by
  obtain ⟨hokIff, herr⟩ := toDict_chr_tree f hsub
  refine ⟨hokIff, ?_, ?_⟩
  · intro h
    have hne : f.toDict ≠ .ok () := by
      rw [h]
      intro hc
      exact Except.noConfusion hc
    by_contra hnex
    apply hne
    apply hokIff.mpr
    intro q hq p hp mi hmi
    rcases Bool.eq_false_or_eq_true (paramEntryStrings p.1 p.2 mi) with
      hb | hb
    · exact hb
    · exact absurd ⟨q, hq, p, hp, mi, hmi, hb⟩ hnex
  · rintro ⟨q, hq, p, hp, mi, hmi, hbad⟩
    apply herr
    intro hok2
    have hgood := hokIff.mp hok2 q hq p hp mi hmi
    rw [hgood] at hbad
    exact Bool.noConfusion hbad

/-- The single-component compound flow of the C9 witness. -/
def c9inner : Flow :=
  Flow.mk "c9c" none none none none none "sklearn==0.21.2" "d" none none
    [] [(.strN "b", .fnone)] [(.strN "b", ⟨.fnone, .fnone⟩)] []

/-- Witness for C9's amended theorem at a concrete compound flow (one
nested component, all records strings or `None`). -/
theorem toDict_nonstring_characterization_witness :
    ((Flow.mk "n" none none none none none "sklearn==0.21.2" "d" none none
        [("c", c9inner)] [(.strN "a", .fnone)]
        [(.strN "a", ⟨.fnone, .fnone⟩)] []).toDict
      = .ok ()) := by
  have hsub : ∀ q ∈ subtreeEntries
      (Flow.mk "n" none none none none none "sklearn==0.21.2" "d" none none
        [("c", c9inner)] [(.strN "a", .fnone)]
        [(.strN "a", ⟨.fnone, .fnone⟩)] []), nodeMetaTotal q := by
    intro q hq
    simp [subtreeEntries, subtreeEntriesGo, Flow.components, c9inner] at hq
    rcases hq with rfl | rfl <;>
      (intro p hp
       simp [Flow.parameters] at hp
       subst hp
       exact ⟨⟨.fnone, .fnone⟩, rfl⟩)
  have h := (toDict_nonstring_characterization "n" "d" [("c", c9inner)]
    [(.strN "a", .fnone)] [(.strN "a", ⟨.fnone, .fnone⟩)] "sklearn==0.21.2"
    [] none none _ rfl hsub).1
  rw [h]
  intro q hq
  simp [subtreeEntries, subtreeEntriesGo, Flow.components, c9inner] at hq
  rcases hq with rfl | rfl <;>
    (intro p hp mi hmi
     simp [Flow.parameters] at hp
     subst hp
     simp [Flow.parametersMetaInfo, alookup] at hmi
     subst hmi
     rfl)

/-! ### Frame property of `get_subflow` over the store -/

theorem le_foldr_max (l : List Nat) (r : Nat) (h : r ∈ l) :
    r ≤ l.foldr max 0 := by
  induction l with
  | nil => cases h
  | cons a rest ih =>
      rcases List.mem_cons.1 h with h | h
      · exact h ▸ le_max_left _ _
      · exact (ih h).trans (le_max_right _ _)

theorem akeys_storeWrite (st : Store) (c : Nat) (l : List String) :
    akeys (storeWrite st c l) = akeys st := by
  induction st with
  | nil => rfl
  | cons p rest ih =>
      cases p with
      | mk a b =>
          simp only [storeWrite, List.map_cons] at ih ⊢
          by_cases he : a = c
          · subst he
            rw [if_pos rfl, akeys_cons, akeys_cons, ih]
          · rw [if_neg (by simpa using he), akeys_cons, akeys_cons, ih]

theorem storeRead_write_ne (st : Store) {c r : Nat} (l : List String)
    (h : ¬ c = r) : storeRead (storeWrite st c l) r = storeRead st r := by
  induction st with
  | nil => rfl
  | cons p rest ih =>
      cases p with
      | mk a b =>
          simp only [storeRead, storeWrite, List.map_cons] at ih ⊢
          by_cases he : a = c
          · subst he
            rw [if_pos rfl]
            show alookup _ _ = alookup _ _
            simp only [alookup, h, if_false]
            exact ih
          · rw [if_neg (by simpa using he)]
            show alookup _ _ = alookup _ _
            by_cases he2 : a = r
            · simp [alookup, he2]
            · simp only [alookup, he2, if_false]
              exact ih

theorem storeRead_append_of_mem {st : Store} {r : Nat}
    (h : r ∈ akeys st) (x : Nat × List String) :
    storeRead (st ++ [x]) r = storeRead st r := by
  rcases alookup_isSome_of_mem_akeys h with ⟨v, hv⟩
  rw [show storeRead (st ++ [x]) r = alookup (st ++ [x]) r from rfl]
  rw [alookup_append_of_some _ hv]
  exact hv.symm

/-- `get_subflow` never changes a pre-existing cell of the store: the only
mutations are the allocation of the fresh copy and the `pop(0)` on that
copy. -/
theorem getSubflowS_preserves (f : Flow) (r : Nat) (st : Store) :
    ∀ r', r' ∈ akeys st →
      storeRead (getSubflowS f r st).2 r' = storeRead st r' := by
  intro r' hr'
  have hfresh : ∀ x ∈ akeys st,
      x ≠ (st.map Prod.fst).foldr max 0 + 1 := by
    intro x hx
    have := le_foldr_max (st.map Prod.fst) x hx
    omega
  have happ : ∀ l : List String,
      storeRead (st ++ [((st.map Prod.fst).foldr max 0 + 1, l)]) r'
        = storeRead st r' :=
    fun l => storeRead_append_of_mem hr' _
  rw [getSubflowS.eq_def]
  split
  · rfl
  · simp only [storeAlloc]
    split
    · exact happ _
    · split
      · exact happ _
      · split
        · exact happ _
        · rename_i l hread subIdentifier restOfPath sub hc
          split
          · exact happ _
          · rw [getSubflowS_preserves sub _ _ r' ?_,
              storeRead_write_ne _ _ (fun he => hfresh r' hr' he.symm)]
            · exact happ _
            · rw [akeys_storeWrite]
              unfold akeys
              rw [List.map_append]
              exact List.mem_append.2 (Or.inl hr')
termination_by sizeOf f
decreasing_by
  exact component_sizeOf_lt (by assumption)

/-- C10.  For every flow and every non-empty path list held in the caller's
cell, `get_subflow` leaves the caller's list unchanged — the same elements
in the same order — whether it returns a subflow or raises: the function
copies the list on entry and mutates only the copy. -/
theorem get_subflow_preserves_caller_list (f : Flow) (r : Nat) (st : Store)
    (l : List String) (hr : storeRead st r = some l) (hne : ¬ l = []) :
    storeRead (getSubflowS f r st).2 r = some l := by
  rw [getSubflowS_preserves f r st r (alookup_mem_akeys hr)]
  exact hr

/-- Witness for C10 at a concrete flow, store and path. -/
theorem get_subflow_preserves_caller_list_witness :
    storeRead (getSubflowS (mkLeafFlow "L") 0 [(0, ["a"])]).2 0
      = some ["a"] :=
  get_subflow_preserves_caller_list (mkLeafFlow "L") 0 [(0, ["a"])] ["a"]
    rfl (by simp)

/-! ### The run-on-fold execution shim and the `n_jobs` guard

`_run_model_on_fold` is modelled up to the point where fitting would begin:
argument validation for supervised tasks, the model clone (`sklearn.base.clone`
rebuilds an unfitted copy carrying the same parameters — the guard observes
nothing else, so cloning is the identity here), the `n_jobs`-optimization
guard, and the two timing-measurability computations.  The `fit` call comes
strictly after all of these in the source. -/

/-- A value in a model's parameter dictionary or in a search space: `None`,
an integer, or any other object (lists of candidate values, distributions,
strings, nested estimators — the `n_jobs` policy only ever compares against
`None`, `1` and `-1`). -/
inductive GVal where
  | gnone
  | gint (n : Int)
  | gother
deriving DecidableEq

/-- A hyperparameter search space: a mapping from dotted parameter names to
values, a list of such grids, or any other object (rejected by
`_get_parameter_values_recursive`). -/
inductive ParamGrid where
  | dict (es : List (String × GVal))
  | list (gs : List ParamGrid)
  | other

/-- Does the list start with the given pattern?  (Character-level
implementation of Python string prefix matching; `String`'s own operations
are compiled externally and do not evaluate inside the kernel.) -/
def listStartsWith {α : Type} [DecidableEq α] : List α → List α → Bool
  | [], _ => true
  | _ :: _, [] => false
  | p :: ps, x :: xs => p = x && listStartsWith ps xs

/-- Does the list contain the given pattern as a contiguous sublist? -/
def listContainsSub {α : Type} [DecidableEq α] (pat : List α) :
    List α → Bool
  | [] => listStartsWith pat []
  | x :: xs => listStartsWith pat (x :: xs) || listContainsSub pat xs

/-- Greedy split on a separator, Python `str.split(sep)` semantics.  The
fuel argument (instantiated with the input length, which bounds the number
of steps) keeps the recursion structural so that the kernel can evaluate
concrete instances. -/
def splitSepGo (sep : List Char) : Nat → List Char → List Char →
    List (List Char)
  | _, [], acc => [acc.reverse]
  | 0, s, acc => [acc.reverse ++ s]
  | fuel + 1, c :: rest, acc =>
      if listStartsWith sep (c :: rest) = true ∧ 0 < sep.length then
        acc.reverse :: splitSepGo sep fuel ((c :: rest).drop sep.length) []
      else
        splitSepGo sep fuel rest (c :: acc)

def splitSep (sep s : List Char) : List (List Char) :=
  splitSepGo sep s.length s []

/-- `param.split('__')[-1]`: the last segment of a dotted (double
underscore separated) parameter name. -/
def lastSegmentOf (s : String) : String :=
  match (splitSep "__".data s.data).reverse with
  | [] => ""
  | x :: _ => ⟨x⟩

mutual

/-- `SklearnExtension._get_parameter_values_recursive`: every value bound,
anywhere in the grid, to a parameter whose name's last dotted segment is
`parameterName`; a grid node that is neither a dict nor a list is a
`ValueError`. -/
def getParameterValuesRecursive (g : ParamGrid) (parameterName : String) :
    Except Err (List GVal) :=
  match g with
  | .dict es =>
      .ok ((es.filter (fun p => lastSegmentOf p.1 = parameterName)).map
        Prod.snd)
  | .list gs => getParameterValuesList gs parameterName
  | .other => .error (.valueError "param grid must be a dict or list of dicts")
termination_by sizeOf g

def getParameterValuesList (gs : List ParamGrid) (parameterName : String) :
    Except Err (List GVal) :=
  match gs with
  | [] => .ok []
  | g :: rest => do
      let vals ← getParameterValuesRecursive g parameterName
      let more ← getParameterValuesList rest parameterName
      .ok (vals ++ more)
termination_by sizeOf gs

end

/-- The search-space slot of a `BaseSearchCV` model: `param_grid` for
`GridSearchCV`, `param_distributions` for `RandomizedSearchCV`, and
`param_distributions` for other subclasses when they expose it. -/
inductive SearchKind where
  | gridSearch (paramGrid : ParamGrid)
  | randomizedSearch (paramDistributions : ParamGrid)
  | otherSearchWith (paramDistributions : ParamGrid)
  | otherSearchWithout

/-- The slice of a scikit-learn model that the shim's pre-fit segment
observes: whether it is a `BaseEstimator`, whether it is a `BaseSearchCV`
(and then its search-space slot), and its flattened `get_params()`
dictionary. -/
structure ShimModel where
  isBaseEstimator : Bool
  search : Option SearchKind
  params : List (String × GVal)

def ShimModel.isHpo (m : ShimModel) : Bool := m.search.isSome

/-- The search space the guard inspects, when the model kind carries one. -/
def SearchKind.space : SearchKind → Option ParamGrid
  | .gridSearch g => some g
  | .randomizedSearch g => some g
  | .otherSearchWith g => some g
  | .otherSearchWithout => none

/-- `SklearnExtension._prevent_optimize_n_jobs`: for a hyperparameter
search model, collect every `n_jobs`-suffixed value of the search space and
raise `PyOpenMLError` when any exists; a `BaseSearchCV` subclass without
`param_distributions` is an `AttributeError`. -/
def preventOptimizeNJobs (m : ShimModel) : Except Err Unit :=
  match m.search with
  | none => .ok ()
  | some k =>
      match k.space with
      | none => .error .searchSubclassNoDistributions
      | some dist => do
          let vals ← getParameterValuesRecursive dist "n_jobs"
          if vals.length > 0 then .error .njobsOptimization else .ok ()

/-- `SklearnExtension._can_measure_cputime`: true iff every discoverable
`n_jobs` value of the model's parameters is `None` or `1`. -/
def canMeasureCpuTime (m : ShimModel) : Except Err Bool :=
  if ¬ (m.isBaseEstimator || m.isHpo) then
    .error (.valueError "model should be BaseEstimator or BaseSearchCV")
  else do
    let vals ← getParameterValuesRecursive (.dict m.params) "n_jobs"
    .ok (vals.all (fun v => v = .gnone || v = .gint 1))

/-- `SklearnExtension._can_measure_wallclocktime`: true iff no discoverable
`n_jobs` value of the model's parameters is `-1`. -/
def canMeasureWallClockTime (m : ShimModel) : Except Err Bool :=
  if ¬ (m.isBaseEstimator || m.isHpo) then
    .error (.valueError "model should be BaseEstimator or BaseSearchCV")
  else do
    let vals ← getParameterValuesRecursive (.dict m.params) "n_jobs"
    .ok (¬ (GVal.gint (-1)) ∈ vals)

/-- Task kinds of `openml/tasks/task.py`; the supervised ones are
classification, regression and learning-curve. -/
inductive TaskKind where
  | supervisedClassification
  | supervisedRegression
  | learningCurve
  | clustering
deriving DecidableEq

def TaskKind.isSupervised : TaskKind → Bool
  | .supervisedClassification => true
  | .supervisedRegression => true
  | .learningCurve => true
  | .clustering => false

/-- The aspects of the task and call arguments that the shim's pre-fit
segment consults. -/
structure TaskInput where
  kind : TaskKind
  yTrainPresent : Bool
  xTestPresent : Bool

/-- The pre-fit segment of `SklearnExtension._run_model_on_fold`, in source
order: supervised argument checks, clone, `n_jobs`-optimization guard, CPU
and wall-clock measurability.  Fitting happens strictly after this segment
returns, so any error here is raised before any fitting takes place. -/
def runShimPrefix (task : TaskInput) (m : ShimModel) :
    Except Err (Bool × Bool) := do
  if task.kind.isSupervised ∧ ¬ task.yTrainPresent then
    throw .missingY
  if task.kind.isSupervised ∧ ¬ task.xTestPresent then
    throw .missingXTest
  let modelCopy := m
  preventOptimizeNJobs modelCopy
  let cpu ← canMeasureCpuTime modelCopy
  let wall ← canMeasureWallClockTime modelCopy
  .ok (cpu, wall)

/-- The search space binds, at some nesting level, a value for a parameter
whose dotted name ends in the given segment (independent specification of
what `_get_parameter_values_recursive` collects). -/
inductive GridHasParam (name : String) : ParamGrid → Prop where
  | dict {es : List (String × GVal)} {k : String} {v : GVal}
      (hm : (k, v) ∈ es) (hs : lastSegmentOf k = name) :
      GridHasParam name (.dict es)
  | list {gs : List ParamGrid} {g : ParamGrid} (hg : g ∈ gs)
      (hrec : GridHasParam name g) : GridHasParam name (.list gs)

mutual

theorem getParameterValuesRecursive_ok_iff (g : ParamGrid) (name : String)
    (vals : List GVal)
    (h : getParameterValuesRecursive g name = .ok vals) :
    (¬ vals = [] ↔ GridHasParam name g) := by
  match g with
  | .dict es =>
      rw [getParameterValuesRecursive] at h
      cases h
      constructor
      · intro hne
        have : ¬ es.filter (fun p => lastSegmentOf p.1 = name) = [] := by
          intro hnil
          rw [hnil] at hne
          exact hne rfl
        rcases List.exists_mem_of_ne_nil _ this with ⟨p, hp⟩
        have hmem := List.mem_of_mem_filter hp
        have hprop := List.of_mem_filter hp
        simp only [decide_eq_true_eq] at hprop
        exact GridHasParam.dict (k := p.1) (v := p.2) (by simpa using hmem)
          hprop
      · intro hhas
        cases hhas with
        | dict hm hs =>
            intro hnil
            have : (_, _) ∈ List.filter
                (fun p => decide (lastSegmentOf p.1 = name)) es :=
              List.mem_filter.2 ⟨hm, by simpa using hs⟩
            rw [List.eq_nil_iff_forall_not_mem] at hnil
            exact hnil _ (List.mem_map_of_mem Prod.snd this)
  | .list gs =>
      rw [getParameterValuesRecursive] at h
      have := getParameterValuesList_ok_iff gs name vals h
      constructor
      · intro hne
        rcases this.1 hne with ⟨g', hg', hhas⟩
        exact GridHasParam.list hg' hhas
      · intro hhas
        cases hhas with
        | list hg hrec => exact this.2 ⟨_, hg, hrec⟩
  | .other =>
      rw [getParameterValuesRecursive] at h
      cases h
termination_by (sizeOf g, 0)

theorem getParameterValuesList_ok_iff (gs : List ParamGrid) (name : String)
    (vals : List GVal) (h : getParameterValuesList gs name = .ok vals) :
    (¬ vals = [] ↔ ∃ g ∈ gs, GridHasParam name g) := by
  match gs with
  | [] =>
      rw [getParameterValuesList] at h
      cases h
      simp
  | g :: rest =>
      rw [getParameterValuesList] at h
      cases hg : getParameterValuesRecursive g name with
      | error e => rw [hg] at h; cases h
      | ok vs =>
          rw [hg] at h
          cases hrest : getParameterValuesList rest name with
          | error e => rw [hrest] at h; cases h
          | ok more =>
              rw [hrest] at h
              cases h
              have h1 := getParameterValuesRecursive_ok_iff g name vs hg
              have h2 := getParameterValuesList_ok_iff rest name more hrest
              constructor
              · intro hne
                by_cases hvs : vs = []
                · subst hvs
                  simp only [List.nil_append] at hne
                  rcases h2.1 hne with ⟨g', hg', hhas⟩
                  exact ⟨g', List.mem_cons_of_mem _ hg', hhas⟩
                · exact ⟨g, List.mem_cons_self _ _, h1.1 hvs⟩
              · intro hex
                rcases hex with ⟨g', hg', hhas⟩
                rcases List.mem_cons.1 hg' with he | he
                · subst he
                  have := h1.2 hhas
                  intro hnil
                  rcases List.append_eq_nil.1 hnil with ⟨hv, _⟩
                  exact this hv
                · have := h2.2 ⟨g', he, hhas⟩
                  intro hnil
                  rcases List.append_eq_nil.1 hnil with ⟨_, hm⟩
                  exact this hm
termination_by (sizeOf gs, 1)

end

/-- C8.  For a hyperparameter-search wrapper model invoked on a valid fold
(required supervised arguments supplied) whose search space the guard can
read off, the run-on-fold shim raises the `PyOpenMLError` usage error
before any fitting takes place exactly when the search space binds, at any
nesting level of the dotted parameter names, a value for an `n_jobs`
parameter; a search wrapper whose space binds no such parameter never
triggers this error. -/
theorem run_model_on_fold_njobs_guard (task : TaskInput) (m : ShimModel)
    (k : SearchKind) (dist : ParamGrid) (vals : List GVal)
    (hsearch : m.search = some k) (hdist : k.space = some dist)
    (hvals : getParameterValuesRecursive dist "n_jobs" = .ok vals)
    (hy : task.kind.isSupervised → task.yTrainPresent = true)
    (hx : task.kind.isSupervised → task.xTestPresent = true) :
    (runShimPrefix task m = .error .njobsOptimization ↔
      GridHasParam "n_jobs" dist) := by
  have hguard : preventOptimizeNJobs m =
      (if vals.length > 0 then .error .njobsOptimization else .ok ()) := by
    rw [preventOptimizeNJobs, hsearch]
    simp only [hdist, hvals]
    rfl
  have hiff := getParameterValuesRecursive_ok_iff dist "n_jobs" vals hvals
  have hpre : runShimPrefix task m = (do
      preventOptimizeNJobs m
      let cpu ← canMeasureCpuTime m
      let wall ← canMeasureWallClockTime m
      (.ok (cpu, wall) : Except Err (Bool × Bool))) := by
    rw [runShimPrefix]
    by_cases hsup : task.kind.isSupervised
    · simp [hsup, hy hsup, hx hsup]
    · simp [hsup]
  have hhpo : (m.isBaseEstimator || m.isHpo) = true := by
    simp [ShimModel.isHpo, hsearch]
  have hvd : getParameterValuesRecursive (.dict m.params) "n_jobs"
      = .ok ((m.params.filter
        (fun p => lastSegmentOf p.1 = "n_jobs")).map Prod.snd) := by
    rw [getParameterValuesRecursive]
  have hcpu1 : ∃ c, canMeasureCpuTime m = .ok c := by
    rw [canMeasureCpuTime, if_neg (by simp [hhpo])]
    exact ⟨_, by rw [hvd]; rfl⟩
  have hwall1 : ∃ w, canMeasureWallClockTime m = .ok w := by
    rw [canMeasureWallClockTime, if_neg (by simp [hhpo])]
    exact ⟨_, by rw [hvd]; rfl⟩
  obtain ⟨c, hc1⟩ := hcpu1
  obtain ⟨w, hw1⟩ := hwall1
  rw [hpre, hguard]
  by_cases hlen : vals.length > 0
  · rw [if_pos hlen]
    rw [show ((do
        (Except.error Err.njobsOptimization : Except Err Unit)
        let cpu ← canMeasureCpuTime m
        let wall ← canMeasureWallClockTime m
        (.ok (cpu, wall) : Except Err (Bool × Bool))) : Except Err
          (Bool × Bool)) = .error .njobsOptimization from rfl]
    constructor
    · intro _
      exact hiff.1 (by intro hnil; rw [hnil] at hlen; simp at hlen)
    · intro _
      rfl
  · rw [if_neg hlen]
    have hnil : vals = [] := by
      cases vals with
      | nil => rfl
      | cons x xs => simp at hlen
    have heval : ((do
        (Except.ok () : Except Err Unit)
        let cpu ← canMeasureCpuTime m
        let wall ← canMeasureWallClockTime m
        (.ok (cpu, wall) : Except Err (Bool × Bool))) : Except Err
          (Bool × Bool)) = .ok (c, w) := by
      rw [show ((do
          (Except.ok () : Except Err Unit)
          let cpu ← canMeasureCpuTime m
          let wall ← canMeasureWallClockTime m
          (.ok (cpu, wall) : Except Err (Bool × Bool))) : Except Err
            (Bool × Bool)) = (canMeasureCpuTime m >>= fun cpu =>
          canMeasureWallClockTime m >>= fun wall =>
            (.ok (cpu, wall) : Except Err (Bool × Bool))) from rfl]
      rw [hc1, exbind_ok, hw1, exbind_ok]
    rw [heval]
    constructor
    · intro h
      cases h
    · intro hhas
      exact absurd hnil (hiff.2 hhas)

/-- Witness for C8: a randomized-search wrapper whose distribution space
sets `n_jobs` makes the shim raise the usage error before fitting. -/
theorem run_model_on_fold_njobs_guard_witness :
    runShimPrefix ⟨.supervisedClassification, true, true⟩
      ⟨true, some (.randomizedSearch (.dict [("n_jobs", .gint (-1))])),
        [("n_jobs", .gnone)]⟩ = .error .njobsOptimization := by
  have hseg : lastSegmentOf "n_jobs" = "n_jobs" := by decide
  have hvals : getParameterValuesRecursive
      (.dict [("n_jobs", GVal.gint (-1))]) "n_jobs"
      = .ok [GVal.gint (-1)] := by
    rw [getParameterValuesRecursive]
    simp [hseg]
  exact (run_model_on_fold_njobs_guard ⟨.supervisedClassification, true,
    true⟩ ⟨true, some (.randomizedSearch (.dict [("n_jobs", .gint (-1))])),
      [("n_jobs", .gnone)]⟩ (.randomizedSearch (.dict [("n_jobs",
      .gint (-1))])) (.dict [("n_jobs", .gint (-1))]) [GVal.gint (-1)]
    rfl rfl hvals (fun _ => rfl) (fun _ => rfl)).2
    (GridHasParam.dict (List.mem_cons_self _ _) hseg)

/-! ### The model–flow serialization engine

The live-object universe of the walker.  A Python string is represented by
its JSON-parse status (`mstrRaw` for a string whose text is not a JSON
document, `mstrParsed j` for a string whose text parses to `j`), mirroring
the engine's opportunistic `json.loads` of every string.  Machine floats
and numpy scalar wrappers are excluded; dictionary keys are plain
(non-JSON-document) strings, as the serializer rejects non-string keys and
every key the engine creates is an identifier.  `Model` stands for a
scikit-learn estimator: its qualified class path together with its
`get_params(deep=False)` dictionary, which by the estimator contract is
exactly the constructor-argument dictionary. -/

/-- The closed table of numeric type objects handled by
`_serialize_type` / `_deserialize_type`. -/
inductive NumType where
  | floatT
  | npFloat
  | npFloat32
  | npFloat64
  | intT
  | npInt
  | npInt32
  | npInt64
deriving DecidableEq

def NumType.typeName : NumType → String
  | .floatT => "float"
  | .npFloat => "np.float"
  | .npFloat32 => "np.float32"
  | .npFloat64 => "np.float64"
  | .intT => "int"
  | .npInt => "np.int"
  | .npInt32 => "np.int32"
  | .npInt64 => "np.int64"

/-- The inverse of the `_deserialize_type` mapping. -/
def numTypeOfName (s : String) : Option NumType :=
  if s = "float" then some .floatT
  else if s = "np.float" then some .npFloat
  else if s = "np.float32" then some .npFloat32
  else if s = "np.float64" then some .npFloat64
  else if s = "int" then some .intT
  else if s = "np.int" then some .npInt
  else if s = "np.int32" then some .npInt32
  else if s = "np.int64" then some .npInt64
  else none

mutual

/-- A live Python value flowing through the walker. -/
inductive MVal where
  | mnone
  | mbool (b : Bool)
  | mint (n : Int)
  | mstrRaw (s : String)
  | mstrParsed (j : JVal)
  | mlist (xs : List MVal)
  | mtuple (xs : List MVal)
  | mdict (es : List (String × MVal))
  | mtype (t : NumType)
  | mfunc (path : String)
  | mrv (dist : String) (a b : MVal) (args : List MVal)
      (kwds : List (String × MVal))
  | mcv (name : String) (params : List (String × MVal))
  | mmodel (m : Model)

/-- A scikit-learn estimator: class path plus constructor parameters. -/
inductive Model where
  | mk (classPath : String) (params : List (String × MVal))

end

def Model.classPath : Model → String
  | .mk c _ => c

def Model.params : Model → List (String × MVal)
  | .mk _ p => p

/-- The result universe of `_serialize_sklearn`: primitives, sequences,
string-keyed ordered dictionaries (which also carry the tagged envelopes),
and flows for nested estimators. -/
inductive SerVal where
  | snull
  | sbool (b : Bool)
  | sint (n : Int)
  | sstrRaw (s : String)
  | sstrParsed (j : JVal)
  | slist (xs : List SerVal)
  | stuple (xs : List SerVal)
  | sdict (es : List (String × SerVal))
  | sflow (f : Flow)

/-- Insert into a key-sorted association list (used to model Python's
`sorted(d.items())`; the dictionaries so sorted have unique keys, so
stability is immaterial). -/
def charListLe : List Char → List Char → Bool
  | [], _ => true
  | _ :: _, [] => false
  | c :: cs, d :: ds =>
      if c.toNat < d.toNat then true
      else if d.toNat < c.toNat then false
      else charListLe cs ds

/-- Lexicographic string order (the order `sorted` sorts keys by). -/
def strLe (a b : String) : Bool := charListLe a.data b.data

def insertSorted {α : Type} (p : String × α) :
    List (String × α) → List (String × α)
  | [] => [p]
  | q :: rest =>
      if strLe p.1 q.1 then p :: q :: rest else q :: insertSorted p rest

def sortByKey {α : Type} (l : List (String × α)) : List (String × α) :=
  l.foldr insertSorted []

theorem sizeOf_insertSorted {α : Type} [SizeOf α] (p : String × α)
    (l : List (String × α)) :
    sizeOf (insertSorted p l) = 1 + sizeOf p + sizeOf l := by
  induction l with
  | nil => simp [insertSorted]
  | cons q rest ih =>
      by_cases h : strLe p.1 q.1 <;> simp [insertSorted, h, ih] <;> omega

theorem sizeOf_sortByKey {α : Type} [SizeOf α] (l : List (String × α)) :
    sizeOf (sortByKey l) = sizeOf l := by
  induction l with
  | nil => rfl
  | cons p rest ih =>
      show sizeOf (insertSorted p (sortByKey rest)) = _
      rw [sizeOf_insertSorted, ih]
      simp
      try omega

/-- Ordered-dictionary assignment: an existing key keeps its position and
gets the new value, a fresh key is appended. -/
def odinsert {α β : Type} [DecidableEq α] (l : List (α × β)) (k : α)
    (v : β) : List (α × β) :=
  if k ∈ akeys l then l.map (fun p => if p.1 = k then (k, v) else p)
  else l ++ [(k, v)]

/-- Add to a set represented as a duplicate-free list. -/
def saddE {α : Type} [DecidableEq α] (l : List α) (x : α) : List α :=
  if x ∈ l then l else l ++ [x]

mutual

/-- `json.dumps` on a serialized value, producing the parsed form of the
dumped text (dumping and re-parsing is the identity on this domain, with
tuples collapsed to arrays); a flow inside the value is a `TypeError`. -/
def dumpsSer : SerVal → Except Err JVal
  | .snull => .ok .jnull
  | .sbool b => .ok (.jbool b)
  | .sint n => .ok (.jint n)
  | .sstrRaw s => .ok (.jstrRaw s)
  | .sstrParsed j => .ok (.jstrParsed j)
  | .slist xs => do
      let ys ← dumpsSerList xs
      .ok (.jarr ys)
  | .stuple xs => do
      let ys ← dumpsSerList xs
      .ok (.jarr ys)
  | .sdict es => do
      let fs ← dumpsSerDict es
      .ok (.jobj fs)
  | .sflow _ => .error (.typeError "OpenMLFlow is not JSON serializable")

def dumpsSerList : List SerVal → Except Err (List JVal)
  | [] => .ok []
  | x :: rest => do
      let y ← dumpsSer x
      let ys ← dumpsSerList rest
      .ok (y :: ys)

def dumpsSerDict : List (String × SerVal) → Except Err (List (String × JVal))
  | [] => .ok []
  | (k, v) :: rest => do
      let y ← dumpsSer v
      let ys ← dumpsSerDict rest
      .ok ((k, y) :: ys)

end

mutual

/-- `json.dumps` on a raw live value (used by the cross-validator and
frozen-distribution serializers, which dump un-walked attribute values). -/
def mvalToJson : MVal → Except Err JVal
  | .mnone => .ok .jnull
  | .mbool b => .ok (.jbool b)
  | .mint n => .ok (.jint n)
  | .mstrRaw s => .ok (.jstrRaw s)
  | .mstrParsed j => .ok (.jstrParsed j)
  | .mlist xs => do
      let ys ← mvalToJsonList xs
      .ok (.jarr ys)
  | .mtuple xs => do
      let ys ← mvalToJsonList xs
      .ok (.jarr ys)
  | .mdict es => do
      let fs ← mvalToJsonDict es
      .ok (.jobj fs)
  | _ => .error (.typeError "value is not JSON serializable")

def mvalToJsonList : List MVal → Except Err (List JVal)
  | [] => .ok []
  | x :: rest => do
      let y ← mvalToJson x
      let ys ← mvalToJsonList rest
      .ok (y :: ys)

def mvalToJsonDict : List (String × MVal) → Except Err (List (String × JVal))
  | [] => .ok []
  | (k, v) :: rest => do
      let y ← mvalToJson v
      let ys ← mvalToJsonDict rest
      .ok ((k, y) :: ys)

end

/-- The marker key of the tagged special-value envelopes. -/
def omlMarker : String := "oml-python:serialized_object"

/-- `_serialize_type`: the envelope for one of the eight numeric types. -/
def serializeType (t : NumType) : SerVal :=
  .sdict [(omlMarker, .sstrRaw "type"), ("value", .sstrRaw t.typeName)]

/-- `_serialize_function`: the envelope carrying the function's qualified
module-level path. -/
def serializeFunction (path : String) : SerVal :=
  .sdict [(omlMarker, .sstrRaw "function"), ("value", .sstrRaw path)]

/-- `_serialize_rv_frozen`: the envelope carrying the frozen distribution's
class path, bounds and raw construction arguments.  The attribute values
are dumped raw (not walked), so non-JSON-serializable attribute values are
rejected here, where the source would fail at the enclosing `json.dumps`. -/
def serializeRvFrozen (dist : String) (a b : MVal) (args : List MVal)
    (kwds : List (String × MVal)) : Except Err SerVal := do
  let ja ← mvalToJson a
  let jb ← mvalToJson b
  let jargs ← mvalToJsonList args
  let jkwds ← mvalToJsonDict kwds
  .ok (.sdict [(omlMarker, .sstrRaw "rv_frozen"),
    ("value", .sdict [("dist", .sstrRaw dist), ("a", .sstrParsed ja),
      ("b", .sstrParsed jb), ("args", .sstrParsed (.jarr jargs)),
      ("kwds", .sstrParsed (.jobj jkwds))])])

/-- Is the serialized value empty-and-sized (`hasattr(v, '__len__') and
len(v) == 0`)?  Strings, lists, tuples and dicts are sized; an empty
parsed-JSON string cannot occur (the empty text is not a JSON document). -/
def serEmptySized : SerVal → Bool
  | .slist [] => true
  | .stuple [] => true
  | .sdict [] => true
  | .sstrRaw "" => true
  | _ => false

/-- `_serialize_cross_validator`: class path plus the constructor
parameters (sorted by name), each dumped to a JSON string, or `None` when
empty-and-sized.  Deprecated parameters do not occur in the universe. -/
def serializeCrossValidator (name : String)
    (params : List (String × MVal)) : Except Err SerVal := do
  let ps ← cvParams (sortByKey params)
  .ok (.sdict [(omlMarker, .sstrRaw "cv_object"),
    ("value", .sdict [("name", .sstrRaw name), ("parameters", .sdict ps)])])
where
  cvParams : List (String × MVal) → Except Err (List (String × SerVal))
    | [] => .ok []
    | (k, v) :: rest => do
        let entry ← (match v with
          | .mlist [] => .ok SerVal.snull
          | .mtuple [] => .ok SerVal.snull
          | .mdict [] => .ok SerVal.snull
          | .mstrRaw "" => .ok SerVal.snull
          | _ => do
              let j ← mvalToJson v
              .ok (SerVal.sstrParsed j))
        let more ← cvParams rest
        .ok ((k, entry) :: more)

/-- Simple-type test used by the steps detection (`SIMPLE_TYPES`: bool,
int, float, str and the numpy scalar types; `None` is not simple). -/
def isSimpleSer : SerVal → Bool
  | .sbool _ => true
  | .sint _ => true
  | .sstrRaw _ => true
  | .sstrParsed _ => true
  | _ => false

/-- `flatten_all`: flattens arbitrary-depth lists/tuples. -/
def flattenAll : List SerVal → List SerVal
  | [] => []
  | .slist ys :: rest => flattenAll ys ++ flattenAll rest
  | .stuple ys :: rest => flattenAll ys ++ flattenAll rest
  | v :: rest => v :: flattenAll rest

def serIsList : SerVal → Bool
  | .slist _ => true
  | _ => false

def serIsTuple : SerVal → Bool
  | .stuple _ => true
  | _ => false

/-- The elements of a list or tuple, with its tuple-ness. -/
def seqElems : SerVal → Option (List SerVal × Bool)
  | .slist xs => some (xs, false)
  | .stuple xs => some (xs, true)
  | _ => none

/-- `is_non_empty_list_of_lists_with_same_type`: a non-empty sequence
whose first element is a sequence and whose every element has the first
element's exact container type. -/
def isSeqOfSeqsSameType (rval : SerVal) : Bool :=
  match seqElems rval with
  | none => false
  | some (xs, _) =>
      match xs with
      | [] => false
      | x :: _ =>
          match x with
          | .slist _ => xs.all serIsList
          | .stuple _ => xs.all serIsTuple
          | _ => false

/-- `nested_list_of_simple_types`: the same shape with every flattened
element simple. -/
def nestedSimpleTypes (rval : SerVal) : Bool :=
  isSeqOfSeqsSameType rval &&
    (match seqElems rval with
      | some (xs, _) => (flattenAll xs).all isSimpleSer
      | none => false)

/-- The per-element part of the named-sub-component (pipeline-step) branch
of `_extract_information_from_model`: passthrough `(identifier, None)`
pairs, or a registered component plus a `component_reference` envelope
(optionally carrying `argument_1`).  Element access precedes the length
check in the source, so elements shorter than two raise `IndexError`;
length above three is the tuple-length `ValueError`; a second item that is
neither a flow nor `None` is a `TypeError`; an identifier colliding with a
top-level parameter name is the shadowing error. -/
def stepGuardSecond : SerVal → Except Err Unit
  | .snull => .ok ()
  | .sflow _ => .ok ()
  | _ => .error .badSubComponent

/-- The shadowing check on a step identifier (an identifier equal to a
top-level parameter name is rejected). -/
def stepGuardId (reserved : List String) : SerVal → Except Err Unit
  | .sstrRaw id =>
      if id ∈ reserved then .error (.shadowsParameter id) else .ok ()
  | _ => .ok ()

def processSteps (reserved : List String) :
    List SerVal → List (String × Flow) → List String →
    Except Err (List SerVal × List (String × Flow) × List String)
  | [], accC, accE => .ok ([], accC, accE)
  | el :: rest, accC, accE =>
      match seqElems el with
      | none => .error (.unsupported "step element is not a sequence")
      | some (elems, isTup) =>
          match elems with
          | [] => .error .indexError
          | [_] => .error .indexError
          | el0 :: el1 :: restArgs =>
              if restArgs.length > 1 then .error .tupleLength
              else match stepGuardSecond el1 with
              | .error e => .error e
              | .ok () =>
                  match stepGuardId reserved el0 with
                  | .error e => .error e
                  | .ok () =>
                      match el1 with
                      | .snull =>
                          let pv := if isTup then
                              SerVal.stuple [el0, .snull]
                            else SerVal.slist [el0, .snull]
                          (match processSteps reserved rest accC accE with
                            | .error e => .error e
                            | .ok (pvs, accC1, accE1) =>
                                .ok (pv :: pvs, accC1, accE1))
                      | .sflow f =>
                          match el0 with
                          | .sstrRaw id =>
                              let crv := [("key", SerVal.sstrRaw id),
                                  ("step_name", SerVal.sstrRaw id)]
                                ++ (match restArgs with
                                  | [a1] => [("argument_1", a1)]
                                  | _ => [])
                              let crEnvelope := SerVal.sdict
                                [(omlMarker,
                                    .sstrRaw "component_reference"),
                                  ("value", .sdict crv)]
                              (match processSteps reserved rest
                                  (odinsert accC id f) (saddE accE id) with
                                | .error e => .error e
                                | .ok (pvs, accC1, accE1) =>
                                    .ok (crEnvelope :: pvs, accC1, accE1))
                          | _ => .error
                              (.unsupported "non-string step identifier")
                      | _ => .error Err.badSubComponent

/-- Classification of one serialized parameter value inside
`_extract_information_from_model`: named-sub-component list, direct
component, or plain value (`None` when empty-and-sized, else its JSON
dump). -/
def classifyParam (k : String) (rval : SerVal) (reserved : List String)
    (accC : List (String × Flow)) (accE : List String) :
    Except Err (FVal × List (String × Flow) × List String) :=
  if isSeqOfSeqsSameType rval ∧ ¬ nestedSimpleTypes rval then
    match seqElems rval with
    | some (elems, _) => do
        let (pvs, accC1, accE1) ← processSteps reserved elems accC accE
        let j ← dumpsSer (.slist pvs)
        .ok (.fstrParsed j, accC1, accE1)
    | none => .error (.unsupported "unreachable")
  else
    match rval with
    | .sflow f => do
        let crEnvelope := SerVal.sdict
          [(omlMarker, .sstrRaw "component_reference"),
            ("value", .sdict [("key", .sstrRaw k), ("step_name", .snull)])]
        let j ← dumpsSer crEnvelope
        .ok (.fstrParsed j, odinsert accC k f, saddE accE k)
    | _ =>
        if serEmptySized rval then .ok (.fnone, accC, accE)
        else do
          let j ← dumpsSer rval
          .ok (.fstrParsed j, accC, accE)

mutual

/-- Executable size of a flow (the derived `sizeOf` of the nested
inductive is not executable). -/
def flowSizeN : Flow → Nat
  | .mk _ _ _ _ _ _ _ _ _ _ comps _ _ _ => 1 + flowForestSizeN comps
termination_by f => sizeOf f
decreasing_by
  simp
  omega

def flowForestSizeN : List (String × Flow) → Nat
  | [] => 0
  | (_, c) :: rest => 1 + flowSizeN c + flowForestSizeN rest
termination_by l => sizeOf l
decreasing_by
  all_goals simp
  all_goals omega

end

/-- Total size of a stack of flows (termination measure of the duplicate
walk). -/
def flowsSize : List Flow → Nat
  | [] => 0
  | f :: rest => flowSizeN f + flowsSize rest

theorem flowsSize_append (l1 l2 : List Flow) :
    flowsSize (l1 ++ l2) = flowsSize l1 + flowsSize l2 := by
  induction l1 with
  | nil => simp [flowsSize]
  | cons f rest ih => simp [flowsSize, ih]; omega

theorem flowsSize_reverse (l : List Flow) :
    flowsSize l.reverse = flowsSize l := by
  induction l with
  | nil => rfl
  | cons f rest ih =>
      rw [List.reverse_cons, flowsSize_append, ih]
      simp [flowsSize]
      omega

theorem flowsSize_map_snd_le (l : List (String × Flow)) :
    flowsSize (l.map Prod.snd) ≤ flowForestSizeN l := by
  induction l with
  | nil => simp [flowsSize, flowForestSizeN]
  | cons p rest ih =>
      cases p with
      | mk a c =>
          rw [List.map_cons]
          show flowSizeN c + flowsSize (rest.map Prod.snd) ≤ _
          rw [flowForestSizeN]
          omega

/-- `_check_multiple_occurence_of_component_in_flow`: depth-first walk over
the sub-component forest, raising on the second occurrence of a flow name.
The stack is held top-first here (the source pushes with `extend` and pops
from the end); only the set of visited names is observable. -/
def checkDupStack : List Flow → List String → Except Err Unit
  | [], _ => .ok ()
  | f :: rest, known =>
      if f.name ∈ known then .error (.duplicateComponent f.name)
      else checkDupStack ((f.components.map Prod.snd).reverse ++ rest)
        (f.name :: known)
termination_by stack _ => flowsSize stack
decreasing_by
  rw [flowsSize_append, flowsSize_reverse]
  have h1 := flowsSize_map_snd_le f.components
  have h2 : flowSizeN f = 1 + flowForestSizeN f.components := by
    cases f with
    | mk n cp fid up ver ud ev de la dp comps params meta tags =>
        rw [flowSizeN]
        rfl
  simp [flowsSize]
  omega

/-- The `[1:]` slice used to cut the leading comma off the joined
sub-component names. -/
def strTail (s : String) : String := ⟨s.data.drop 1⟩

/-- The bracketed sub-component list of a flow name: one `,key=name` or
`,name` fragment per component, explicit identifiers prefixed. -/
def buildSubNames (expl : List String) (subs : List (String × Flow)) :
    String :=
  subs.foldl (fun acc p =>
    if p.1 ∈ expl then acc ++ "," ++ p.1 ++ "=" ++ p.2.name
    else acc ++ "," ++ p.2.name) ""

/-- Flow-name construction of `_serialize_model`. -/
def buildFlowName (classPath : String) (expl : List String)
    (subs : List (String × Flow)) : String :=
  let subNames := buildSubNames expl subs
  if subNames.length = 0 then classPath
  else classPath ++ "(" ++ strTail subNames ++ ")"

def firstDotSegment (s : String) : String :=
  match splitSep ".".data s.data with
  | [] => ""
  | x :: _ => ⟨x⟩

def splitCommas (s : String) : List String :=
  (splitSep ",".data s.data).map (fun l => ⟨l⟩)

/-- Insert into a sorted duplicate-free list (Python `sorted(set(...))`). -/
def sortedInsertUnique (x : String) : List String → List String
  | [] => [x]
  | y :: rest =>
      if x = y then y :: rest
      else if x ≤ y then x :: y :: rest
      else y :: sortedInsertUnique x rest

def sortedDedup (xs : List String) : List String :=
  xs.foldr sortedInsertUnique []

def joinCommas : List String → String
  | [] => ""
  | [x] => x
  | x :: rest => x ++ "," ++ joinCommas rest

/-- `_get_external_version_string`: the sorted, comma-joined set of
`package==version` fingerprints of the model's package, this library, and
every sub-component.  `env` maps a package name to the version string its
installed module reports. -/
def getExternalVersionString (env : String → String) (classPath : String)
    (subs : List (String × Flow)) : String :=
  let pkg := firstDotSegment classPath
  let externalVersion := pkg ++ "==" ++ env pkg
  let openmlVersion := "openml==" ++ env "openml"
  joinCommas (sortedDedup ([externalVersion, openmlVersion]
    ++ subs.flatMap (fun p => splitCommas p.2.externalVersion)))

mutual

/-- `SklearnExtension._serialize_sklearn`: the forward walker. -/
def serializeSklearn (env : String → String) (o : MVal) :
    Except Err SerVal :=
  match o with
  | .mmodel m => do
      let f ← serializeModel env m
      .ok (.sflow f)
  | .mlist xs => do
      let ys ← serializeList env xs
      .ok (.slist ys)
  | .mtuple xs => do
      let ys ← serializeList env xs
      .ok (.stuple ys)
  | .mnone => .ok .snull
  | .mbool b => .ok (.sbool b)
  | .mint n => .ok (.sint n)
  | .mstrRaw s => .ok (.sstrRaw s)
  | .mstrParsed j => .ok (.sstrParsed j)
  | .mdict es => do
      let fs ← serializeDict env (sortByKey es)
      .ok (.sdict fs)
  | .mtype t => .ok (serializeType t)
  | .mrv dist a b args kwds => serializeRvFrozen dist a b args kwds
  | .mfunc p => .ok (serializeFunction p)
  | .mcv name params => serializeCrossValidator name params
termination_by (sizeOf o, 1)
decreasing_by
  all_goals
    refine Prod.Lex.left _ _ ?_
    try rw [sizeOf_sortByKey]
    simp
    try omega

def serializeList (env : String → String) (xs : List MVal) :
    Except Err (List SerVal) :=
  match xs with
  | [] => .ok []
  | x :: rest => do
      let y ← serializeSklearn env x
      let ys ← serializeList env rest
      .ok (y :: ys)
termination_by (sizeOf xs, 1)
decreasing_by
  all_goals exact Prod.Lex.left _ _ (by simp; try omega)

def serializeDict (env : String → String) (es : List (String × MVal)) :
    Except Err (List (String × SerVal)) :=
  match es with
  | [] => .ok []
  | (k, v) :: rest => do
      let y ← serializeSklearn env v
      let ys ← serializeDict env rest
      .ok ((k, y) :: ys)
termination_by (sizeOf es, 1)
decreasing_by
  all_goals exact Prod.Lex.left _ _ (by simp; try omega)

/-- The parameter loop of `_extract_information_from_model`, iterating the
sorted parameter items and threading the four accumulators (parameters,
meta info, sub-components, explicit identifiers). -/
def extractGo (env : String → String) (reserved : List String)
    (items : List (String × MVal)) (accP : List (PName × FVal))
    (accM : List (PName × MetaInfo)) (accC : List (String × Flow))
    (accE : List String) :
    Except Err (List (PName × FVal) × List (PName × MetaInfo)
      × List (String × Flow) × List String) :=
  match items with
  | [] => .ok (accP, accM, accC, accE)
  | (k, v) :: rest => do
      let rval ← serializeSklearn env v
      let (fv, accC1, accE1) ← classifyParam k rval reserved accC accE
      extractGo env reserved rest (accP ++ [(.strN k, fv)])
        (accM ++ [(.strN k, ⟨.fnone, .fnone⟩)]) accC1 accE1
termination_by (sizeOf items, 1)
decreasing_by
  all_goals exact Prod.Lex.left _ _ (by simp; try omega)

/-- `SklearnExtension._extract_information_from_model`. -/
def extractInformation (env : String → String) (m : Model) :
    Except Err (List (PName × FVal) × List (PName × MetaInfo)
      × List (String × Flow) × List String) :=
  extractGo env (m.params.map Prod.fst) (sortByKey m.params) [] [] [] []
termination_by (sizeOf m, 0)
decreasing_by
  exact Prod.Lex.left _ _ (by
    rw [sizeOf_sortByKey]
    cases m with
    | mk c p =>
        simp [Model.params]
        try omega)

/-- `SklearnExtension._serialize_model`: extract parameters and
components, reject duplicate component names in the nested tree, build the
flow name, external version and dependency strings, and construct the
flow. -/
def serializeModel (env : String → String) (m : Model) : Except Err Flow :=
  match extractInformation env m with
  | .error e => .error e
  | .ok (params, meta, subs, expl) => do
      checkDupStack ((subs.map Prod.snd).reverse) []
      let className := m.classPath
      let name := buildFlowName className expl subs
      let externalVersion := getExternalVersionString env className subs
      let sklearnVer := "sklearn==" ++ env "sklearn"
      let deps := sklearnVer ++ "\nnumpy>=1.6.1\nscipy>=0.9"
      flowInit name "Automatically created scikit-learn flow." subs params
        meta externalVersion
        ["openml-python", "sklearn", "scikit-learn", "python",
          "sklearn_" ++ env "sklearn"]
        (some "English") (some deps) (some className)
termination_by (sizeOf m, 1)
decreasing_by
  all_goals
    first
      | exact Prod.Lex.right _ (by omega)
      | (refine Prod.Lex.left _ _ ?_
         try rw [sizeOf_sortByKey]
         first
           | (simp
              try omega)
           | (cases m with
              | mk c p =>
                  simp [Model.params]
                  try omega))

end

theorem flowSizeN_eq (f : Flow) :
    flowSizeN f = 1 + flowForestSizeN f.components := by
  cases f with
  | mk n cp fid up ver ud ev de la dp comps params meta tags =>
      rw [flowSizeN]
      rfl

theorem flowForestSizeN_child_lt {c : Flow} {k : String}
    {comps : List (String × Flow)} (h : (k, c) ∈ comps) :
    flowSizeN c < 1 + flowForestSizeN comps := by
  induction comps with
  | nil => cases h
  | cons p rest ih =>
      cases p with
      | mk a x =>
          rw [flowForestSizeN]
          rcases List.mem_cons.mp h with h1 | h1
          · cases h1
            omega
          · have := ih h1
            omega

mutual

/-- All flow names in the tree rooted at a flow, root first. -/
def flowTreeNames (f : Flow) : List String :=
  f.name :: forestNames (f.components.map Prod.snd)
termination_by (flowSizeN f, 0)
decreasing_by
  exact Prod.Lex.left _ _ (by
    have h1 := flowsSize_map_snd_le f.components
    have h2 := flowSizeN_eq f
    omega)

/-- All flow names in a forest of flows, tree by tree. -/
def forestNames : List Flow → List String
  | [] => []
  | f :: rest => flowTreeNames f ++ forestNames rest
termination_by fs => (flowsSize fs, 1)
decreasing_by
  · have h : flowSizeN f ≤ flowsSize (f :: rest) := by
      show flowSizeN f ≤ flowSizeN f + flowsSize rest
      omega
    rcases Nat.lt_or_eq_of_le h with h1 | h1
    · exact Prod.Lex.left _ _ h1
    · rw [h1]
      exact Prod.Lex.right _ (by omega)
  · refine Prod.Lex.left _ _ ?_
    have h2 := flowSizeN_eq f
    show flowsSize rest < flowSizeN f + flowsSize rest
    omega

end

theorem forestNames_append (l1 l2 : List Flow) :
    forestNames (l1 ++ l2) = forestNames l1 ++ forestNames l2 := by
  induction l1 with
  | nil => simp [forestNames]
  | cons f rest ih =>
      show forestNames (f :: (rest ++ l2)) = _
      rw [forestNames, forestNames, ih]
      simp

theorem mem_forestNames {n : String} (l : List Flow) :
    n ∈ forestNames l ↔ ∃ f ∈ l, n ∈ flowTreeNames f := by
  induction l with
  | nil => simp [forestNames]
  | cons f rest ih =>
      rw [forestNames]
      simp [ih]

theorem forestNames_reverse_perm (l : List Flow) :
    (forestNames l.reverse).Perm (forestNames l) := by
  induction l with
  | nil => exact List.Perm.refl _
  | cons f rest ih =>
      rw [List.reverse_cons, forestNames_append]
      have h1 : (forestNames rest.reverse ++ forestNames [f]).Perm
          (forestNames [f] ++ forestNames rest) :=
        (ih.append_right _).trans List.perm_append_comm
      have h2 : forestNames [f] ++ forestNames rest =
          forestNames (f :: rest) := by
        simp [forestNames]
      rw [h2] at h1
      exact h1

theorem flowsSize_step_lt (f : Flow) (rest : List Flow) :
    flowsSize ((f.components.map Prod.snd).reverse ++ rest) <
      flowsSize (f :: rest) := by
  rw [flowsSize_append, flowsSize_reverse]
  have h1 := flowsSize_map_snd_le f.components
  have h2 := flowSizeN_eq f
  show _ < flowSizeN f + flowsSize rest
  omega

theorem checkDupStack_ok_iff_aux (N : Nat) :
    ∀ (stack : List Flow) (known : List String), flowsSize stack ≤ N →
      (checkDupStack stack known = .ok () ↔
        ((forestNames stack).Nodup ∧
          ∀ n ∈ forestNames stack, n ∉ known)) := by
  induction N with
  | zero =>
      intro stack known hle
      cases stack with
      | nil => simp [checkDupStack, forestNames]
      | cons f rest =>
          exfalso
          have h2 := flowSizeN_eq f
          have : flowsSize (f :: rest) =
              flowSizeN f + flowsSize rest := rfl
          omega
  | succ N ih =>
      intro stack known hle
      cases stack with
      | nil => simp [checkDupStack, forestNames]
      | cons f rest =>
          have hmemroot : f.name ∈ forestNames (f :: rest) := by
            rw [forestNames, flowTreeNames]
            simp
          by_cases hk : f.name ∈ known
          · rw [checkDupStack]
            simp [hk]
            intro _
            exact ⟨f.name, hmemroot, hk⟩
          · rw [checkDupStack]
            simp [hk]
            have hsz : flowsSize ((f.components.map Prod.snd).reverse
                ++ rest) ≤ N := by
              have := flowsSize_step_lt f rest
              omega
            rw [ih _ (f.name :: known) hsz]
            have hperm : (forestNames ((f.components.map Prod.snd).reverse
                ++ rest)).Perm
                (forestNames (f.components.map Prod.snd) ++
                  forestNames rest) := by
              rw [forestNames_append]
              exact (forestNames_reverse_perm _).append_right _
            have hshape : forestNames (f :: rest) =
                f.name :: (forestNames (f.components.map Prod.snd) ++
                  forestNames rest) := by
              rw [forestNames, flowTreeNames]
              simp
            rw [hperm.nodup_iff, hshape]
            constructor
            · rintro ⟨hnd, hall⟩
              have hall2 : ∀ n ∈ forestNames (f.components.map Prod.snd) ++
                  forestNames rest, n ∉ f.name :: known := by
                intro n hn
                exact hall n (hperm.mem_iff.mpr hn)
              refine ⟨?_, ?_⟩
              · rw [List.nodup_cons]
                refine ⟨?_, hnd⟩
                intro hmem
                exact (hall2 f.name hmem) (List.mem_cons_self _ _)
              · intro n hn
                rcases List.mem_cons.mp hn with h1 | h1
                · rw [h1]; exact hk
                · intro hbad
                  exact (hall2 n h1) (List.mem_cons_of_mem _ hbad)
            · rintro ⟨hnd, hall⟩
              rw [List.nodup_cons] at hnd
              refine ⟨hnd.2, ?_⟩
              intro n hn
              have hn2 := hperm.mem_iff.mp hn
              rw [List.mem_cons]
              push_neg
              refine ⟨?_, ?_⟩
              · intro heq
                rw [heq] at hn2
                exact hnd.1 hn2
              · exact hall n (List.mem_cons_of_mem _ hn2)

theorem checkDupStack_ok_iff (stack : List Flow) (known : List String) :
    checkDupStack stack known = .ok () ↔
      ((forestNames stack).Nodup ∧
        ∀ n ∈ forestNames stack, n ∉ known) :=
  checkDupStack_ok_iff_aux (flowsSize stack) stack known (Nat.le_refl _)

theorem checkDupStack_cases (stack : List Flow) (known : List String) :
    checkDupStack stack known = .ok () ∨
      ∃ n, checkDupStack stack known = .error (.duplicateComponent n) := by
  generalize hN : flowsSize stack = N
  have hle : flowsSize stack ≤ N := Nat.le_of_eq hN
  clear hN
  induction N generalizing stack known with
  | zero =>
      cases stack with
      | nil => left; simp [checkDupStack]
      | cons f rest =>
          exfalso
          have h2 := flowSizeN_eq f
          have : flowsSize (f :: rest) =
              flowSizeN f + flowsSize rest := rfl
          omega
  | succ N ih =>
      cases stack with
      | nil => left; simp [checkDupStack]
      | cons f rest =>
          rw [checkDupStack]
          by_cases hk : f.name ∈ known
          · right
            exact ⟨f.name, by simp [hk]⟩
          · simp [hk]
            have hsz : flowsSize ((f.components.map Prod.snd).reverse
                ++ rest) ≤ N := by
              have := flowsSize_step_lt f rest
              omega
            exact ih _ _ hsz

/-- The naming invariant the serializer maintains: every direct component
of a flow is itself well named and has a strictly shorter name than its
parent (the parent name encloses the component names in parentheses). -/
inductive WellNamed : Flow → Prop where
  | intro (f : Flow)
      (hsub : ∀ p ∈ f.components, WellNamed p.2)
      (hlt : ∀ p ∈ f.components, (p.2.name).length < f.name.length) :
      WellNamed f

theorem WellNamed.sub {f : Flow} (h : WellNamed f) :
    ∀ p ∈ f.components, WellNamed p.2 := by
  cases h with
  | intro f hsub hlt => exact hsub

theorem WellNamed.lt {f : Flow} (h : WellNamed f) :
    ∀ p ∈ f.components, (p.2.name).length < f.name.length := by
  cases h with
  | intro f hsub hlt => exact hlt

theorem wellNamed_tree_le_aux (N : Nat) :
    ∀ (f : Flow), flowSizeN f ≤ N → WellNamed f →
      ∀ n ∈ flowTreeNames f, n.length ≤ f.name.length := by
  induction N with
  | zero =>
      intro f hle
      exfalso
      have := flowSizeN_eq f
      omega
  | succ N ih =>
      intro f hle hw n hn
      rw [flowTreeNames] at hn
      rcases List.mem_cons.mp hn with h1 | h1
      · rw [h1]
      · rcases (mem_forestNames _).mp h1 with ⟨c, hc, hnc⟩
        rcases List.mem_map.mp hc with ⟨⟨k, c'⟩, hkc, hcc⟩
        cases hcc
        have hsz : flowSizeN c' ≤ N := by
          have h2 := flowSizeN_eq f
          have h3 := flowForestSizeN_child_lt hkc
          omega
        have hlt := hw.lt _ hkc
        simp only at hlt
        have := ih c' hsz (hw.sub _ hkc) n hnc
        omega

theorem wellNamed_tree_le {f : Flow} (h : WellNamed f) :
    ∀ n ∈ flowTreeNames f, n.length ≤ f.name.length :=
  wellNamed_tree_le_aux (flowSizeN f) f (Nat.le_refl _) h

mutual

/-- The flows occurring (as `sflow` leaves) inside a serialized value. -/
def serValFlows : SerVal → List Flow
  | .sflow f => [f]
  | .slist xs => serValFlowsList xs
  | .stuple xs => serValFlowsList xs
  | .sdict es => serValFlowsDict es
  | .snull => []
  | .sbool _ => []
  | .sint _ => []
  | .sstrRaw _ => []
  | .sstrParsed _ => []

def serValFlowsList : List SerVal → List Flow
  | [] => []
  | x :: rest => serValFlows x ++ serValFlowsList rest

def serValFlowsDict : List (String × SerVal) → List Flow
  | [] => []
  | (_, v) :: rest => serValFlows v ++ serValFlowsDict rest

end

theorem serValFlowsList_append (l1 l2 : List SerVal) :
    serValFlowsList (l1 ++ l2) =
      serValFlowsList l1 ++ serValFlowsList l2 := by
  induction l1 with
  | nil => simp [serValFlowsList]
  | cons x rest ih =>
      show serValFlowsList (x :: (rest ++ l2)) = _
      rw [serValFlowsList, serValFlowsList, ih]
      simp

theorem strTail_length (s : String) :
    (strTail s).length = s.length - 1 := by
  cases s with
  | mk data => simp [strTail, String.length]

theorem buildSubNames_foldl_le (expl : List String)
    (subs : List (String × Flow)) (acc : String) :
    acc.length ≤ (subs.foldl (fun acc p =>
      if p.1 ∈ expl then acc ++ "," ++ p.1 ++ "=" ++ p.2.name
      else acc ++ "," ++ p.2.name) acc).length := by
  induction subs generalizing acc with
  | nil => simp
  | cons p rest ih =>
      rw [List.foldl_cons]
      refine Nat.le_trans ?_ (ih _)
      by_cases hp : p.1 ∈ expl
      · simp [hp, String.length_append]
        omega
      · simp [hp, String.length_append]
        omega

theorem buildSubNames_ge {k : String} {g : Flow} (expl : List String)
    (subs : List (String × Flow)) (acc : String) (h : (k, g) ∈ subs) :
    1 + g.name.length ≤ (subs.foldl (fun acc p =>
      if p.1 ∈ expl then acc ++ "," ++ p.1 ++ "=" ++ p.2.name
      else acc ++ "," ++ p.2.name) acc).length := by
  induction subs generalizing acc with
  | nil => cases h
  | cons p rest ih =>
      rw [List.foldl_cons]
      rcases List.mem_cons.mp h with h1 | h1
      · subst h1
        refine Nat.le_trans ?_ (buildSubNames_foldl_le expl rest _)
        have hcomma : (String.length ",") = 1 := rfl
        by_cases hp : k ∈ expl
        · simp [hp, String.length_append]
          omega
        · simp [hp, String.length_append]
          omega
      · exact ih _ h1

theorem buildFlowName_lt {k : String} {g : Flow} (classPath : String)
    (expl : List String) (subs : List (String × Flow))
    (h : (k, g) ∈ subs) :
    1 + g.name.length ≤ (buildSubNames expl subs).length := by
  rw [buildSubNames]
  exact buildSubNames_ge expl subs "" h

theorem buildFlowName_lt2 {k : String} {g : Flow} (classPath : String)
    (expl : List String) (subs : List (String × Flow))
    (h : (k, g) ∈ subs) :
    g.name.length < (buildFlowName classPath expl subs).length := by
  have hge := buildFlowName_lt classPath expl subs h
  have h0 : ¬ (buildSubNames expl subs).length = 0 := by omega
  have hb : buildFlowName classPath expl subs =
      classPath ++ "(" ++ strTail (buildSubNames expl subs) ++ ")" := by
    rw [buildFlowName]
    simp [h0]
  rw [hb]
  have hpar : (String.length "(") = 1 := rfl
  simp [String.length_append, strTail_length]
  omega

theorem buildFlowName_not_mem_forest (classPath : String)
    (expl : List String) (subs : List (String × Flow))
    (hw : ∀ p ∈ subs, WellNamed p.2) :
    buildFlowName classPath expl subs ∉
      forestNames (subs.map Prod.snd) := by
  intro hmem
  rcases (mem_forestNames _).mp hmem with ⟨g, hg, hng⟩
  rcases List.mem_map.mp hg with ⟨⟨k, g'⟩, hkg, hgg⟩
  cases hgg
  have h1 := wellNamed_tree_le (hw _ hkg) _ hng
  have h2 := buildFlowName_lt2 classPath expl subs hkg
  simp only at h1 h2
  omega

theorem exbind_ok_iff {α β : Type} (x : Except Err α)
    (f : α → Except Err β) (b : β) :
    (x >>= f) = .ok b ↔ ∃ a, x = .ok a ∧ f a = .ok b := by
  cases x with
  | error e => simp [exbind_error]
  | ok a => simp [exbind_ok]

theorem throw_ne_ok {α : Type} (e : Err) (a : α) :
    (throw e : Except Err α) ≠ .ok a := by
  intro h
  cases h

theorem mem_serValFlowsList {g : Flow} {x : SerVal} {xs : List SerVal}
    (hx : x ∈ xs) (hg : g ∈ serValFlows x) : g ∈ serValFlowsList xs := by
  induction xs with
  | nil => cases hx
  | cons y rest ih =>
      rw [serValFlowsList]
      rcases List.mem_cons.mp hx with h1 | h1
      · subst h1
        exact List.mem_append_left _ hg
      · exact List.mem_append_right _ (ih h1)

theorem seqElems_flows {el : SerVal} {elems : List SerVal} {b : Bool}
    (h : seqElems el = some (elems, b)) :
    serValFlowsList elems = serValFlows el := by
  cases el with
  | slist xs =>
      simp [seqElems] at h
      rw [serValFlows, h.1]
  | stuple xs =>
      simp [seqElems] at h
      rw [serValFlows, h.1]
  | snull => simp [seqElems] at h
  | sbool v => simp [seqElems] at h
  | sint v => simp [seqElems] at h
  | sstrRaw v => simp [seqElems] at h
  | sstrParsed v => simp [seqElems] at h
  | sdict v => simp [seqElems] at h
  | sflow v => simp [seqElems] at h

theorem odinsert_mem_snd {g : Flow} {l : List (String × Flow)}
    {k : String} {v : Flow} (h : g ∈ (odinsert l k v).map Prod.snd) :
    g ∈ l.map Prod.snd ∨ g = v := by
  rw [odinsert] at h
  by_cases hk : k ∈ akeys l
  · rw [if_pos hk] at h
    rcases List.mem_map.mp h with ⟨p, hp, hpg⟩
    rcases List.mem_map.mp hp with ⟨q, hq, hqp⟩
    by_cases hq1 : q.1 = k
    · rw [if_pos hq1] at hqp
      right
      rw [← hpg, ← hqp]
    · rw [if_neg hq1] at hqp
      left
      rw [← hpg, ← hqp]
      exact List.mem_map_of_mem _ hq
  · rw [if_neg hk] at h
    rw [List.map_append] at h
    rcases List.mem_append.mp h with h1 | h1
    · exact Or.inl h1
    · right
      simp at h1
      exact h1

theorem processSteps_flows (reserved : List String) (els : List SerVal) :
    ∀ (accC : List (String × Flow)) (accE : List String)
      (pvs : List SerVal) (accC1 : List (String × Flow))
      (accE1 : List String),
      processSteps reserved els accC accE = .ok (pvs, accC1, accE1) →
      ∀ g ∈ accC1.map Prod.snd,
        g ∈ accC.map Prod.snd ∨ g ∈ serValFlowsList els := by
  induction els with
  | nil =>
      intro accC accE pvs accC1 accE1 h g hg
      rw [processSteps] at h
      cases h
      exact Or.inl hg
  | cons el rest ih =>
      intro accC accE pvs accC1 accE1 h g hg
      rw [processSteps] at h
      split at h
      · cases h
      · rename_i elems isTup hse
        split at h
        · cases h
        · cases h
        · rename_i el0 el1 restArgs
          split at h
          · cases h
          · split at h
            · cases h
            · split at h
              · cases h
              · split at h
                · split at h
                  · split at h
                    · cases h
                    · rename_i hrec
                      cases h
                      rcases ih _ _ _ _ _ hrec g hg with h1 | h1
                      · exact Or.inl h1
                      · right
                        rw [serValFlowsList]
                        exact List.mem_append_right _ h1
                  · split at h
                    · cases h
                    · rename_i hrec
                      cases h
                      rcases ih _ _ _ _ _ hrec g hg with h1 | h1
                      · exact Or.inl h1
                      · right
                        rw [serValFlowsList]
                        exact List.mem_append_right _ h1
                · split at h
                  · split at h
                    · split at h
                      · cases h
                      · rename_i hrec
                        cases h
                        rcases ih _ _ _ _ _ hrec g hg with h1 | h1
                        · rcases odinsert_mem_snd h1 with h2 | h2
                          · exact Or.inl h2
                          · right
                            rw [serValFlowsList]
                            refine List.mem_append_left _ ?_
                            rw [← seqElems_flows hse, h2]
                            exact mem_serValFlowsList
                              (List.mem_cons_of_mem _
                                (List.mem_cons_self _ _))
                              (by simp [serValFlows])
                        · right
                          rw [serValFlowsList]
                          exact List.mem_append_right _ h1
                    · split at h
                      · cases h
                      · rename_i hrec
                        cases h
                        rcases ih _ _ _ _ _ hrec g hg with h1 | h1
                        · rcases odinsert_mem_snd h1 with h2 | h2
                          · exact Or.inl h2
                          · right
                            rw [serValFlowsList]
                            refine List.mem_append_left _ ?_
                            rw [← seqElems_flows hse, h2]
                            exact mem_serValFlowsList
                              (List.mem_cons_of_mem _
                                (List.mem_cons_self _ _))
                              (by simp [serValFlows])
                        · right
                          rw [serValFlowsList]
                          exact List.mem_append_right _ h1
                  · cases h
                · cases h

theorem classifyPlain_acc {rval : SerVal} {accC accC1 : List (String × Flow)}
    {accE accE1 : List String} {fv : FVal}
    (h : (if serEmptySized rval then
        Except.ok (FVal.fnone, accC, accE)
      else dumpsSer rval >>= fun j =>
        Except.ok (FVal.fstrParsed j, accC, accE)) =
      Except.ok (fv, accC1, accE1)) : accC1 = accC := by
  by_cases hc : serEmptySized rval
  · rw [if_pos hc] at h
    cases h
    rfl
  · rw [if_neg hc] at h
    obtain ⟨j, hj, hok⟩ := (exbind_ok_iff _ _ _).mp h
    cases hok
    rfl

theorem classifyParam_flows {k : String} {rval : SerVal}
    {reserved : List String} {accC accC1 : List (String × Flow)}
    {accE accE1 : List String} {fv : FVal}
    (h : classifyParam k rval reserved accC accE =
      .ok (fv, accC1, accE1)) :
    ∀ g ∈ accC1.map Prod.snd,
      g ∈ accC.map Prod.snd ∨ g ∈ serValFlows rval := by
  intro g hg
  rw [classifyParam.eq_def] at h
  split at h
  · split at h
    · rename_i elems b hse
      obtain ⟨a, hps, h⟩ := (exbind_ok_iff _ _ _).mp h
      obtain ⟨pvs, accC2, accE2⟩ := a
      obtain ⟨j, hj, hok⟩ := (exbind_ok_iff _ _ _).mp h
      cases hok
      rcases processSteps_flows reserved elems _ _ _ _ _ hps g hg
          with h1 | h1
      · exact Or.inl h1
      · right
        rw [← seqElems_flows hse]
        exact h1
    · cases h
  · cases rval with
    | sflow f =>
        obtain ⟨j, hj, hok⟩ := (exbind_ok_iff _ _ _).mp h
        cases hok
        rcases odinsert_mem_snd hg with h1 | h1
        · exact Or.inl h1
        · right
          simp [serValFlows, h1]
    | snull => exact Or.inl (classifyPlain_acc h ▸ hg)
    | sbool v => exact Or.inl (classifyPlain_acc h ▸ hg)
    | sint v => exact Or.inl (classifyPlain_acc h ▸ hg)
    | sstrRaw v => exact Or.inl (classifyPlain_acc h ▸ hg)
    | sstrParsed v => exact Or.inl (classifyPlain_acc h ▸ hg)
    | slist v => exact Or.inl (classifyPlain_acc h ▸ hg)
    | stuple v => exact Or.inl (classifyPlain_acc h ▸ hg)
    | sdict v => exact Or.inl (classifyPlain_acc h ▸ hg)

theorem flowInit_ok_elim2 {nm de : String} {comps : List (String × Flow)}
    {params : List (PName × FVal)} {meta : List (PName × MetaInfo)}
    {ev : String} {tags : List String} {lang deps cp up ud : Option String}
    {fid : Option Int} {ver : Option String} {f : Flow}
    (h : flowInit nm de comps params meta ev tags lang deps cp up ud fid
      ver = .ok f) :
    f = .mk nm cp fid up ver ud ev de lang deps comps params meta tags := by
  unfold flowInit at h
  split at h
  · cases h
  · split at h
    · cases h
    · cases h
      rfl

theorem serializeRvFrozen_flows {dist : String} {a b : MVal}
    {args : List MVal} {kwds : List (String × MVal)} {r : SerVal}
    (h : serializeRvFrozen dist a b args kwds = .ok r) :
    serValFlows r = [] := by
  obtain ⟨ja, hja, h⟩ := (exbind_ok_iff _ _ _).mp h
  obtain ⟨jb, hjb, h⟩ := (exbind_ok_iff _ _ _).mp h
  obtain ⟨jargs, hjargs, h⟩ := (exbind_ok_iff _ _ _).mp h
  obtain ⟨jkwds, hjkwds, hok⟩ := (exbind_ok_iff _ _ _).mp h
  cases hok
  simp [serValFlows, serValFlowsDict]

theorem cvParams_flows (l : List (String × MVal))
    (ps : List (String × SerVal))
    (h : serializeCrossValidator.cvParams l = .ok ps) :
    serValFlowsDict ps = [] := by
  induction l generalizing ps with
  | nil =>
      rw [serializeCrossValidator.cvParams.eq_def] at h
      cases h
      rfl
  | cons p rest ih =>
      obtain ⟨k, v⟩ := p
      rw [serializeCrossValidator.cvParams.eq_def] at h
      obtain ⟨entry, hent, h⟩ := (exbind_ok_iff _ _ _).mp h
      obtain ⟨more, hmore, hok⟩ := (exbind_ok_iff _ _ _).mp h
      cases hok
      have hrest := ih _ hmore
      have hhead : serValFlows entry = [] := by
        split at hent
        · cases hent
          rfl
        · cases hent
          rfl
        · cases hent
          rfl
        · cases hent
          rfl
        · obtain ⟨j, hj, hok2⟩ := (exbind_ok_iff _ _ _).mp hent
          cases hok2
          rfl
      rw [serValFlowsDict, hhead, hrest]
      rfl

theorem serializeCrossValidator_flows {name : String}
    {params : List (String × MVal)} {r : SerVal}
    (h : serializeCrossValidator name params = .ok r) :
    serValFlows r = [] := by
  rw [serializeCrossValidator] at h
  obtain ⟨ps, hps, hok⟩ := (exbind_ok_iff _ _ _).mp h
  cases hok
  have := cvParams_flows _ _ hps
  simp [serValFlows, serValFlowsDict, this]

mutual

theorem serializeSklearn_wellNamed (env : String → String) (o : MVal)
    (r : SerVal) (h : serializeSklearn env o = .ok r) :
    ∀ g ∈ serValFlows r, WellNamed g := by
  match o with
  | .mmodel m =>
      rw [serializeSklearn.eq_def] at h
      obtain ⟨f, hm, hok⟩ := (exbind_ok_iff _ _ _).mp h
      cases hok
      intro g hgm
      simp only [serValFlows] at hgm
      rcases List.mem_singleton.mp hgm with h1
      rw [h1]
      exact serializeModel_wellNamed env m f hm
  | .mlist xs =>
      rw [serializeSklearn.eq_def] at h
      obtain ⟨ys, hl, hok⟩ := (exbind_ok_iff _ _ _).mp h
      cases hok
      intro g hgm
      simp only [serValFlows] at hgm
      exact serializeList_wellNamed env xs ys hl g hgm
  | .mtuple xs =>
      rw [serializeSklearn.eq_def] at h
      obtain ⟨ys, hl, hok⟩ := (exbind_ok_iff _ _ _).mp h
      cases hok
      intro g hgm
      simp only [serValFlows] at hgm
      exact serializeList_wellNamed env xs ys hl g hgm
  | .mdict es =>
      rw [serializeSklearn.eq_def] at h
      obtain ⟨fs, hd, hok⟩ := (exbind_ok_iff _ _ _).mp h
      cases hok
      intro g hgm
      simp only [serValFlows] at hgm
      exact serializeDict_wellNamed env (sortByKey es) fs hd g hgm
  | .mnone =>
      rw [serializeSklearn.eq_def] at h
      cases h
      intro g hgm
      simp [serValFlows] at hgm
  | .mbool v =>
      rw [serializeSklearn.eq_def] at h
      cases h
      intro g hgm
      simp [serValFlows] at hgm
  | .mint v =>
      rw [serializeSklearn.eq_def] at h
      cases h
      intro g hgm
      simp [serValFlows] at hgm
  | .mstrRaw v =>
      rw [serializeSklearn.eq_def] at h
      cases h
      intro g hgm
      simp [serValFlows] at hgm
  | .mstrParsed v =>
      rw [serializeSklearn.eq_def] at h
      cases h
      intro g hgm
      simp [serValFlows] at hgm
  | .mtype t =>
      rw [serializeSklearn.eq_def] at h
      cases h
      intro g hgm
      simp [serializeType, serValFlows, serValFlowsDict] at hgm
  | .mrv dist a b args kwds =>
      rw [serializeSklearn.eq_def] at h
      intro g hgm
      rw [serializeRvFrozen_flows h] at hgm
      cases hgm
  | .mfunc p =>
      rw [serializeSklearn.eq_def] at h
      cases h
      intro g hgm
      simp [serializeFunction, serValFlows, serValFlowsDict] at hgm
  | .mcv name params =>
      rw [serializeSklearn.eq_def] at h
      intro g hgm
      rw [serializeCrossValidator_flows h] at hgm
      cases hgm
termination_by (sizeOf o, 1)
decreasing_by
  all_goals
    first
      | exact Prod.Lex.right _ (by omega)
      | (refine Prod.Lex.left _ _ ?_
         try rw [sizeOf_sortByKey]
         first
           | (simp
              try omega)
           | (cases m with
              | mk c p =>
                  simp [Model.params]
                  try omega))

theorem serializeList_wellNamed (env : String → String) (xs : List MVal)
    (rs : List SerVal) (h : serializeList env xs = .ok rs) :
    ∀ g ∈ serValFlowsList rs, WellNamed g := by
  match xs with
  | [] =>
      rw [serializeList.eq_def] at h
      cases h
      intro g hgm
      simp [serValFlowsList] at hgm
  | x :: rest =>
      rw [serializeList.eq_def] at h
      obtain ⟨y, hy, h⟩ := (exbind_ok_iff _ _ _).mp h
      obtain ⟨ys, hys, hok⟩ := (exbind_ok_iff _ _ _).mp h
      cases hok
      intro g hgm
      simp only [serValFlowsList] at hgm
      rcases List.mem_append.mp hgm with h1 | h1
      · exact serializeSklearn_wellNamed env x y hy g h1
      · exact serializeList_wellNamed env rest ys hys g h1
termination_by (sizeOf xs, 1)
decreasing_by
  all_goals
    first
      | exact Prod.Lex.right _ (by omega)
      | (refine Prod.Lex.left _ _ ?_
         try rw [sizeOf_sortByKey]
         first
           | (simp
              try omega)
           | (cases m with
              | mk c p =>
                  simp [Model.params]
                  try omega))

theorem serializeDict_wellNamed (env : String → String)
    (es : List (String × MVal)) (rs : List (String × SerVal))
    (h : serializeDict env es = .ok rs) :
    ∀ g ∈ serValFlowsDict rs, WellNamed g := by
  match es with
  | [] =>
      rw [serializeDict.eq_def] at h
      cases h
      intro g hgm
      simp [serValFlowsDict] at hgm
  | (k, v) :: rest =>
      rw [serializeDict.eq_def] at h
      obtain ⟨y, hy, h⟩ := (exbind_ok_iff _ _ _).mp h
      obtain ⟨ys, hys, hok⟩ := (exbind_ok_iff _ _ _).mp h
      cases hok
      intro g hgm
      simp only [serValFlowsDict] at hgm
      rcases List.mem_append.mp hgm with h1 | h1
      · exact serializeSklearn_wellNamed env v y hy g h1
      · exact serializeDict_wellNamed env rest ys hys g h1
termination_by (sizeOf es, 1)
decreasing_by
  all_goals
    first
      | exact Prod.Lex.right _ (by omega)
      | (refine Prod.Lex.left _ _ ?_
         try rw [sizeOf_sortByKey]
         first
           | (simp
              try omega)
           | (cases m with
              | mk c p =>
                  simp [Model.params]
                  try omega))

theorem extractGo_wellNamed (env : String → String)
    (reserved : List String) (items : List (String × MVal))
    (accP : List (PName × FVal)) (accM : List (PName × MetaInfo))
    (accC : List (String × Flow)) (accE : List String)
    (out : List (PName × FVal) × List (PName × MetaInfo)
      × List (String × Flow) × List String)
    (h : extractGo env reserved items accP accM accC accE = .ok out)
    (hacc : ∀ g ∈ accC.map Prod.snd, WellNamed g) :
    ∀ g ∈ out.2.2.1.map Prod.snd, WellNamed g := by
  match items with
  | [] =>
      rw [extractGo.eq_def] at h
      cases h
      exact hacc
  | (k, v) :: rest =>
      rw [extractGo.eq_def] at h
      obtain ⟨rval, hrv, h⟩ := (exbind_ok_iff _ _ _).mp h
      obtain ⟨a, hcl, h⟩ := (exbind_ok_iff _ _ _).mp h
      obtain ⟨fv, accC1, accE1⟩ := a
      refine extractGo_wellNamed env reserved rest _ _ accC1 accE1 out h ?_
      intro g hgm
      rcases classifyParam_flows hcl g hgm with h1 | h1
      · exact hacc g h1
      · exact serializeSklearn_wellNamed env v rval hrv g h1
termination_by (sizeOf items, 1)
decreasing_by
  all_goals
    first
      | exact Prod.Lex.right _ (by omega)
      | (refine Prod.Lex.left _ _ ?_
         try rw [sizeOf_sortByKey]
         first
           | (simp
              try omega)
           | (cases m with
              | mk c p =>
                  simp [Model.params]
                  try omega))

theorem extractInformation_wellNamed (env : String → String) (m : Model)
    (out : List (PName × FVal) × List (PName × MetaInfo)
      × List (String × Flow) × List String)
    (h : extractInformation env m = .ok out) :
    ∀ g ∈ out.2.2.1.map Prod.snd, WellNamed g := by
  rw [extractInformation.eq_def] at h
  exact extractGo_wellNamed env _ _ _ _ _ _ out h (by simp)
termination_by (sizeOf m, 0)
decreasing_by
  all_goals
    first
      | exact Prod.Lex.right _ (by omega)
      | (refine Prod.Lex.left _ _ ?_
         try rw [sizeOf_sortByKey]
         first
           | (simp
              try omega)
           | (cases m with
              | mk c p =>
                  simp [Model.params]
                  try omega))

theorem serializeModel_wellNamed (env : String → String) (m : Model)
    (fl : Flow) (h : serializeModel env m = .ok fl) : WellNamed fl := by
  rw [serializeModel.eq_def] at h
  cases hx : extractInformation env m with
  | error e =>
      rw [hx] at h
      cases h
  | ok out =>
      obtain ⟨params, meta, subs, expl⟩ := out
      rw [hx] at h
      obtain ⟨u, hchk, h⟩ := (exbind_ok_iff _ _ _).mp h
      have hfl := flowInit_ok_elim2 h
      have hsubs : ∀ g ∈ subs.map Prod.snd, WellNamed g :=
        extractInformation_wellNamed env m (params, meta, subs, expl) hx
      rw [hfl]
      refine WellNamed.intro _ ?_ ?_
      · intro p hp
        exact hsubs p.2 (List.mem_map_of_mem _ hp)
      · intro p hp
        show p.2.name.length <
          (buildFlowName m.classPath expl subs).length
        obtain ⟨pk, pg⟩ := p
        exact buildFlowName_lt2 m.classPath expl subs hp
termination_by (sizeOf m, 1)
decreasing_by
  all_goals
    first
      | exact Prod.Lex.right _ (by omega)
      | (refine Prod.Lex.left _ _ ?_
         try rw [sizeOf_sortByKey]
         first
           | (simp
              try omega)
           | (cases m with
              | mk c p =>
                  simp [Model.params]
                  try omega))

end

theorem flowInit_error_shape {nm de : String}
    {comps : List (String × Flow)} {params : List (PName × FVal)}
    {meta : List (PName × MetaInfo)} {ev : String} {tags : List String}
    {lang deps cp up ud : Option String} {fid : Option Int}
    {ver : Option String} {e : Err}
    (h : flowInit nm de comps params meta ev tags lang deps cp up ud fid
      ver = .error e) : e = .keySetMismatch := by
  unfold flowInit at h
  split at h
  · cases h
    rfl
  · split at h
    · cases h
      rfl
    · cases h

/-- C2.  For a model whose parameter extraction succeeds, `_serialize_model`
raises the duplicate-component error exactly when the full component tree of
the would-be flow — the flow itself plus every nested component at any depth
— carries two components with the same flow name.  The flow's own name never
collides with a nested name (it strictly extends each sub-component's name),
so the tree-wide condition coincides with the duplicate walk over the
sub-component forest performed by
`_check_multiple_occurence_of_component_in_flow`. -/
theorem model_to_flow_duplicate_component_check
    (env : String → String) (m : Model)
    (params : List (PName × FVal)) (meta : List (PName × MetaInfo))
    (subs : List (String × Flow)) (expl : List String)
    (hx : extractInformation env m = .ok (params, meta, subs, expl)) :
    ((∃ n, serializeModel env m = .error (.duplicateComponent n)) ↔
      ¬ (buildFlowName m.classPath expl subs ::
          forestNames (subs.map Prod.snd)).Nodup) := by
  have hsubs : ∀ g ∈ subs.map Prod.snd, WellNamed g :=
    extractInformation_wellNamed env m (params, meta, subs, expl) hx
  have hw : ∀ p ∈ subs, WellNamed p.2 :=
    fun p hp => hsubs p.2 (List.mem_map_of_mem _ hp)
  have hroot := buildFlowName_not_mem_forest m.classPath expl subs hw
  have hser : serializeModel env m =
      (checkDupStack ((subs.map Prod.snd).reverse) [] >>= fun _ =>
        flowInit (buildFlowName m.classPath expl subs)
          "Automatically created scikit-learn flow." subs params meta
          (getExternalVersionString env m.classPath subs)
          ["openml-python", "sklearn", "scikit-learn", "python",
            "sklearn_" ++ env "sklearn"]
          (some "English")
          (some (("sklearn==" ++ env "sklearn") ++
            "\nnumpy>=1.6.1\nscipy>=0.9"))
          (some m.classPath)) := by
    rw [serializeModel.eq_def, hx]
  rcases checkDupStack_cases ((subs.map Prod.snd).reverse) []
      with hchk | ⟨n0, hchk⟩
  · rw [hchk, exbind_ok] at hser
    constructor
    · rintro ⟨n, hn⟩
      rw [hser] at hn
      cases flowInit_error_shape hn
    · intro hnd
      exfalso
      apply hnd
      have h1 := (checkDupStack_ok_iff _ _).mp hchk
      have h2 : (forestNames (subs.map Prod.snd)).Nodup :=
        ((forestNames_reverse_perm _).nodup_iff).mp h1.1
      exact List.nodup_cons.mpr ⟨hroot, h2⟩
  · rw [hchk, exbind_error] at hser
    constructor
    · intro _
      intro hnd
      have h2 : (forestNames ((subs.map Prod.snd).reverse)).Nodup :=
        ((forestNames_reverse_perm _).nodup_iff).mpr
          (List.nodup_cons.mp hnd).2
      have hok := (checkDupStack_ok_iff
        ((subs.map Prod.snd).reverse) []).mpr ⟨h2, by simp⟩
      rw [hchk] at hok
      cases hok
    · intro _
      exact ⟨n0, hser⟩

/-- Witness for C2: a component-free model serializes without the
duplicate-component error. -/
theorem model_to_flow_duplicate_component_check_witness :
    extractInformation (fun _ => "1.0") (Model.mk "a.B" []) =
      .ok ([], [], [], []) ∧
    ¬ ∃ n, serializeModel (fun _ => "1.0") (Model.mk "a.B" []) =
      .error (.duplicateComponent n) := by
  have hx : extractInformation (fun _ => "1.0") (Model.mk "a.B" []) =
      .ok ([], [], [], []) := by
    rw [extractInformation.eq_def]
    rw [extractGo.eq_def]
    rfl
  refine ⟨hx, ?_⟩
  intro hex
  have hc := (model_to_flow_duplicate_component_check
    (fun _ => "1.0") (Model.mk "a.B" []) [] [] [] [] hx).mp hex
  apply hc
  simp [forestNames]

/-- A live Python value passed to `_deserialize_sklearn`: JSON-compatible
data (strings again carry their parse status), lists and tuples, mappings
with identifier keys, flow objects, and anything else (the `TypeError`
branch). -/
inductive DVal where
  | dnull
  | dbool (b : Bool)
  | dint (n : Int)
  | dstrRaw (s : String)
  | dstrParsed (j : JVal)
  | dlist (xs : List DVal)
  | dtuple (xs : List DVal)
  | ddict (es : List (String × DVal))
  | dflow (f : Flow)
  | dother

mutual

/-- The live value a parsed JSON document denotes (member strings keep
their parse status, so a nested member is re-parsed when the walker
recurses into it). -/
def jvalToD : JVal → DVal
  | .jnull => .dnull
  | .jbool b => .dbool b
  | .jint n => .dint n
  | .jstrRaw s => .dstrRaw s
  | .jstrParsed j => .dstrParsed j
  | .jarr xs => .dlist (jvalToDList xs)
  | .jobj es => .ddict (jvalToDDict es)

def jvalToDList : List JVal → List DVal
  | [] => []
  | x :: rest => jvalToD x :: jvalToDList rest

def jvalToDDict : List (String × JVal) → List (String × DVal)
  | [] => []
  | (k, v) :: rest => (k, jvalToD v) :: jvalToDDict rest

end

mutual

/-- The live value a parsed JSON document denotes, as a raw (un-walked)
model value; used where the source stores a parsed member without passing
it through the deserializer again. -/
def jvalToM : JVal → MVal
  | .jnull => .mnone
  | .jbool b => .mbool b
  | .jint n => .mint n
  | .jstrRaw s => .mstrRaw s
  | .jstrParsed j => .mstrParsed j
  | .jarr xs => .mlist (jvalToMList xs)
  | .jobj es => .mdict (jvalToMDict es)

def jvalToMList : List JVal → List MVal
  | [] => []
  | x :: rest => jvalToM x :: jvalToMList rest

def jvalToMDict : List (String × JVal) → List (String × MVal)
  | [] => []
  | (k, v) :: rest => (k, jvalToM v) :: jvalToMDict rest

end

mutual

/-- A deserializer input taken verbatim as a model value (the `rv_frozen`
branch stores the envelope members without walking them).  Flows and
foreign objects cannot occur inside a parsed document. -/
def dvalRaw : DVal → MVal
  | .dnull => .mnone
  | .dbool b => .mbool b
  | .dint n => .mint n
  | .dstrRaw s => .mstrRaw s
  | .dstrParsed j => .mstrParsed j
  | .dlist xs => .mlist (dvalRawList xs)
  | .dtuple xs => .mtuple (dvalRawList xs)
  | .ddict es => .mdict (dvalRawDict es)
  | .dflow _ => .mnone
  | .dother => .mnone

def dvalRawList : List DVal → List MVal
  | [] => []
  | x :: rest => dvalRaw x :: dvalRawList rest

def dvalRawDict : List (String × DVal) → List (String × MVal)
  | [] => []
  | (k, v) :: rest => (k, dvalRaw v) :: dvalRawDict rest

end

/-- A stored flow parameter value as the live value handed to the
deserializer. -/
def fvalToD : FVal → DVal
  | .fnone => .dnull
  | .fstrRaw s => .dstrRaw s
  | .fstrParsed j => .dstrParsed j
  | .fother _ => .dother

/-- `SklearnExtension._is_sklearn_flow`: the external-version fingerprint
begins with `sklearn==` or contains `,sklearn==`. -/
def isSklearnFlow (f : Flow) : Bool :=
  listStartsWith "sklearn==".data f.externalVersion.data ||
    listContainsSub ",sklearn==".data f.externalVersion.data

/-- Does `s.rsplit(sep, 1)[1]` exist, i.e. does the dotted path have at
least two segments? -/
def hasDotSegments (s : String) : Bool :=
  decide (2 ≤ (splitSep ".".data s.data).length)

/-- `_deserialize_type`: the closed name-to-type mapping; a value outside
the mapping's keys (including any non-string) raises `KeyError`. -/
def deserializeTypeD (value : DVal)
    (comps : Option (List (String × Flow))) :
    Except Err (MVal × Option (List (String × Flow))) :=
  match value with
  | .dstrRaw s =>
      match numTypeOfName s with
      | some t => .ok (.mtype t, comps)
      | none => .error (.keyError s)
  | _ => .error (.keyError "type")

/-- `_deserialize_rv_frozen`: reads the five envelope members (in source
order), resolves the distribution class (an unresolvable class is the
caught `AttributeError`, returning `None`), and rebuilds the frozen
distribution carrying the stored raw members. -/
def deserializeRvD (ct : String → Option (List String)) (value : DVal)
    (comps : Option (List (String × Flow))) :
    Except Err (MVal × Option (List (String × Flow))) :=
  match value with
  | .ddict ves =>
      (match alookup ves "args" with
        | none => .error (.keyError "args")
        | some argsv =>
            match alookup ves "kwds" with
            | none => .error (.keyError "kwds")
            | some kwdsv =>
                match alookup ves "a" with
                | none => .error (.keyError "a")
                | some av =>
                    match alookup ves "b" with
                    | none => .error (.keyError "b")
                    | some bv =>
                        match alookup ves "dist" with
                        | none => .error (.keyError "dist")
                        | some distv =>
                            match distv with
                            | .dstrRaw dist =>
                                if hasDotSegments dist then
                                  match ct dist with
                                  | none => .ok (.mnone, comps)
                                  | some _ =>
                                      match argsv, kwdsv with
                                      | .dstrParsed (.jarr js),
                                        .dstrParsed (.jobj kes) =>
                                          .ok (.mrv dist (dvalRaw av)
                                            (dvalRaw bv) (jvalToMList js)
                                            (jvalToMDict kes), comps)
                                      | _, _ => .error
                                          (.typeError "bad rv arguments")
                                else .error .indexError
                            | _ => .error
                                (.typeError "dist name is not a string"))
  | _ => .error (.typeError "rv value is not a mapping")

/-- `_deserialize_function`: resolves the stored module-level path; that
resolution is not guarded, so an unresolvable path is fatal. -/
def deserializeFunctionD (ct : String → Option (List String))
    (value : DVal) (comps : Option (List (String × Flow))) :
    Except Err (MVal × Option (List (String × Flow))) :=
  match value with
  | .dstrRaw s =>
      if hasDotSegments s then
        match ct s with
        | none => .error (.importFailure s)
        | some _ => .ok (.mfunc s, comps)
      else .error .indexError
  | _ => .error (.typeError "function name is not a string")

/-- Kind tag for `model_class(**parameter_dict)`: every keyword must be a
string. -/
def toKwargs : List (PName × MVal) → Except Err (List (String × MVal))
  | [] => .ok []
  | (.strN s, v) :: rest =>
      (match toKwargs rest with
        | .error e => .error e
        | .ok ys => .ok ((s, v) :: ys))
  | (.otherN _, _) :: rest => .error (.typeError "keywords must be strings")

/-- The `keep_defaults` deletion loop of `_deserialize_model`: every
constructor parameter with a default that is not a component key is
deleted from the keyword dictionary (`del` on an absent key raises
`KeyError`). -/
def deleteDefaults (defaults : List String)
    (comps : List (String × Flow)) :
    List (PName × MVal) → Except Err (List (PName × MVal)) :=
  fun pdict =>
    match defaults with
    | [] => .ok pdict
    | param :: rest =>
        if param ∈ akeys comps then deleteDefaults rest comps pdict
        else if (PName.strN param) ∈ pdict.map Prod.fst then
          deleteDefaults rest comps (aerase pdict (PName.strN param))
        else .error (.keyError param)

mutual

/-- `SklearnExtension._deserialize_sklearn`: the inverse walker.  A string
is first passed through `json.loads` (a parse failure keeps the string);
the recursion then dispatches on the shape of the value.  `ct` maps an
importable dotted path to the constructor parameters that carry default
values. -/
def deserialize (ct : String → Option (List String)) :
    Nat → DVal → Option (List (String × Flow)) → Bool →
    Except Err (MVal × Option (List (String × Flow)))
  | 0, _, _, _ => .error .outOfFuel
  | fuel + 1, o, comps, init =>
      match o with
      | .dnull => .ok (.mnone, comps)
      | .dbool b => .ok (.mbool b, comps)
      | .dint n => .ok (.mint n, comps)
      | .dstrRaw s => .ok (.mstrRaw s, comps)
      | .dstrParsed j =>
          (match j with
            | .jstrRaw s => .ok (.mstrRaw s, comps)
            | .jstrParsed j2 => .ok (.mstrParsed j2, comps)
            | _ => deserialize ct fuel (jvalToD j) comps init)
      | .dlist xs =>
          (match deserializeList ct fuel xs comps init with
            | .error e => .error e
            | .ok (ys, c2) => .ok (.mlist ys, c2))
      | .dtuple xs =>
          (match deserializeList ct fuel xs comps init with
            | .error e => .error e
            | .ok (ys, c2) => .ok (.mtuple ys, c2))
      | .ddict es =>
          (match alookup es omlMarker with
            | some tagv =>
                (match alookup es "value" with
                  | none => .error (.keyError "value")
                  | some value =>
                      match tagv with
                      | .dstrRaw tag =>
                          if tag = "type" then deserializeTypeD value comps
                          else if tag = "rv_frozen" then
                            deserializeRvD ct value comps
                          else if tag = "function" then
                            deserializeFunctionD ct value comps
                          else if tag = "component_reference" then
                            deserializeReference ct fuel value comps init
                          else if tag = "cv_object" then
                            deserializeCv ct fuel value comps
                          else .error (.cannotDeserialize tag)
                      | _ => .error (.cannotDeserialize "non-string tag"))
            | none =>
                match deserializeDictD ct fuel (sortByKey es) comps init with
                | .error e => .error e
                | .ok (fs, c2) => .ok (.mdict fs, c2))
      | .dflow f =>
          if isSklearnFlow f then
            match deserializeModelD ct fuel f init with
            | .error e => .error e
            | .ok mv => .ok (mv, comps)
          else .error (.valueError "Only sklearn flows can be reinstantiated")
      | .dother => .error (.typeError "cannot deserialize object")
termination_by structural fuel _ _ _ => fuel

def deserializeList (ct : String → Option (List String)) :
    Nat → List DVal → Option (List (String × Flow)) → Bool →
    Except Err (List MVal × Option (List (String × Flow)))
  | _, [], comps, _ => .ok ([], comps)
  | 0, _ :: _, _, _ => .error .outOfFuel
  | fuel + 1, x :: rest, comps, init => do
      let (y, c1) ← deserialize ct fuel x comps init
      let (ys, c2) ← deserializeList ct fuel rest c1 init
      .ok (y :: ys, c2)
termination_by structural fuel _ _ _ => fuel

/-- The ordered-dictionary branch: entries sorted by key, each key and
value deserialized (an identifier key is not a JSON document, so it
deserializes to itself). -/
def deserializeDictD (ct : String → Option (List String)) :
    Nat → List (String × DVal) → Option (List (String × Flow)) → Bool →
    Except Err (List (String × MVal) × Option (List (String × Flow)))
  | _, [], comps, _ => .ok ([], comps)
  | 0, _ :: _, _, _ => .error .outOfFuel
  | fuel + 1, (k, v) :: rest, comps, init => do
      let (y, c1) ← deserialize ct fuel v comps init
      let (ys, c2) ← deserializeDictD ct fuel rest c1 init
      .ok ((k, y) :: ys, c2)
termination_by structural fuel _ _ _ => fuel

/-- The `component_reference` branch: the components pool must be present;
the envelope value is deserialized without a pool, its `step_name` and
`key` members are read, the referenced component is deserialized from the
pool and removed from it, and the result is the component itself, the
pair, or the triple with `argument_1`. -/
def deserializeReference (ct : String → Option (List String)) :
    Nat → DVal → Option (List (String × Flow)) → Bool →
    Except Err (MVal × Option (List (String × Flow)))
  | 0, _, _, _ => .error .outOfFuel
  | fuel + 1, value, comps, init =>
  match comps with
  | none => .error .assertionFailure
  | some pool =>
      match deserialize ct fuel value none false with
      | .error e => .error e
      | .ok (value2, _) =>
          match value2 with
          | .mdict ves =>
              (match alookup ves "step_name" with
                | none => .error (.keyError "step_name")
                | some stepName =>
                    match alookup ves "key" with
                    | none => .error (.keyError "key")
                    | some keyv =>
                        match keyv with
                        | .mstrRaw kk =>
                            (match alookup pool kk with
                              | none => .error (.keyError kk)
                              | some compFlow =>
                                  match deserialize ct fuel
                                      (.dflow compFlow) none init with
                                  | .error e => .error e
                                  | .ok (component, _) =>
                                      let pool2 := aerase pool kk
                                      match stepName with
                                      | .mnone => .ok (component, some pool2)
                                      | _ =>
                                          match alookup ves "argument_1" with
                                          | none => .ok (.mtuple [stepName,
                                              component], some pool2)
                                          | some a1 => .ok (.mtuple [stepName,
                                              component, a1], some pool2))
                        | _ => .error (.keyError "key"))
          | _ => .error (.typeError "reference value is not a mapping")
termination_by structural fuel _ _ _ => fuel

/-- `_deserialize_cross_validator`: class path and parameter dictionary,
each parameter deserialized without a pool, and the class instantiated on
the keyword dictionary. -/
def deserializeCv (ct : String → Option (List String)) :
    Nat → DVal → Option (List (String × Flow)) →
    Except Err (MVal × Option (List (String × Flow)))
  | 0, _, _ => .error .outOfFuel
  | fuel + 1, value, comps =>
  match value with
  | .ddict ves =>
      (match alookup ves "name" with
        | none => .error (.keyError "name")
        | some namev =>
            match alookup ves "parameters" with
            | none => .error (.keyError "parameters")
            | some paramsv =>
                match namev with
                | .dstrRaw s =>
                    if hasDotSegments s then
                      match ct s with
                      | none => .error (.importFailure s)
                      | some _ =>
                          match paramsv with
                          | .ddict pes =>
                              (match deserializeCvParams ct fuel pes with
                                | .error e => .error e
                                | .ok ps => .ok (.mcv s ps, comps))
                          | _ => .error
                              (.typeError "parameters is not a mapping")
                    else .error .indexError
                | _ => .error (.typeError "cv name is not a string"))
  | _ => .error (.typeError "cv value is not a mapping")
termination_by structural fuel _ _ => fuel

def deserializeCvParams (ct : String → Option (List String)) :
    Nat → List (String × DVal) → Except Err (List (String × MVal))
  | _, [] => .ok []
  | 0, _ :: _ => .error .outOfFuel
  | fuel + 1, (k, v) :: rest => do
      let (y, _) ← deserialize ct fuel v none false
      let ys ← deserializeCvParams ct fuel rest
      .ok ((k, y) :: ys)
termination_by structural fuel _ => fuel

/-- `SklearnExtension._deserialize_model`: deserialize every stored
parameter against a working copy of the components pool, append unused
components, resolve the class, optionally drop defaulted parameters, and
instantiate the class on the resulting keyword dictionary. -/
def deserializeModelD (ct : String → Option (List String)) :
    Nat → Flow → Bool → Except Err MVal
  | 0, _, _ => .error .outOfFuel
  | fuel + 1, f, keepDefaults =>
  match f.classPath with
  | none => .error (.typeError "class name is not a string")
  | some path =>
      match deserializeParams ct fuel f.parameters
          (some f.components) keepDefaults with
      | .error e => .error e
      | .ok (pdict, c2) =>
          -- the pool passed in is `some` and every branch of the walker
          -- returns the pool it was given (the reference branch returns
          -- the erased copy), so `c2` is `some`; the default is dead code
          let poolFinal := match c2 with
            | some p => p
            | none => []
          match deserializeComponents ct fuel f.components poolFinal
              pdict with
          | .error e => .error e
          | .ok pdict2 =>
              if hasDotSegments path then
                match ct path with
                | none => .error (.importFailure path)
                | some defaults =>
                    match (if keepDefaults then
                        deleteDefaults defaults f.components pdict2
                      else .ok pdict2) with
                    | .error e => .error e
                    | .ok pdict3 =>
                        match toKwargs pdict3 with
                        | .error e => .error e
                        | .ok kwargs => .ok (.mmodel (Model.mk path kwargs))
              else .error .indexError
termination_by structural fuel _ _ => fuel

/-- The parameter loop of `_deserialize_model`, threading the working
components pool. -/
def deserializeParams (ct : String → Option (List String)) :
    Nat → List (PName × FVal) → Option (List (String × Flow)) → Bool →
    Except Err (List (PName × MVal) × Option (List (String × Flow)))
  | _, [], comps, _ => .ok ([], comps)
  | 0, _ :: _, _, _ => .error .outOfFuel
  | fuel + 1, (name, value) :: rest, comps, keepDefaults => do
      let (rv, c1) ← deserialize ct fuel (fvalToD value) comps keepDefaults
      let (ps, c2) ← deserializeParams ct fuel rest c1 keepDefaults
      .ok ((name, rv) :: ps, c2)
termination_by structural fuel _ _ _ => fuel

/-- The components loop of `_deserialize_model`: a component whose name is
already a parameter key, or which the references already consumed from the
working pool, is skipped; the rest are deserialized (with no pool and
defaults off) and appended to the keyword dictionary. -/
def deserializeComponents (ct : String → Option (List String)) :
    Nat → List (String × Flow) → List (String × Flow) →
    List (PName × MVal) → Except Err (List (PName × MVal))
  | _, [], _, pdict => .ok pdict
  | 0, _ :: _, _, _ => .error .outOfFuel
  | fuel + 1, (name, value) :: rest, poolFinal, pdict =>
      if (PName.strN name) ∈ pdict.map Prod.fst then
        deserializeComponents ct fuel rest poolFinal pdict
      else if name ∈ akeys poolFinal then
        (match deserialize ct fuel (.dflow value) none false with
          | .error e => .error e
          | .ok (rv, _) =>
              deserializeComponents ct fuel rest poolFinal
                (pdict ++ [(.strN name, rv)]))
      else deserializeComponents ct fuel rest poolFinal pdict
termination_by structural fuel _ _ _ => fuel

end

/-- `SklearnExtension.flow_to_model`: the public entry point hands the
flow to the inverse walker with no pool. -/
def flow_to_model (ct : String → Option (List String)) (fuel : Nat)
    (f : Flow) (init : Bool) :
    Except Err (MVal × Option (List (String × Flow))) :=
  deserialize ct fuel (.dflow f) none init

/-- C5.  A mapping carrying the special-value marker key dispatches on the
tag: each of the five recognized tags hands the envelope value to its
tag-specific decoder, and any other tag — any other string, or a non-string
value — raises the fatal `Cannot flow_to_sklearn` error. -/
theorem special_value_tag_dispatch (ct : String → Option (List String))
    (fuel : Nat) (es : List (String × DVal)) (tagv value : DVal)
    (comps : Option (List (String × Flow))) (init : Bool)
    (hmark : alookup es omlMarker = some tagv)
    (hval : alookup es "value" = some value) :
    (∀ tag, tagv = .dstrRaw tag →
      tag ∉ ["type", "rv_frozen", "function", "component_reference",
        "cv_object"] →
      deserialize ct (fuel + 1) (.ddict es) comps init =
        .error (.cannotDeserialize tag)) ∧
    ((∀ tag, tagv ≠ .dstrRaw tag) →
      deserialize ct (fuel + 1) (.ddict es) comps init =
        .error (.cannotDeserialize "non-string tag")) ∧
    (tagv = .dstrRaw "type" →
      deserialize ct (fuel + 1) (.ddict es) comps init =
        deserializeTypeD value comps) ∧
    (tagv = .dstrRaw "rv_frozen" →
      deserialize ct (fuel + 1) (.ddict es) comps init =
        deserializeRvD ct value comps) ∧
    (tagv = .dstrRaw "function" →
      deserialize ct (fuel + 1) (.ddict es) comps init =
        deserializeFunctionD ct value comps) ∧
    (tagv = .dstrRaw "component_reference" →
      deserialize ct (fuel + 1) (.ddict es) comps init =
        deserializeReference ct fuel value comps init) ∧
    (tagv = .dstrRaw "cv_object" →
      deserialize ct (fuel + 1) (.ddict es) comps init =
        deserializeCv ct fuel value comps) := by
  refine ⟨?_, ?_, ?_, ?_, ?_, ?_, ?_⟩
  · intro tag htagv hnot
    subst htagv
    simp only [List.mem_cons, List.mem_singleton] at hnot
    push_neg at hnot
    obtain ⟨h1, h2, h3, h4, h5, -⟩ := hnot
    simp only [deserialize, hmark, hval]
    rw [if_neg h1, if_neg h2, if_neg h3, if_neg h4, if_neg h5]
  · intro hns
    cases tagv with
    | dstrRaw s => exact absurd rfl (hns s)
    | dnull => simp only [deserialize, hmark, hval]
    | dbool b => simp only [deserialize, hmark, hval]
    | dint n => simp only [deserialize, hmark, hval]
    | dstrParsed j => simp only [deserialize, hmark, hval]
    | dlist xs => simp only [deserialize, hmark, hval]
    | dtuple xs => simp only [deserialize, hmark, hval]
    | ddict es2 => simp only [deserialize, hmark, hval]
    | dflow f => simp only [deserialize, hmark, hval]
    | dother => simp only [deserialize, hmark, hval]
  · intro htagv
    subst htagv
    simp [deserialize, hmark, hval]
  · intro htagv
    subst htagv
    simp [deserialize, hmark, hval]
  · intro htagv
    subst htagv
    simp [deserialize, hmark, hval]
  · intro htagv
    subst htagv
    simp [deserialize, hmark, hval]
  · intro htagv
    subst htagv
    simp [deserialize, hmark, hval]

/-- Witness for C5: an envelope with the unknown tag `mystery` is a fatal
decode error, and a `function` envelope dispatches to the function
decoder. -/
theorem special_value_tag_dispatch_witness :
    deserialize (fun _ => some []) 1
      (.ddict [(omlMarker, .dstrRaw "mystery"), ("value", .dnull)])
      none false = .error (.cannotDeserialize "mystery") ∧
    deserialize (fun _ => some []) 1
      (.ddict [(omlMarker, .dstrRaw "function"),
        ("value", .dstrRaw "a.b")]) none false =
      deserializeFunctionD (fun _ => some []) (.dstrRaw "a.b") none := by
  constructor
  · exact (special_value_tag_dispatch (fun _ => some []) 0
      [(omlMarker, .dstrRaw "mystery"), ("value", .dnull)]
      (.dstrRaw "mystery") .dnull none false (by rfl) (by rfl)).1
      "mystery" rfl (by decide)
  · exact (special_value_tag_dispatch (fun _ => some []) 0
      [(omlMarker, .dstrRaw "function"), ("value", .dstrRaw "a.b")]
      (.dstrRaw "function") (.dstrRaw "a.b") none false (by rfl)
      (by rfl)).2.2.2.2.1 rfl

theorem deserializeModelD_shape {ct : String → Option (List String)}
    {fuel : Nat} {f : Flow} {kd : Bool} {mv : MVal}
    (h : deserializeModelD ct fuel f kd = .ok mv) :
    ∃ mdl, mv = .mmodel mdl := by
  cases fuel with
  | zero => cases h
  | succ n =>
      cases hcp : f.classPath with
      | none => simp [deserializeModelD, hcp] at h
      | some path =>
          cases hp : deserializeParams ct n f.parameters
              (some f.components) kd with
          | error e => simp [deserializeModelD, hcp, hp] at h
          | ok pr =>
              obtain ⟨pdict, c2⟩ := pr
              cases c2 with
              | none =>
                  cases hc : deserializeComponents ct n f.components []
                      pdict with
                  | error e => simp [deserializeModelD, hcp, hp, hc] at h
                  | ok pdict2 =>
                      by_cases hdot : hasDotSegments path
                      · cases hct : ct path with
                        | none => simp [deserializeModelD, hcp, hp, hc,
                            hdot, hct] at h
                        | some defaults =>
                            cases kd with
                            | false =>
                                cases hkw : toKwargs pdict2 with
                                | error e => simp [deserializeModelD, hcp,
                                    hp, hc, hdot, hct, hkw] at h
                                | ok kwargs =>
                                    simp [deserializeModelD, hcp, hp, hc,
                                      hdot, hct, hkw] at h
                                    exact ⟨_, h.symm⟩
                            | true =>
                                cases hdel : deleteDefaults defaults
                                    f.components pdict2 with
                                | error e => simp [deserializeModelD, hcp,
                                    hp, hc, hdot, hct, hdel] at h
                                | ok pdict3 =>
                                    cases hkw : toKwargs pdict3 with
                                    | error e => simp [deserializeModelD,
                                        hcp, hp, hc, hdot, hct, hdel,
                                        hkw] at h
                                    | ok kwargs =>
                                        simp [deserializeModelD, hcp, hp,
                                          hc, hdot, hct, hdel, hkw] at h
                                        exact ⟨_, h.symm⟩
                      · simp [deserializeModelD, hcp, hp, hc, hdot] at h
              | some p =>
                  cases hc : deserializeComponents ct n f.components p
                      pdict with
                  | error e => simp [deserializeModelD, hcp, hp, hc] at h
                  | ok pdict2 =>
                      by_cases hdot : hasDotSegments path
                      · cases hct : ct path with
                        | none => simp [deserializeModelD, hcp, hp, hc,
                            hdot, hct] at h
                        | some defaults =>
                            cases kd with
                            | false =>
                                cases hkw : toKwargs pdict2 with
                                | error e => simp [deserializeModelD, hcp,
                                    hp, hc, hdot, hct, hkw] at h
                                | ok kwargs =>
                                    simp [deserializeModelD, hcp, hp, hc,
                                      hdot, hct, hkw] at h
                                    exact ⟨_, h.symm⟩
                            | true =>
                                cases hdel : deleteDefaults defaults
                                    f.components pdict2 with
                                | error e => simp [deserializeModelD, hcp,
                                    hp, hc, hdot, hct, hdel] at h
                                | ok pdict3 =>
                                    cases hkw : toKwargs pdict3 with
                                    | error e => simp [deserializeModelD,
                                        hcp, hp, hc, hdot, hct, hdel,
                                        hkw] at h
                                    | ok kwargs =>
                                        simp [deserializeModelD, hcp, hp,
                                          hc, hdot, hct, hdel, hkw] at h
                                        exact ⟨_, h.symm⟩
                      · simp [deserializeModelD, hcp, hp, hc, hdot] at h

theorem deserialize_dflow_shape {ct : String → Option (List String)}
    {fuel : Nat} {f : Flow} {co : Option (List (String × Flow))}
    {init : Bool} {mv : MVal} {c2 : Option (List (String × Flow))}
    (h : deserialize ct fuel (.dflow f) co init = .ok (mv, c2)) :
    (∃ mdl, mv = .mmodel mdl) ∧ c2 = co := by
  cases fuel with
  | zero => cases h
  | succ n =>
      simp only [deserialize] at h
      split at h
      · split at h
        · cases h
        · rename_i mv0 hd
          cases h
          exact ⟨deserializeModelD_shape hd, rfl⟩
      · cases h

/-- C4.  A `component_reference` envelope whose key the components pool
binds decodes, through the inverse walker, to the decoded referenced
component itself when `step_name` is `None`, to the pair when `step_name`
is set and `argument_1` is absent, and to the triple when `argument_1` is
present; in every case the key is erased from the returned working copy
of the pool, and the returned value is never an envelope mapping (it is
the decoded component — a model — or a tuple). -/
theorem component_reference_decode
    (ct : String → Option (List String)) (fuel : Nat)
    (es : List (String × DVal)) (pool : List (String × Flow))
    (value : DVal) (ves : List (String × MVal)) (sn : MVal) (kk : String)
    (f0 : Flow) (component : MVal)
    (cp comps0 : Option (List (String × Flow))) (init : Bool)
    (hmark : alookup es omlMarker = some (.dstrRaw "component_reference"))
    (hval : alookup es "value" = some value)
    (hv2 : deserialize ct fuel value none false = .ok (.mdict ves, comps0))
    (hsn : alookup ves "step_name" = some sn)
    (hkk : alookup ves "key" = some (.mstrRaw kk))
    (hpool : alookup pool kk = some f0)
    (hcomp : deserialize ct fuel (.dflow f0) none init =
      .ok (component, cp)) :
    ∃ result,
      deserialize ct (fuel + 2) (.ddict es) (some pool) init =
        .ok (result, some (aerase pool kk)) ∧
      (sn = .mnone → result = component) ∧
      (sn ≠ .mnone → alookup ves "argument_1" = none →
        result = .mtuple [sn, component]) ∧
      (∀ a1, sn ≠ .mnone → alookup ves "argument_1" = some a1 →
        result = .mtuple [sn, component, a1]) ∧
      (∀ es2, result ≠ .mdict es2) := by
  have hstep : deserialize ct (fuel + 2) (.ddict es) (some pool) init =
      deserializeReference ct (fuel + 1) value (some pool) init := by
    simp [deserialize, hmark, hval]
  have heval : deserializeReference ct (fuel + 1) value (some pool) init =
      (match sn with
        | .mnone => Except.ok (component, some (aerase pool kk))
        | _ =>
            match alookup ves "argument_1" with
            | none => Except.ok (.mtuple [sn, component],
                some (aerase pool kk))
            | some a1 => Except.ok (.mtuple [sn, component, a1],
                some (aerase pool kk))) := by
    simp only [deserializeReference, hv2, hsn, hkk, hpool, hcomp]
    cases sn
    all_goals rfl
  by_cases hsn0 : sn = .mnone
  · subst hsn0
    refine ⟨component, ?_, fun _ => rfl, fun hne _ => absurd rfl hne,
      fun a1 hne _ => absurd rfl hne, ?_⟩
    · rw [hstep, heval]
    · intro es2 hcontra
      rcases (deserialize_dflow_shape hcomp).1 with ⟨mdl, hm⟩
      rw [hm] at hcontra
      cases hcontra
  · cases harg : alookup ves "argument_1" with
    | none =>
        refine ⟨.mtuple [sn, component], ?_, fun h => absurd h hsn0,
          fun _ _ => rfl, ?_, ?_⟩
        · rw [hstep, heval]
          cases sn
          all_goals first
            | exact absurd rfl hsn0
            | simp [harg]
        · intro a1 _ ha1
          cases ha1
        · intro es2 h
          cases h
    | some a1 =>
        refine ⟨.mtuple [sn, component, a1], ?_, fun h => absurd h hsn0,
          ?_, ?_, ?_⟩
        · rw [hstep, heval]
          cases sn
          all_goals first
            | exact absurd rfl hsn0
            | simp [harg]
        · intro _ hnone
          cases hnone
        · intro a1' _ ha1
          cases ha1
          rfl
        · intro es2 h
          cases h

/-- Witness for C4: a reference envelope with `step_name = None` decodes
to the referenced leaf model, with the key erased from the pool. -/
theorem component_reference_decode_witness :
    deserialize (fun _ => some []) 6
      (.ddict [(omlMarker, .dstrRaw "component_reference"),
        ("value", .ddict [("key", .dstrRaw "c"), ("step_name", .dnull)])])
      (some [("c", Flow.mk "f" (some "a.b") none none none none
        "sklearn==0.0" "" none none [] [] [] [])]) false =
      .ok (.mmodel (Model.mk "a.b" []), some []) := by
  obtain ⟨result, h1, h2, -, -, -⟩ := component_reference_decode
    (fun _ => some []) 4
    [(omlMarker, .dstrRaw "component_reference"),
      ("value", .ddict [("key", .dstrRaw "c"), ("step_name", .dnull)])]
    [("c", Flow.mk "f" (some "a.b") none none none none
      "sklearn==0.0" "" none none [] [] [] [])]
    (.ddict [("key", .dstrRaw "c"), ("step_name", .dnull)])
    [("key", .mstrRaw "c"), ("step_name", .mnone)] .mnone "c"
    (Flow.mk "f" (some "a.b") none none none none
      "sklearn==0.0" "" none none [] [] [] [])
    (.mmodel (Model.mk "a.b" [])) none none false
    rfl rfl rfl rfl rfl rfl rfl
  rw [h2 rfl] at h1
  exact h1

theorem mem_map_fst_aerase {α β : Type} [DecidableEq α]
    (l : List (α × β)) (k name : α) :
    name ∈ (aerase l k).map Prod.fst ↔
      name ∈ l.map Prod.fst ∧ name ≠ k := by
  induction l with
  | nil => simp [aerase]
  | cons p rest ih =>
      by_cases hp : p.1 = k
      · rw [aerase, if_pos hp, ih]
        simp only [List.map_cons, List.mem_cons, hp]
        constructor
        · rintro ⟨h1, h2⟩
          exact ⟨Or.inr h1, h2⟩
        · rintro ⟨h | h, h2⟩
          · exact absurd h h2
          · exact ⟨h, h2⟩
      · rw [aerase, if_neg hp]
        simp only [List.map_cons, List.mem_cons, ih]
        constructor
        · rintro (h | ⟨h1, h2⟩)
          · subst h
            exact ⟨Or.inl rfl, fun hc => hp (hc ▸ rfl)⟩
          · exact ⟨Or.inr h1, h2⟩
        · rintro ⟨h | h, hne⟩
          · exact Or.inl h
          · exact Or.inr ⟨h, hne⟩

theorem deleteDefaults_mem (defaults : List String)
    (comps : List (String × Flow)) :
    ∀ (pdict pdict2 : List (PName × MVal)),
      deleteDefaults defaults comps pdict = .ok pdict2 →
      ∀ name : PName, (name ∈ pdict2.map Prod.fst ↔
        name ∈ pdict.map Prod.fst ∧
          ¬ ∃ p, name = PName.strN p ∧ p ∈ defaults ∧
            p ∉ akeys comps) := by
  induction defaults with
  | nil =>
      intro pdict pdict2 h name
      rw [deleteDefaults] at h
      cases h
      simp
  | cons param rest ih =>
      intro pdict pdict2 h name
      rw [deleteDefaults] at h
      by_cases hmem : param ∈ akeys comps
      · rw [if_pos hmem] at h
        rw [ih pdict pdict2 h name]
        constructor
        · rintro ⟨h1, h2⟩
          refine ⟨h1, ?_⟩
          rintro ⟨p, hp1, hp2, hp3⟩
          rcases List.mem_cons.mp hp2 with he | he
          · exact hp3 (he ▸ hmem)
          · exact h2 ⟨p, hp1, he, hp3⟩
        · rintro ⟨h1, h2⟩
          refine ⟨h1, ?_⟩
          rintro ⟨p, hp1, hp2, hp3⟩
          exact h2 ⟨p, hp1, List.mem_cons_of_mem _ hp2, hp3⟩
      · rw [if_neg hmem] at h
        by_cases hpres : (PName.strN param) ∈ pdict.map Prod.fst
        · rw [if_pos hpres] at h
          rw [ih _ pdict2 h name, mem_map_fst_aerase]
          constructor
          · rintro ⟨⟨h1, h2⟩, h3⟩
            refine ⟨h1, ?_⟩
            rintro ⟨p, hp1, hp2, hp3⟩
            rcases List.mem_cons.mp hp2 with he | he
            · subst he
              exact h2 (hp1 ▸ rfl)
            · exact h3 ⟨p, hp1, he, hp3⟩
          · rintro ⟨h1, h2⟩
            refine ⟨⟨h1, ?_⟩, ?_⟩
            · intro he
              exact h2 ⟨param, he, List.mem_cons_self _ _, hmem⟩
            · rintro ⟨p, hp1, hp2, hp3⟩
              exact h2 ⟨p, hp1, List.mem_cons_of_mem _ hp2, hp3⟩
        · rw [if_neg hpres] at h
          cases h

theorem toKwargs_keys :
    ∀ (l : List (PName × MVal)) (ys : List (String × MVal)),
      toKwargs l = .ok ys →
      l.map Prod.fst = ys.map (fun q => PName.strN q.1) := by
  intro l
  induction l with
  | nil =>
      intro ys h
      cases h
      rfl
  | cons p rest ih =>
      intro ys h
      obtain ⟨name, v⟩ := p
      cases name with
      | strN s =>
          rw [toKwargs] at h
          cases hr : toKwargs rest with
          | error e =>
              rw [hr] at h
              cases h
          | ok ys2 =>
              rw [hr] at h
              cases h
              simp only [List.map_cons]
              rw [ih ys2 hr]
      | otherN v2 =>
          rw [toKwargs] at h
          cases h

/-- C3.  With `initialize_with_defaults` set, the keyword dictionary the
walker passes to the reconstructed class's constructor omits exactly those
parameters that both carry a declared constructor default and are not keys
of the flow's components mapping: a key survives the deletion pass iff it
was in the assembled dictionary and is not a defaulted non-component
parameter (its stored value plays no role), and a component key is never
removed. -/
theorem flow_to_model_defaults_omission
    (ct : String → Option (List String)) (fuel : Nat) (f : Flow)
    (path : String) (defaults : List String) (poolF : List (String × Flow))
    (pdict pdict2 pdict3 : List (PName × MVal))
    (kwargs : List (String × MVal))
    (hskl : isSklearnFlow f = true)
    (hcp : f.classPath = some path)
    (hp : deserializeParams ct fuel f.parameters (some f.components) true =
      .ok (pdict, some poolF))
    (hc : deserializeComponents ct fuel f.components poolF pdict =
      .ok pdict2)
    (hdot : hasDotSegments path = true)
    (hct : ct path = some defaults)
    (hdel : deleteDefaults defaults f.components pdict2 = .ok pdict3)
    (hkw : toKwargs pdict3 = .ok kwargs) :
    flow_to_model ct (fuel + 2) f true =
      .ok (.mmodel (Model.mk path kwargs), none) ∧
    kwargs.map (fun q => PName.strN q.1) = pdict3.map Prod.fst ∧
    (∀ name : PName, name ∈ pdict3.map Prod.fst ↔
      name ∈ pdict2.map Prod.fst ∧
        ¬ ∃ p, name = PName.strN p ∧ p ∈ defaults ∧
          p ∉ akeys f.components) := by
  refine ⟨?_, (toKwargs_keys pdict3 kwargs hkw).symm,
    deleteDefaults_mem defaults f.components pdict2 pdict3 hdel⟩
  rw [flow_to_model]
  simp [deserialize, hskl, deserializeModelD, hcp, hp, hc, hdot, hct,
    hdel, hkw]

/-- Witness for C3: a flow storing a non-default value for the defaulted
parameter `alpha` (and none for the component key `est`) reconstructs with
`alpha` dropped from the keyword dictionary while the component key
survives the deletion pass. -/
theorem flow_to_model_defaults_omission_witness :
    flow_to_model (fun _ => some ["alpha"]) 5
      (Flow.mk "f" (some "a.B") none none none none "sklearn==0.0" ""
        none none [] [(.strN "alpha", .fstrParsed (.jint 7))] [] [])
      true = .ok (.mmodel (Model.mk "a.B" []), none) ∧
    ((PName.strN "alpha") ∈
      ([(PName.strN "alpha", MVal.mint 7)] : List (PName × MVal)).map
        Prod.fst ∧
      ¬ ((PName.strN "alpha") ∈ ([] : List (PName × MVal)).map Prod.fst)) := by
  obtain ⟨h1, h2, h3⟩ := flow_to_model_defaults_omission
    (fun _ => some ["alpha"]) 3
    (Flow.mk "f" (some "a.B") none none none none "sklearn==0.0" ""
      none none [] [(.strN "alpha", .fstrParsed (.jint 7))] [] [])
    "a.B" ["alpha"] [] [(.strN "alpha", .mint 7)]
    [(.strN "alpha", .mint 7)] [] []
    rfl rfl rfl rfl rfl rfl rfl rfl
  refine ⟨h1, by simp, ?_⟩
  intro hmem
  simp at hmem

/-- Counterexample to C1: a model with the tuple parameter `(1, 2)` is in
the claimed universe ("lists/tuples"), serializes fine, but deserializes
to the list `[1, 2]`: JSON dumping collapses tuples to arrays, so the
retained constructor argument differs from the original. -/
theorem model_round_trip_tuple_counterexample :
    (serializeModel (fun _ => "0.0")
        (Model.mk "sklearn.B" [("t", .mtuple [.mint 1, .mint 2])]) >>=
      fun fl => flow_to_model (fun _ => some []) 9 fl false) =
      .ok (.mmodel
        (Model.mk "sklearn.B" [("t", .mlist [.mint 1, .mint 2])]), none) ∧
    ¬ ((MVal.mlist [.mint 1, .mint 2]) = .mtuple [.mint 1, .mint 2]) := by
  have hser : serializeModel (fun _ => "0.0")
      (Model.mk "sklearn.B" [("t", .mtuple [.mint 1, .mint 2])]) =
      .ok (Flow.mk "sklearn.B" (some "sklearn.B") none none none none
        "openml==0.0,sklearn==0.0"
        "Automatically created scikit-learn flow." (some "English")
        (some "sklearn==0.0\nnumpy>=1.6.1\nscipy>=0.9") []
        [(.strN "t", .fstrParsed (.jarr [.jint 1, .jint 2]))]
        [(.strN "t", ⟨.fnone, .fnone⟩)]
        ["openml-python", "sklearn", "scikit-learn", "python",
          "sklearn_0.0"]) := by
    simp +decide [serializeModel, extractInformation, extractGo,
      serializeSklearn, serializeList, classifyParam, isSeqOfSeqsSameType,
      nestedSimpleTypes, seqElems, serIsTuple, serIsList, isSimpleSer,
      flattenAll, serEmptySized, dumpsSer, dumpsSerList, sortByKey,
      insertSorted, strLe, charListLe, checkDupStack, buildFlowName,
      buildSubNames, strTail, getExternalVersionString, firstDotSegment,
      splitSep, splitSepGo, joinCommas, sortedDedup, sortedInsertUnique,
      splitCommas, flowInit, akeys, alookup, omlMarker, Model.params,
      Model.classPath, exbind_ok, exbind_error, listStartsWith,
      listContainsSub]
  rw [hser, exbind_ok]
  exact ⟨rfl, by simp⟩

mutual

/-- The forward walker's image of a plain (flow-free, tuple-free) value. -/
def plainToSer : MVal → SerVal
  | .mnone => .snull
  | .mbool b => .sbool b
  | .mint n => .sint n
  | .mstrRaw s => .sstrRaw s
  | .mstrParsed j => .sstrParsed j
  | .mlist xs => .slist (plainToSerList xs)
  | .mdict es => .sdict (plainToSerDict es)
  | .mtype t => serializeType t
  | .mfunc p => serializeFunction p
  | .mtuple xs => .snull
  | .mrv _ _ _ _ _ => .snull
  | .mcv _ _ => .snull
  | .mmodel _ => .snull

def plainToSerList : List MVal → List SerVal
  | [] => []
  | x :: rest => plainToSer x :: plainToSerList rest

def plainToSerDict : List (String × MVal) → List (String × SerVal)
  | [] => []
  | (k, v) :: rest => (k, plainToSer v) :: plainToSerDict rest

end

mutual

/-- The parsed form of the JSON dump of a plain value. -/
def plainToJ : MVal → JVal
  | .mnone => .jnull
  | .mbool b => .jbool b
  | .mint n => .jint n
  | .mstrRaw s => .jstrRaw s
  | .mstrParsed j => .jstrParsed j
  | .mlist xs => .jarr (plainToJList xs)
  | .mdict es => .jobj (plainToJDict es)
  | .mtype t => .jobj [(omlMarker, .jstrRaw "type"),
      ("value", .jstrRaw t.typeName)]
  | .mfunc p => .jobj [(omlMarker, .jstrRaw "function"),
      ("value", .jstrRaw p)]
  | .mtuple xs => .jnull
  | .mrv _ _ _ _ _ => .jnull
  | .mcv _ _ => .jnull
  | .mmodel _ => .jnull

def plainToJList : List MVal → List JVal
  | [] => []
  | x :: rest => plainToJ x :: plainToJList rest

def plainToJDict : List (String × MVal) → List (String × JVal)
  | [] => []
  | (k, v) :: rest => (k, plainToJ v) :: plainToJDict rest

end

/-- The plain fragment of the value universe: JSON primitives with nested
member strings kept raw, lists, sorted string-keyed mappings free of the
marker key, and the `type` and `function` special values with resolvable
paths.  Tuples, frozen distributions, cross-validators and nested
estimators are outside this fragment. -/
inductive Plain (ct : String → Option (List String)) : MVal → Prop where
  | pnone : Plain ct .mnone
  | pbool (b : Bool) : Plain ct (.mbool b)
  | pint (n : Int) : Plain ct (.mint n)
  | pstrRaw (s : String) : Plain ct (.mstrRaw s)
  | plist {xs : List MVal} (h : ∀ x ∈ xs, Plain ct x) :
      Plain ct (.mlist xs)
  | pdict {es : List (String × MVal)} (hsorted : sortByKey es = es)
      (hmark : alookup es omlMarker = none)
      (h : ∀ p ∈ es, Plain ct p.2) : Plain ct (.mdict es)
  | ptype (t : NumType) : Plain ct (.mtype t)
  | pfunc {p : String} (hdot : hasDotSegments p = true)
      (hct : (ct p).isSome) : Plain ct (.mfunc p)

theorem serializeList_of_pointwise (env : String → String)
    (xs : List MVal)
    (h : ∀ x ∈ xs, serializeSklearn env x = .ok (plainToSer x)) :
    serializeList env xs = .ok (plainToSerList xs) := by
  induction xs with
  | nil => simp [serializeList, plainToSerList]
  | cons x rest ih =>
      simp only [serializeList, h x (List.mem_cons_self _ _), exbind_ok,
        ih (fun y hy => h y (List.mem_cons_of_mem _ hy)), plainToSerList]

theorem serializeDict_of_pointwise (env : String → String)
    (es : List (String × MVal))
    (h : ∀ p ∈ es, serializeSklearn env p.2 = .ok (plainToSer p.2)) :
    serializeDict env es = .ok (plainToSerDict es) := by
  induction es with
  | nil => simp [serializeDict, plainToSerDict]
  | cons p rest ih =>
      obtain ⟨k, v⟩ := p
      simp only [serializeDict, h (k, v) (List.mem_cons_self _ _),
        exbind_ok,
        ih (fun q hq => h q (List.mem_cons_of_mem _ hq)), plainToSerDict]

theorem plain_serialize {ct : String → Option (List String)}
    (env : String → String) {v : MVal} (h : Plain ct v) :
    serializeSklearn env v = .ok (plainToSer v) := by
  induction h with
  | pnone => simp [serializeSklearn, plainToSer]
  | pbool b => simp [serializeSklearn, plainToSer]
  | pint n => simp [serializeSklearn, plainToSer]
  | pstrRaw s => simp [serializeSklearn, plainToSer]
  | plist h ih =>
      simp only [serializeSklearn,
        serializeList_of_pointwise env _ ih, exbind_ok, plainToSer]
  | pdict hsorted hmark h ih =>
      simp only [serializeSklearn, hsorted,
        serializeDict_of_pointwise env _ ih, exbind_ok, plainToSer]
  | ptype t => simp [serializeSklearn, plainToSer]
  | pfunc hdot hct => simp [serializeSklearn, plainToSer]

theorem dumpsList_of_pointwise (xs : List MVal)
    (h : ∀ x ∈ xs, dumpsSer (plainToSer x) = .ok (plainToJ x)) :
    dumpsSerList (plainToSerList xs) = .ok (plainToJList xs) := by
  induction xs with
  | nil => rfl
  | cons x rest ih =>
      simp only [plainToSerList, dumpsSerList,
        h x (List.mem_cons_self _ _), exbind_ok,
        ih (fun y hy => h y (List.mem_cons_of_mem _ hy)), plainToJList]

theorem dumpsDict_of_pointwise (es : List (String × MVal))
    (h : ∀ p ∈ es, dumpsSer (plainToSer p.2) = .ok (plainToJ p.2)) :
    dumpsSerDict (plainToSerDict es) = .ok (plainToJDict es) := by
  induction es with
  | nil => rfl
  | cons p rest ih =>
      obtain ⟨k, v⟩ := p
      simp only [plainToSerDict, dumpsSerDict,
        h (k, v) (List.mem_cons_self _ _), exbind_ok,
        ih (fun q hq => h q (List.mem_cons_of_mem _ hq)), plainToJDict]

theorem plain_dumps {ct : String → Option (List String)} {v : MVal}
    (h : Plain ct v) : dumpsSer (plainToSer v) = .ok (plainToJ v) := by
  induction h with
  | pnone => rfl
  | pbool b => rfl
  | pint n => rfl
  | pstrRaw s => rfl
  | plist h ih =>
      simp only [plainToSer, dumpsSer,
        dumpsList_of_pointwise _ ih, exbind_ok, plainToJ]
  | pdict hsorted hmark h ih =>
      simp only [plainToSer, dumpsSer,
        dumpsDict_of_pointwise _ ih, exbind_ok, plainToJ]
  | ptype t => rfl
  | pfunc hdot hct => rfl

theorem numTypeOfName_typeName (t : NumType) :
    numTypeOfName t.typeName = some t := by
  cases t <;> rfl

theorem jdd_eq_map (es : List (String × MVal)) :
    jvalToDDict (plainToJDict es) =
      es.map (fun p => (p.1, jvalToD (plainToJ p.2))) := by
  induction es with
  | nil => rfl
  | cons p rest ih =>
      obtain ⟨k, v⟩ := p
      rw [plainToJDict, jvalToDDict, ih]
      rfl

theorem alookup_jmap_none (es : List (String × MVal)) (k : String)
    (h : alookup es k = none) :
    alookup (jvalToDDict (plainToJDict es)) k = none := by
  induction es with
  | nil => rfl
  | cons p rest ih =>
      obtain ⟨k2, v⟩ := p
      rw [plainToJDict, jvalToDDict]
      rw [alookup] at h ⊢
      by_cases hk : k2 = k
      · rw [if_pos hk] at h
        cases h
      · rw [if_neg hk] at h ⊢
        exact ih h

theorem insertSorted_map_snd {α β : Type} (g : α → β) (q : String × α)
    (l : List (String × α)) :
    insertSorted (q.1, g q.2) (l.map (fun p => (p.1, g p.2))) =
      (insertSorted q l).map (fun p => (p.1, g p.2)) := by
  induction l with
  | nil => rfl
  | cons r rest ih =>
      rw [List.map_cons, insertSorted, insertSorted]
      by_cases hle : strLe q.1 r.1
      · rw [if_pos hle, if_pos hle]
        rfl
      · rw [if_neg hle, if_neg hle]
        rw [List.map_cons, ih]

theorem sortByKey_map_snd {α β : Type} (g : α → β)
    (l : List (String × α)) :
    sortByKey (l.map (fun p => (p.1, g p.2))) =
      (sortByKey l).map (fun p => (p.1, g p.2)) := by
  induction l with
  | nil => rfl
  | cons p rest ih =>
      have e1 : sortByKey ((p.1, g p.2) ::
          rest.map (fun p => (p.1, g p.2))) =
          insertSorted (p.1, g p.2)
            (sortByKey (rest.map (fun p => (p.1, g p.2)))) := rfl
      have e2 : sortByKey (p :: rest) = insertSorted p (sortByKey rest) :=
        rfl
      rw [List.map_cons, e1, ih, insertSorted_map_snd, e2]

theorem plain_deserializeList_core (ct : String → Option (List String))
    (xs : List MVal)
    (hIH : ∀ x ∈ xs, ∃ N, ∀ fuel, N ≤ fuel →
      ∀ (c : Option (List (String × Flow))) (i : Bool),
        deserialize ct fuel (jvalToD (plainToJ x)) c i = .ok (x, c)) :
    ∃ N, ∀ fuel, N ≤ fuel →
      ∀ (c : Option (List (String × Flow))) (i : Bool),
        deserializeList ct fuel (jvalToDList (plainToJList xs)) c i =
          .ok (xs, c) := by
  induction xs with
  | nil => exact ⟨0, fun fuel _ c i => by cases fuel <;> rfl⟩
  | cons x rest ih =>
      obtain ⟨N1, h1⟩ := hIH x (List.mem_cons_self _ _)
      obtain ⟨N2, h2⟩ := ih (fun y hy => hIH y (List.mem_cons_of_mem _ hy))
      refine ⟨max N1 N2 + 1, fun fuel hf c i => ?_⟩
      obtain ⟨f, rfl⟩ : ∃ f, fuel = f + 1 := ⟨fuel - 1, by omega⟩
      simp only [plainToJList, jvalToDList, deserializeList,
        h1 f (by omega) c i, exbind_ok, h2 f (by omega) c i]

theorem plain_deserializeDict_core (ct : String → Option (List String))
    (es : List (String × MVal))
    (hIH : ∀ p ∈ es, ∃ N, ∀ fuel, N ≤ fuel →
      ∀ (c : Option (List (String × Flow))) (i : Bool),
        deserialize ct fuel (jvalToD (plainToJ p.2)) c i = .ok (p.2, c)) :
    ∃ N, ∀ fuel, N ≤ fuel →
      ∀ (c : Option (List (String × Flow))) (i : Bool),
        deserializeDictD ct fuel (jvalToDDict (plainToJDict es)) c i =
          .ok (es, c) := by
  induction es with
  | nil => exact ⟨0, fun fuel _ c i => by cases fuel <;> rfl⟩
  | cons p rest ih =>
      obtain ⟨k, v⟩ := p
      obtain ⟨N1, h1⟩ := hIH (k, v) (List.mem_cons_self _ _)
      obtain ⟨N2, h2⟩ := ih (fun q hq => hIH q (List.mem_cons_of_mem _ hq))
      refine ⟨max N1 N2 + 1, fun fuel hf c i => ?_⟩
      obtain ⟨f, rfl⟩ : ∃ f, fuel = f + 1 := ⟨fuel - 1, by omega⟩
      simp only [plainToJDict, jvalToDDict, deserializeDictD,
        h1 f (by omega) c i, exbind_ok, h2 f (by omega) c i]

theorem plain_deserialize_core {ct : String → Option (List String)}
    {v : MVal} (h : Plain ct v) :
    ∃ N, ∀ fuel, N ≤ fuel →
      ∀ (c : Option (List (String × Flow))) (i : Bool),
        deserialize ct fuel (jvalToD (plainToJ v)) c i = .ok (v, c) := by
  induction h with
  | pnone =>
      refine ⟨1, fun fuel hf c i => ?_⟩
      obtain ⟨f, rfl⟩ : ∃ f, fuel = f + 1 := ⟨fuel - 1, by omega⟩
      rfl
  | pbool b =>
      refine ⟨1, fun fuel hf c i => ?_⟩
      obtain ⟨f, rfl⟩ : ∃ f, fuel = f + 1 := ⟨fuel - 1, by omega⟩
      rfl
  | pint n =>
      refine ⟨1, fun fuel hf c i => ?_⟩
      obtain ⟨f, rfl⟩ : ∃ f, fuel = f + 1 := ⟨fuel - 1, by omega⟩
      rfl
  | pstrRaw s =>
      refine ⟨1, fun fuel hf c i => ?_⟩
      obtain ⟨f, rfl⟩ : ∃ f, fuel = f + 1 := ⟨fuel - 1, by omega⟩
      rfl
  | plist h ih =>
      obtain ⟨N, hN⟩ := plain_deserializeList_core ct _ ih
      refine ⟨N + 1, fun fuel hf c i => ?_⟩
      obtain ⟨f, rfl⟩ : ∃ f, fuel = f + 1 := ⟨fuel - 1, by omega⟩
      simp only [plainToJ, jvalToD, deserialize,
        hN f (by omega) c i]
  | pdict hsorted hmark h ih =>
      rename_i es
      obtain ⟨N, hN⟩ := plain_deserializeDict_core ct _ ih
      refine ⟨N + 1, fun fuel hf c i => ?_⟩
      obtain ⟨f, rfl⟩ : ∃ f, fuel = f + 1 := ⟨fuel - 1, by omega⟩
      have hm2 : alookup (jvalToDDict (plainToJDict es)) omlMarker =
          none := alookup_jmap_none _ _ hmark
      have hs2 : sortByKey (jvalToDDict (plainToJDict es)) =
          jvalToDDict (plainToJDict es) := by
        rw [jdd_eq_map, sortByKey_map_snd (fun x => jvalToD (plainToJ x)),
          hsorted, ← jdd_eq_map]
      simp only [plainToJ, jvalToD, deserialize, hm2, hs2,
        hN f (by omega) c i]
  | ptype t =>
      refine ⟨1, fun fuel hf c i => ?_⟩
      obtain ⟨f, rfl⟩ : ∃ f, fuel = f + 1 := ⟨fuel - 1, by omega⟩
      cases t <;> rfl
  | pfunc hdot hct =>
      rename_i p
      obtain ⟨ds, hds⟩ := Option.isSome_iff_exists.mp hct
      refine ⟨1, fun fuel hf c i => ?_⟩
      obtain ⟨f, rfl⟩ : ∃ f, fuel = f + 1 := ⟨fuel - 1, by omega⟩
      simp +decide [plainToJ, jvalToD, jvalToDDict, deserialize,
        deserializeFunctionD, alookup, omlMarker, hdot, hds]

theorem plain_deserialize {ct : String → Option (List String)}
    {v : MVal} (h : Plain ct v) :
    ∃ N, ∀ fuel, N ≤ fuel →
      ∀ (c : Option (List (String × Flow))) (i : Bool),
        deserialize ct fuel (.dstrParsed (plainToJ v)) c i = .ok (v, c) := by
  obtain ⟨N, hN⟩ := plain_deserialize_core h
  refine ⟨N + 1, fun fuel hf c i => ?_⟩
  obtain ⟨f, rfl⟩ : ∃ f, fuel = f + 1 := ⟨fuel - 1, by omega⟩
  cases h with
  | pstrRaw s => rfl
  | pnone =>
      simp only [plainToJ, deserialize]
      exact hN f (by omega) c i
  | pbool b =>
      simp only [plainToJ, deserialize]
      exact hN f (by omega) c i
  | pint n =>
      simp only [plainToJ, deserialize]
      exact hN f (by omega) c i
  | plist h2 =>
      simp only [plainToJ, deserialize]
      exact hN f (by omega) c i
  | pdict hsorted hmark h2 =>
      simp only [plainToJ, deserialize]
      exact hN f (by omega) c i
  | ptype t =>
      simp only [plainToJ, deserialize]
      exact hN f (by omega) c i
  | pfunc hdot hct =>
      simp only [plainToJ, deserialize]
      exact hN f (by omega) c i

/-- The parsed component-reference envelope that `classifyParam` emits for a
directly-nested component under parameter key `k`. -/
def refEnvelopeJ (k : String) : JVal :=
  .jobj [(omlMarker, .jstrRaw "component_reference"),
    ("value", .jobj [("key", .jstrRaw k), ("step_name", .jnull)])]

/-- The stored parameter value of a stable model's parameter: a reference
envelope for a directly-nested component, the JSON dump otherwise. -/
def extrFV (k : String) : MVal → FVal
  | .mmodel _ => .fstrParsed (refEnvelopeJ k)
  | v => .fstrParsed (plainToJ v)

mutual

/-- The flow `_serialize_model` produces on a stable model (mirror
definition, to be compared with `serializeModel`). -/
def flowOf (env : String → String) (m : Model) : Flow :=
  Flow.mk
    (buildFlowName m.classPath ((extrSubs env m.params).map Prod.fst)
      (extrSubs env m.params))
    (some m.classPath) none none none none
    (getExternalVersionString env m.classPath (extrSubs env m.params))
    "Automatically created scikit-learn flow."
    (some "English")
    (some ("sklearn==" ++ env "sklearn" ++ "\nnumpy>=1.6.1\nscipy>=0.9"))
    (extrSubs env m.params)
    (m.params.map (fun p => (PName.strN p.1, extrFV p.1 p.2)))
    (m.params.map (fun p => (PName.strN p.1,
      MetaInfo.mk FVal.fnone FVal.fnone)))
    ["openml-python", "sklearn", "scikit-learn", "python",
      "sklearn_" ++ env "sklearn"]
termination_by sizeOf m
decreasing_by
  all_goals
    cases m with
    | mk c p =>
        simp [Model.params]
        try omega

/-- The ordered sub-component dictionary a stable parameter list
contributes: one entry per directly-nested component. -/
def extrSubs (env : String → String) :
    List (String × MVal) → List (String × Flow)
  | [] => []
  | (k, .mmodel sub) :: rest => (k, flowOf env sub) :: extrSubs env rest
  | _ :: rest => extrSubs env rest
termination_by l => sizeOf l
decreasing_by
  all_goals
    simp
    try omega

end

/-- The serializer's image of a stable parameter value. -/
def serOfParam (env : String → String) : MVal → SerVal
  | .mmodel m => .sflow (flowOf env m)
  | v => plainToSer v

mutual

/-- A stable parameter value: a plain value that is neither shaped like a
pipeline-steps sequence nor empty-and-sized, or a directly-nested stable
estimator. -/
inductive SParamV (env : String → String)
    (ct : String → Option (List String)) : MVal → Prop where
  | plain {v : MVal} (hp : Plain ct v)
      (hguard : ¬ (isSeqOfSeqsSameType (plainToSer v) = true ∧
        ¬ nestedSimpleTypes (plainToSer v) = true))
      (hsz : serEmptySized (plainToSer v) = false) : SParamV env ct v
  | comp {m : Model} (hm : StableModel env ct m) :
      SParamV env ct (.mmodel m)

/-- A stable model: sorted duplicate-free parameters, stable parameter
values, no duplicate names in the serialized component forest, and an
importable dotted sklearn class path. -/
inductive StableModel (env : String → String)
    (ct : String → Option (List String)) : Model → Prop where
  | intro (m : Model)
      (hsorted : sortByKey m.params = m.params)
      (hnd : (m.params.map Prod.fst).Nodup)
      (hvals : ∀ p ∈ m.params, SParamV env ct p.2)
      (hdup : checkDupStack (((extrSubs env m.params).map Prod.snd).reverse)
        [] = .ok ())
      (hdot : hasDotSegments m.classPath = true)
      (hct : (ct m.classPath).isSome = true)
      (hsk : firstDotSegment m.classPath = "sklearn") :
      StableModel env ct m

end

theorem StableModel.sorted {env : String → String}
    {ct : String → Option (List String)} {m : Model}
    (h : StableModel env ct m) : sortByKey m.params = m.params := by
  cases h
  assumption

theorem StableModel.nodup {env : String → String}
    {ct : String → Option (List String)} {m : Model}
    (h : StableModel env ct m) : (m.params.map Prod.fst).Nodup := by
  cases h
  assumption

theorem StableModel.vals {env : String → String}
    {ct : String → Option (List String)} {m : Model}
    (h : StableModel env ct m) : ∀ p ∈ m.params, SParamV env ct p.2 := by
  cases h
  assumption

theorem StableModel.dup {env : String → String}
    {ct : String → Option (List String)} {m : Model}
    (h : StableModel env ct m) :
    checkDupStack (((extrSubs env m.params).map Prod.snd).reverse) [] =
      .ok () := by
  cases h
  assumption

theorem StableModel.dot {env : String → String}
    {ct : String → Option (List String)} {m : Model}
    (h : StableModel env ct m) : hasDotSegments m.classPath = true := by
  cases h
  assumption

theorem StableModel.ctSome {env : String → String}
    {ct : String → Option (List String)} {m : Model}
    (h : StableModel env ct m) : (ct m.classPath).isSome = true := by
  cases h
  assumption

theorem StableModel.sk {env : String → String}
    {ct : String → Option (List String)} {m : Model}
    (h : StableModel env ct m) : firstDotSegment m.classPath = "sklearn" := by
  cases h
  assumption

theorem odinsert_fresh2 {α β : Type} [DecidableEq α] {l : List (α × β)}
    {k : α} (h : k ∉ akeys l) (v : β) : odinsert l k v = l ++ [(k, v)] := by
  simp [odinsert, h]

theorem saddE_fresh {α : Type} [DecidableEq α] {l : List α} {x : α}
    (h : x ∉ l) : saddE l x = l ++ [x] := by
  simp [saddE, h]

theorem extrSubs_nil (env : String → String) : extrSubs env [] = [] := by
  simp [extrSubs]

theorem extrSubs_cons_model (env : String → String) (k : String)
    (sub : Model) (rest : List (String × MVal)) :
    extrSubs env ((k, .mmodel sub) :: rest) =
      (k, flowOf env sub) :: extrSubs env rest := by
  simp [extrSubs]

theorem extrSubs_cons_plain (env : String → String)
    {ct : String → Option (List String)} {v : MVal} (hp : Plain ct v)
    (k : String) (rest : List (String × MVal)) :
    extrSubs env ((k, v) :: rest) = extrSubs env rest := by
  cases hp <;> simp [extrSubs]

theorem mem_akeys_extrSubs (env : String → String)
    {l : List (String × MVal)} {j : String}
    (h : j ∈ akeys (extrSubs env l)) : j ∈ l.map Prod.fst := by
  induction l with
  | nil =>
      rw [extrSubs_nil] at h
      exact absurd h (List.not_mem_nil j)
  | cons p rest ih =>
      obtain ⟨k, v⟩ := p
      cases v <;>
        first
        | (rw [extrSubs_cons_model] at h
           rcases List.mem_cons.mp h with rfl | h2
           · exact List.mem_cons_self _ _
           · exact List.mem_cons_of_mem _ (ih h2))
        | (rw [show extrSubs env ((k, _) :: rest) = extrSubs env rest from
             by simp [extrSubs]] at h
           exact List.mem_cons_of_mem _ (ih h))

theorem extrFV_plain {ct : String → Option (List String)} {v : MVal}
    (hp : Plain ct v) (k : String) :
    extrFV k v = .fstrParsed (plainToJ v) := by
  cases hp <;> rfl

theorem serOfParam_plain {ct : String → Option (List String)} {v : MVal}
    (hp : Plain ct v) (env : String → String) :
    serOfParam env v = plainToSer v := by
  cases hp <;> rfl

theorem dumpsSer_crEnvelope (k : String) :
    dumpsSer (.sdict [(omlMarker, .sstrRaw "component_reference"),
      ("value", .sdict [("key", .sstrRaw k), ("step_name", .snull)])]) =
      .ok (refEnvelopeJ k) := by
  simp [dumpsSer, dumpsSerDict, refEnvelopeJ, exbind_ok]

theorem classifyParam_plain {ct : String → Option (List String)} {v : MVal}
    (hp : Plain ct v)
    (hguard : ¬ (isSeqOfSeqsSameType (plainToSer v) = true ∧
      ¬ nestedSimpleTypes (plainToSer v) = true))
    (hsz : serEmptySized (plainToSer v) = false) (k : String)
    (reserved : List String) (accC : List (String × Flow))
    (accE : List String) :
    classifyParam k (plainToSer v) reserved accC accE =
      .ok (.fstrParsed (plainToJ v), accC, accE) := by
  have hd := plain_dumps hp
  simp only [classifyParam]
  rw [if_neg hguard]
  cases hp <;>
    simp only [plainToSer, serializeType, serializeFunction] at hd hsz ⊢ <;>
    simp [hsz, hd, exbind_ok]

theorem classifyParam_flow (k : String) (f : Flow) (reserved : List String)
    (accC : List (String × Flow)) (accE : List String)
    (hkC : k ∉ akeys accC) (hkE : k ∉ accE) :
    classifyParam k (.sflow f) reserved accC accE =
      .ok (.fstrParsed (refEnvelopeJ k), accC ++ [(k, f)], accE ++ [k]) := by
  simp only [classifyParam]
  rw [if_neg (by simp [isSeqOfSeqsSameType, seqElems])]
  simp [dumpsSer_crEnvelope k, exbind_ok, odinsert_fresh2 hkC,
    saddE_fresh hkE]

mutual

theorem stable_serializeValue (env : String → String)
    (ct : String → Option (List String)) (v : MVal)
    (h : SParamV env ct v) :
    serializeSklearn env v = .ok (serOfParam env v) := by
  cases h with
  | plain hp hguard hsz =>
      rw [plain_serialize env hp, serOfParam_plain hp]
  | comp hm =>
      rename_i sub
      rw [serializeSklearn.eq_def]
      simp only [stable_serializeModel env ct sub hm, exbind_ok, serOfParam]
termination_by (sizeOf v, 0)
decreasing_by
  refine Prod.Lex.left _ _ ?_
  simp
  try omega

theorem stable_extractGo (env : String → String)
    (ct : String → Option (List String)) (reserved : List String)
    (items : List (String × MVal))
    (hvals : ∀ p ∈ items, SParamV env ct p.2)
    (hnd : (items.map Prod.fst).Nodup)
    (accP : List (PName × FVal)) (accM : List (PName × MetaInfo))
    (accC : List (String × Flow)) (accE : List String)
    (hfC : ∀ p ∈ items, p.1 ∉ akeys accC)
    (hfE : ∀ p ∈ items, p.1 ∉ accE) :
    extractGo env reserved items accP accM accC accE =
      .ok (accP ++ items.map (fun p => (PName.strN p.1, extrFV p.1 p.2)),
        accM ++ items.map (fun p => (PName.strN p.1,
          MetaInfo.mk FVal.fnone FVal.fnone)),
        accC ++ extrSubs env items,
        accE ++ (extrSubs env items).map Prod.fst) := by
  match items with
  | [] =>
      rw [extrSubs_nil]
      simp [extractGo]
  | (k, v) :: rest =>
      have hv := hvals (k, v) (List.mem_cons_self _ _)
      have hvr : ∀ p ∈ rest, SParamV env ct p.2 :=
        fun p hp => hvals p (List.mem_cons_of_mem _ hp)
      have hndr : (rest.map Prod.fst).Nodup :=
        (List.nodup_cons.mp (by simpa using hnd)).2
      have hkr : k ∉ rest.map Prod.fst :=
        (List.nodup_cons.mp (by simpa using hnd)).1
      rw [extractGo.eq_def]
      simp only [stable_serializeValue env ct v hv, exbind_ok]
      cases hv with
      | plain hp hguard hsz =>
          rw [serOfParam_plain hp,
            classifyParam_plain hp hguard hsz k reserved accC accE]
          simp only [exbind_ok]
          rw [stable_extractGo env ct reserved rest hvr hndr
            (accP ++ [(PName.strN k, FVal.fstrParsed (plainToJ v))])
            (accM ++ [(PName.strN k, MetaInfo.mk FVal.fnone FVal.fnone)])
            accC accE
            (fun p hp2 => hfC p (List.mem_cons_of_mem _ hp2))
            (fun p hp2 => hfE p (List.mem_cons_of_mem _ hp2))]
          rw [extrSubs_cons_plain env hp]
          simp [extrFV_plain hp, List.append_assoc]
      | comp hm =>
          rename_i sub
          have hkC : k ∉ akeys accC := hfC (k, .mmodel sub)
            (List.mem_cons_self _ _)
          have hkE : k ∉ accE := hfE (k, .mmodel sub)
            (List.mem_cons_self _ _)
          rw [show serOfParam env (.mmodel sub) = .sflow (flowOf env sub)
            from rfl,
            classifyParam_flow k (flowOf env sub) reserved accC accE hkC hkE]
          simp only [exbind_ok]
          rw [stable_extractGo env ct reserved rest hvr hndr
            (accP ++ [(PName.strN k, FVal.fstrParsed (refEnvelopeJ k))])
            (accM ++ [(PName.strN k, MetaInfo.mk FVal.fnone FVal.fnone)])
            (accC ++ [(k, flowOf env sub)]) (accE ++ [k])
            (fun p hp2 => by
              simp only [akeys, List.map_append, List.mem_append,
                List.map_cons, List.map_nil, List.mem_singleton]
              rintro (hin | rfl)
              · exact hfC p (List.mem_cons_of_mem _ hp2) hin
              · exact hkr (List.mem_map_of_mem Prod.fst hp2))
            (fun p hp2 => by
              simp only [List.mem_append, List.mem_singleton]
              rintro (hin | rfl)
              · exact hfE p (List.mem_cons_of_mem _ hp2) hin
              · exact hkr (List.mem_map_of_mem Prod.fst hp2))]
          rw [extrSubs_cons_model]
          simp [extrFV, List.append_assoc]
termination_by (sizeOf items, 0)
decreasing_by
  all_goals
    refine Prod.Lex.left _ _ ?_
    simp
    try omega

theorem stable_serializeModel (env : String → String)
    (ct : String → Option (List String)) (m : Model)
    (h : StableModel env ct m) :
    serializeModel env m = .ok (flowOf env m) := by
  have hx : extractInformation env m =
      .ok (m.params.map (fun p => (PName.strN p.1, extrFV p.1 p.2)),
        m.params.map (fun p => (PName.strN p.1,
          MetaInfo.mk FVal.fnone FVal.fnone)),
        extrSubs env m.params,
        (extrSubs env m.params).map Prod.fst) := by
    rw [extractInformation.eq_def, h.sorted]
    have := stable_extractGo env ct (m.params.map Prod.fst) m.params
      h.vals h.nodup [] [] [] []
      (fun p _ => by simp [akeys]) (fun p _ => by simp)
    simpa using this
  rw [serializeModel.eq_def, hx]
  simp only [h.dup, exbind_ok]
  have hkeys : akeys (m.params.map (fun p => (PName.strN p.1,
      MetaInfo.mk FVal.fnone FVal.fnone))) =
      akeys (m.params.map (fun p => (PName.strN p.1, extrFV p.1 p.2))) := by
    simp [akeys, List.map_map]
  rw [flowInit]
  rw [if_neg (by
    simp only [List.any_eq_true, not_exists, not_and, hkeys]
    intro x hx2
    simp [hx2])]
  rw [if_neg (by
    simp only [List.any_eq_true, not_exists, not_and, ← hkeys]
    intro x hx2
    simp [hx2])]
  rw [flowOf]
termination_by (sizeOf m, 1)
decreasing_by
  all_goals
    refine Prod.Lex.left _ _ ?_
    first
    | (cases m with
       | mk c p =>
           simp [Model.params]
           try omega)
    | (simp
       try omega)

end

theorem listStartsWith_self_append {α : Type} [DecidableEq α]
    (p t : List α) : listStartsWith p (p ++ t) = true := by
  induction p with
  | nil => rfl
  | cons a rest ih => simp [listStartsWith, ih]

theorem listStartsWith_append_right {α : Type} [DecidableEq α]
    {p l : List α} (h : listStartsWith p l = true) (t : List α) :
    listStartsWith p (l ++ t) = true := by
  induction p generalizing l with
  | nil => rfl
  | cons a rest ih =>
      cases l with
      | nil => exact absurd h (by simp [listStartsWith])
      | cons b l2 =>
          rw [listStartsWith] at h
          obtain ⟨rfl, h2⟩ := by simpa using h
          simp [listStartsWith, ih h2]

theorem listStartsWith_cons2 {α : Type} [DecidableEq α] {p l : List α}
    (c : α) (h : listStartsWith p l = true) :
    listStartsWith (c :: p) (c :: l) = true := by
  simp [listStartsWith, h]

theorem listContainsSub_of_startsWith {α : Type} [DecidableEq α]
    {pat l : List α} (h : listStartsWith pat l = true) :
    listContainsSub pat l = true := by
  cases l with
  | nil => exact h
  | cons c rest => simp [listContainsSub, h]

theorem listContainsSub_cons {α : Type} [DecidableEq α] {pat l : List α}
    (c : α) (h : listContainsSub pat l = true) :
    listContainsSub pat (c :: l) = true := by
  simp [listContainsSub, h]

theorem listContainsSub_append_left {α : Type} [DecidableEq α]
    {pat l : List α} (t : List α) (h : listContainsSub pat l = true) :
    listContainsSub pat (t ++ l) = true := by
  induction t with
  | nil => exact h
  | cons c rest ih => exact listContainsSub_cons c ih

theorem mem_sortedInsertUnique_self (x : String) (l : List String) :
    x ∈ sortedInsertUnique x l := by
  induction l with
  | nil => exact List.mem_cons_self _ _
  | cons y rest ih =>
      by_cases h1 : x = y
      · simp [sortedInsertUnique, h1]
      · by_cases h2 : x ≤ y
        · simp [sortedInsertUnique, h1, h2]
        · simp only [sortedInsertUnique, if_neg h1, if_neg h2]
          exact List.mem_cons_of_mem _ ih

theorem mem_sortedInsertUnique_of_mem (x b : String) {l : List String}
    (h : b ∈ l) : b ∈ sortedInsertUnique x l := by
  induction l with
  | nil => exact absurd h (List.not_mem_nil b)
  | cons y rest ih =>
      by_cases h1 : x = y
      · simpa [sortedInsertUnique, h1] using h
      · by_cases h2 : x ≤ y
        · simp only [sortedInsertUnique, if_neg h1, if_pos h2]
          exact List.mem_cons_of_mem _ h
        · simp only [sortedInsertUnique, if_neg h1, if_neg h2]
          rcases List.mem_cons.mp h with rfl | h3
          · exact List.mem_cons_self _ _
          · exact List.mem_cons_of_mem _ (ih h3)

theorem mem_sortedDedup {x : String} {l : List String} (h : x ∈ l) :
    x ∈ sortedDedup l := by
  induction l with
  | nil => exact absurd h (List.not_mem_nil x)
  | cons y rest ih =>
      rcases List.mem_cons.mp h with rfl | h2
      · exact mem_sortedInsertUnique_self x _
      · exact mem_sortedInsertUnique_of_mem y x (ih h2)

theorem joinCommas_sklearn {x : String} {l : List String} (hm : x ∈ l)
    (hx : listStartsWith "sklearn==".data x.data = true) :
    (listStartsWith "sklearn==".data (joinCommas l).data ||
      listContainsSub ",sklearn==".data (joinCommas l).data) = true := by
  induction l with
  | nil => exact absurd hm (List.not_mem_nil x)
  | cons y rest ih =>
      cases rest with
      | nil =>
          obtain rfl : x = y := by simpa using hm
          simp [joinCommas, hx]
      | cons z rs =>
          have hdata : (joinCommas (y :: z :: rs)).data =
              y.data ++ (",".data ++ (joinCommas (z :: rs)).data) := by
            simp [joinCommas]
          rcases List.mem_cons.mp hm with rfl | hm2
          · rw [hdata, ← List.append_assoc]
            have h1 := listStartsWith_append_right hx (",".data)
            have h2 := listStartsWith_append_right h1
              ((joinCommas (z :: rs)).data)
            exact Bool.or_eq_true_iff.mpr (Or.inl h2)
          · have hrec := ih hm2
            rcases Bool.or_eq_true_iff.mp hrec with hsw | hcs
            · have h1 : listStartsWith (",sklearn==".data)
                  (",".data ++ (joinCommas (z :: rs)).data) = true := by
                have he : (",sklearn==".data) = ',' :: "sklearn==".data := rfl
                rw [he]
                exact listStartsWith_cons2 ',' hsw
              have h2 := listContainsSub_of_startsWith h1
              have h3 := listContainsSub_append_left y.data h2
              rw [hdata]
              exact Bool.or_eq_true_iff.mpr (Or.inr h3)
            · have h2 := listContainsSub_append_left (",".data) hcs
              have h3 := listContainsSub_append_left y.data h2
              rw [hdata]
              exact Bool.or_eq_true_iff.mpr (Or.inr h3)

theorem isSklearnFlow_flowOf (env : String → String) (m : Model)
    (hsk : firstDotSegment m.classPath = "sklearn") :
    isSklearnFlow (flowOf env m) = true := by
  have hev : (flowOf env m).externalVersion =
      getExternalVersionString env m.classPath (extrSubs env m.params) := by
    rw [flowOf]
    rfl
  rw [isSklearnFlow, hev, getExternalVersionString]
  simp only [hsk]
  have hmem : ("sklearn" ++ "==" ++ env "sklearn") ∈
      sortedDedup (["sklearn" ++ "==" ++ env "sklearn",
        "openml==" ++ env "openml"]
        ++ (extrSubs env m.params).flatMap
          (fun p => splitCommas p.2.externalVersion)) :=
    mem_sortedDedup (by simp)
  have hstart : listStartsWith "sklearn==".data
      ("sklearn" ++ "==" ++ env "sklearn").data = true := by
    have hD : ("sklearn" ++ "==" ++ env "sklearn").data =
        "sklearn==".data ++ (env "sklearn").data := by
      simp [String.data_append]
    rw [hD]
    exact listStartsWith_self_append _ _
  exact joinCommas_sklearn hmem hstart

theorem toKwargs_map_strN (l : List (String × MVal)) :
    toKwargs (l.map fun p => (PName.strN p.1, p.2)) = .ok l := by
  induction l with
  | nil => rfl
  | cons p rest ih =>
      obtain ⟨k, v⟩ := p
      simp [toKwargs, ih]

theorem modelEta (m : Model) : Model.mk m.classPath m.params = m := by
  cases m
  rfl

theorem deserializeComponents_empty (ct : String → Option (List String))
    (l : List (String × Flow)) :
    ∀ fuel, l.length ≤ fuel → ∀ pdict,
      deserializeComponents ct fuel l [] pdict = .ok pdict := by
  induction l with
  | nil =>
      intro fuel _ pdict
      cases fuel <;> rfl
  | cons p rest ih =>
      intro fuel hf pdict
      obtain ⟨f, rfl⟩ : ∃ f, fuel = f + 1 := ⟨fuel - 1, by
        simp at hf
        omega⟩
      obtain ⟨k, v⟩ := p
      have hr : rest.length ≤ f := by
        simp at hf
        omega
      by_cases hk : (PName.strN k) ∈ pdict.map Prod.fst
      · simp [deserializeComponents, hk, ih f hr pdict]
      · simp [deserializeComponents, hk, akeys, ih f hr pdict]

theorem ref_envelope_decode (ct : String → Option (List String))
    (k : String) (pool : List (String × Flow)) (f0 : Flow)
    (component : MVal) (cp : Option (List (String × Flow))) (N0 : Nat)
    (hpool : alookup pool k = some f0)
    (hcomp : ∀ fuel, N0 ≤ fuel →
      deserialize ct fuel (.dflow f0) none false = .ok (component, cp)) :
    ∀ fuel, max N0 4 + 3 ≤ fuel →
      deserialize ct fuel (.dstrParsed (refEnvelopeJ k)) (some pool) false =
        .ok (component, some (aerase pool k)) := by
  intro fuel hf
  have hmN := Nat.le_max_left N0 4
  have hm4 := Nat.le_max_right N0 4
  obtain ⟨F3, rfl⟩ : ∃ F3, fuel = F3 + 3 := ⟨fuel - 3, by omega⟩
  have hF4 : 4 ≤ F3 := by omega
  have hFN : N0 ≤ F3 := by omega
  have hval : deserialize ct F3
      (.ddict [("key", DVal.dstrRaw k), ("step_name", DVal.dnull)])
      none false =
      .ok (.mdict [("key", .mstrRaw k), ("step_name", .mnone)], none) := by
    obtain ⟨G, rfl⟩ : ∃ G, F3 = G + 4 := ⟨F3 - 4, by omega⟩
    simp +decide [deserialize, deserializeDictD, alookup, omlMarker,
      sortByKey, insertSorted, strLe, charListLe, exbind_ok]
  simp +decide [deserialize, deserializeReference, refEnvelopeJ, jvalToD,
    jvalToDDict, alookup, omlMarker, hval, hpool, hcomp F3 hFN, exbind_ok]

theorem sparamv_cases {env : String → String}
    {ct : String → Option (List String)} {v : MVal}
    (h : SParamV env ct v) :
    (Plain ct v ∧
      ¬ (isSeqOfSeqsSameType (plainToSer v) = true ∧
        ¬ nestedSimpleTypes (plainToSer v) = true) ∧
      serEmptySized (plainToSer v) = false) ∨
    (∃ sub, v = .mmodel sub ∧ StableModel env ct sub) := by
  cases h with
  | plain hp hguard hsz => exact Or.inl ⟨hp, hguard, hsz⟩
  | comp hm => exact Or.inr ⟨_, rfl, hm⟩

mutual

theorem stable_deserializeFlow (env : String → String)
    (ct : String → Option (List String)) (m : Model)
    (h : StableModel env ct m) :
    ∃ N, ∀ fuel, N ≤ fuel →
      deserialize ct fuel (.dflow (flowOf env m)) none false =
        .ok (.mmodel m, none) := by
  obtain ⟨N1, h1⟩ := stable_deserializeParamsLoop env ct m.params
    h.vals h.nodup
  refine ⟨max N1 (extrSubs env m.params).length + 2, fun fuel hf => ?_⟩
  have hmN := Nat.le_max_left N1 (extrSubs env m.params).length
  have hmL := Nat.le_max_right N1 (extrSubs env m.params).length
  obtain ⟨F, rfl⟩ : ∃ F, fuel = F + 2 := ⟨fuel - 2, by omega⟩
  have hskl : isSklearnFlow (flowOf env m) = true :=
    isSklearnFlow_flowOf env m h.sk
  have hcp : (flowOf env m).classPath = some m.classPath := by
    rw [flowOf]
    rfl
  have hpar : (flowOf env m).parameters =
      m.params.map (fun p => (PName.strN p.1, extrFV p.1 p.2)) := by
    rw [flowOf]
    rfl
  have hcomps : (flowOf env m).components = extrSubs env m.params := by
    rw [flowOf]
    rfl
  have hp1 : deserializeParams ct F ((flowOf env m).parameters)
      (some ((flowOf env m).components)) false =
      .ok (m.params.map fun p => (PName.strN p.1, p.2), some []) := by
    rw [hpar, hcomps]
    exact h1 F (by omega)
  have hc0 : deserializeComponents ct F ((flowOf env m).components)
      [] (m.params.map fun p => (PName.strN p.1, p.2)) =
      .ok (m.params.map fun p => (PName.strN p.1, p.2)) := by
    rw [hcomps]
    exact deserializeComponents_empty ct _ F (by omega) _
  obtain ⟨ds, hds⟩ := Option.isSome_iff_exists.mp h.ctSome
  have hmod : deserializeModelD ct (F + 1) (flowOf env m) false =
      .ok (.mmodel m) := by
    rw [deserializeModelD, hcp]
    simp only [hp1, hc0]
    simp [h.dot, hds, toKwargs_map_strN, modelEta]
  simp only [deserialize, hskl, if_true, hmod]
termination_by (sizeOf m, 1)
decreasing_by
  refine Prod.Lex.left _ _ ?_
  cases m with
  | mk c p =>
      simp [Model.params]
      try omega

theorem stable_deserializeParamsLoop (env : String → String)
    (ct : String → Option (List String)) (l : List (String × MVal))
    (hvals : ∀ p ∈ l, SParamV env ct p.2)
    (hnd : (l.map Prod.fst).Nodup) :
    ∃ N, ∀ fuel, N ≤ fuel →
      deserializeParams ct fuel
        (l.map fun p => (PName.strN p.1, extrFV p.1 p.2))
        (some (extrSubs env l)) false =
        .ok (l.map fun p => (PName.strN p.1, p.2), some []) := by
  match l with
  | [] =>
      refine ⟨0, fun fuel _ => ?_⟩
      rw [extrSubs_nil]
      cases fuel <;> rfl
  | (k, v) :: rest =>
      have hv : SParamV env ct v := hvals (k, v) (List.mem_cons_self _ _)
      have hvr : ∀ p ∈ rest, SParamV env ct p.2 :=
        fun p hp => hvals p (List.mem_cons_of_mem _ hp)
      have hndr : (rest.map Prod.fst).Nodup :=
        (List.nodup_cons.mp (by simpa using hnd)).2
      have hkr : k ∉ rest.map Prod.fst :=
        (List.nodup_cons.mp (by simpa using hnd)).1
      obtain ⟨N2, h2⟩ := stable_deserializeParamsLoop env ct rest hvr hndr
      rcases sparamv_cases hv with ⟨hp, hguard, hsz⟩ | ⟨sub, hveq, hm⟩
      · obtain ⟨N1, hp1⟩ := plain_deserialize hp
        refine ⟨max N1 N2 + 1, fun fuel hf => ?_⟩
        have hmN := Nat.le_max_left N1 N2
        have hmM := Nat.le_max_right N1 N2
        obtain ⟨F, rfl⟩ : ∃ F, fuel = F + 1 := ⟨fuel - 1, by omega⟩
        rw [extrSubs_cons_plain env hp]
        simp only [List.map_cons, deserializeParams, extrFV_plain hp,
          fvalToD, hp1 F (by omega) _ false, exbind_ok,
          h2 F (by omega)]
      · obtain ⟨N0, h0⟩ := stable_deserializeFlow env ct sub hm
        rw [hveq]
        refine ⟨max (max N0 4 + 3) N2 + 1, fun fuel hf => ?_⟩
        have hmN := Nat.le_max_left (max N0 4 + 3) N2
        have hmM := Nat.le_max_right (max N0 4 + 3) N2
        obtain ⟨F, rfl⟩ : ∃ F, fuel = F + 1 := ⟨fuel - 1, by omega⟩
        have hpool : alookup ((k, flowOf env sub) :: extrSubs env rest) k
            = some (flowOf env sub) := by
          simp [alookup]
        have href := ref_envelope_decode ct k
          ((k, flowOf env sub) :: extrSubs env rest) (flowOf env sub)
          (.mmodel sub) none N0 hpool h0 F (by omega)
        have hzer : aerase ((k, flowOf env sub) :: extrSubs env rest) k =
            extrSubs env rest := by
          have hfr : k ∉ akeys (extrSubs env rest) :=
            fun hmem => hkr (mem_akeys_extrSubs env hmem)
          simp [aerase, aerase_fresh hfr]
        rw [hzer] at href
        rw [extrSubs_cons_model]
        simp only [List.map_cons]
        rw [show extrFV k (MVal.mmodel sub) =
          FVal.fstrParsed (refEnvelopeJ k) from rfl]
        simp only [deserializeParams, fvalToD, href, exbind_ok,
          h2 F (by omega)]
termination_by (sizeOf l, 0)
decreasing_by
  all_goals
    refine Prod.Lex.left _ _ ?_
    try rw [hveq]
    simp
    try omega

end

/-- C1.  Model-flow round trip on the stable universe: for a stable model
(sorted duplicate-free parameters whose values are plain JSON-like data or
directly-nested stable estimators, duplicate-free serialized component
names, and an importable dotted sklearn class path), a successful
`_serialize_model` followed by `flow_to_model` (with defaults off)
reproduces the original model exactly.  The unrestricted claim is refuted
by `model_round_trip_tuple_counterexample`: a tuple-valued parameter comes
back as a list. -/
theorem model_flow_round_trip (env : String → String)
    (ct : String → Option (List String)) (m : Model) (fl : Flow)
    (hst : StableModel env ct m)
    (hser : serializeModel env m = .ok fl) :
    ∃ N, ∀ fuel, N ≤ fuel →
      flow_to_model ct fuel fl false = .ok (.mmodel m, none) := by
  have h2 := stable_serializeModel env ct m hst
  rw [hser] at h2
  injection h2 with h3
  subst h3
  obtain ⟨N, hN⟩ := stable_deserializeFlow env ct m hst
  exact ⟨N, fun fuel hf => hN fuel hf⟩

def c1env : String → String := fun _ => "0.0"

def c1ct : String → Option (List String) := fun _ => some []

def c1sub : Model := Model.mk "sklearn.svm.C" []

def c1m : Model := Model.mk "sklearn.tree.T"
  [("alpha", .mint 7), ("est", .mmodel c1sub)]

theorem c1sub_stable : StableModel c1env c1ct c1sub := by
  refine .intro c1sub rfl (by simp [c1sub, Model.params]) ?_ ?_
    (by decide) rfl (by decide)
  · intro p hp
    simp [c1sub, Model.params] at hp
  · simp [c1sub, Model.params, extrSubs, checkDupStack]

theorem c1m_stable : StableModel c1env c1ct c1m := by
  refine .intro c1m rfl (by simp [c1m, Model.params]) ?_ ?_
    (by decide) rfl (by decide)
  · intro p hp
    simp only [c1m, Model.params, List.mem_cons, List.not_mem_nil,
      or_false] at hp
    rcases hp with rfl | rfl
    · exact SParamV.plain (Plain.pint 7)
        (by simp [plainToSer, isSeqOfSeqsSameType, seqElems])
        (by simp [plainToSer, serEmptySized])
    · exact SParamV.comp c1sub_stable
  · simp [c1m, c1sub, Model.params, extrSubs, flowOf, checkDupStack,
      Flow.components, Flow.name, getExternalVersionString]

theorem model_flow_round_trip_witness :
    serializeModel c1env c1m = .ok (flowOf c1env c1m) ∧
    (∃ N, ∀ fuel, N ≤ fuel →
      flow_to_model c1ct fuel (flowOf c1env c1m) false =
        .ok (.mmodel c1m, none)) :=
  ⟨stable_serializeModel c1env c1ct c1m c1m_stable,
    model_flow_round_trip c1env c1ct c1m (flowOf c1env c1m) c1m_stable
      (stable_serializeModel c1env c1ct c1m c1m_stable)⟩

end OpenML
